import Mathlib

/-!
# Ownership-tracking pointers: shared / weak / unique / intrusive

A shallow embedding of `shared_and_weak/sw_fwd.h`, `shared_and_weak/shared.h`,
`shared_and_weak/weak.h`, `unique/unique.h` and `intrusive/intrusive.h`.

* Control blocks live in a heap (a list indexed by block address).  A null
  `ControlBlock*` is `none`, a non-null one is `some b`.  Reference-counted
  objects of the intrusive family live in a heap of their own, in the same way.
* Payload addresses (`T*`) of the shared and unique families are natural
  numbers, `0` being `nullptr`.
* `size_t` counters are natural numbers; `++` and `--` wrap modulo `2 ^ 64`.
* A function returns `none` when the C++ code reads or writes a control block
  or an object that has been deallocated (or was never allocated): undefined
  behaviour.  `RefCounted::DecRef` recurses through the destructor of the
  object; the recursion is bounded by a fuel argument and `none` is also the
  result when the fuel runs out (fuel two always suffices).
* Event counters that the C++ code does not have are kept to observe events:
  per control block `deleter_calls` (calls of the virtual `Deleter()`) and
  `deleted` (executions of `delete this`), per reference-counted object
  `destroyed` (calls of `Deleter().Destroy`) and `wraps` (decrements applied to
  a counter holding `0`), and for `UniquePtr` a log of the deleter calls.
* Sequences of operations run on program states (`SharedWorld`, `FamilyWorld`,
  `IntrusiveWorld`): the memory together with the handle variables in scope.
-/

namespace SmartPtrs

/-- Number of values of a 64-bit `size_t`. -/
def SIZE_MOD : Nat := 2 ^ 64

/-- The value of `++c` on a `size_t`. -/
def incr (c : Nat) : Nat := (c + 1) % SIZE_MOD

/-- The value of `--c` on a `size_t`: `0` wraps to `2 ^ 64 - 1`. -/
def decr (c : Nat) : Nat := if c = 0 then SIZE_MOD - 1 else (c - 1) % SIZE_MOD

/-- The class `WeakPtr<T>`: fields `control_block_` and `ptr_`. -/
structure WeakPtr where
  control_block_ : Option Nat
  ptr_ : Nat
deriving DecidableEq, Repr

/-- The class `SharedPtr<T>`: fields `control_block_` and `ptr_`. -/
structure SharedPtr where
  control_block_ : Option Nat
  ptr_ : Nat
deriving DecidableEq, Repr

/-- The object a control block manages (`ControlBlockPtr::ptr_` points to it,
`ControlBlockObj::object_` stores it).  `esft` says whether its type derives
from `EnableSharedFromThis` (the `if constexpr` test of the constructors); if
so `weak_this_` is the member of that base class. -/
structure Payload where
  addr : Nat
  esft : Bool
  weak_this_ : WeakPtr
deriving DecidableEq, Repr

/-- The class `ControlBlock` with its two counters, the object it manages and
the two event counters. -/
structure ControlBlock where
  shared_count_ : Nat
  weak_count_ : Nat
  payload : Payload
  deleter_calls : Nat
  deleted : Nat
deriving DecidableEq, Repr

/-- Memory holding the control blocks; the index of a block is its address. -/
abbrev Heap := List ControlBlock

/-- Dereference a `ControlBlock*`: `none` when the block is not allocated. -/
def Heap.block (h : Heap) (b : Nat) : Option ControlBlock :=
  match h[b]? with
  | some blk => if blk.deleted = 0 then some blk else none
  | none => none

/-- Number of `Deleter()` calls recorded for block `b`. -/
def Heap.deleterCalls (h : Heap) (b : Nat) : Nat :=
  match h[b]? with
  | some blk => blk.deleter_calls
  | none => 0

/-- Number of `delete this` executions recorded for block `b`. -/
def Heap.deletedCount (h : Heap) (b : Nat) : Nat :=
  match h[b]? with
  | some blk => blk.deleted
  | none => 0

/-- Source: `ControlBlock::IncrementSharedCount`. -/
def ControlBlock.IncrementSharedCount (h : Heap) (b : Nat) : Option Heap :=
  match h.block b with
  | none => none
  | some blk => some (h.set b { blk with shared_count_ := incr blk.shared_count_ })

/-- Source: `ControlBlock::IncrementWeakCount`. -/
def ControlBlock.IncrementWeakCount (h : Heap) (b : Nat) : Option Heap :=
  match h.block b with
  | none => none
  | some blk => some (h.set b { blk with weak_count_ := incr blk.weak_count_ })

/-- Source: `ControlBlock::DecrementWeakCount`:
`if (--weak_count_ == 0 && shared_count_ == 0) delete this;`. -/
def ControlBlock.DecrementWeakCount (h : Heap) (b : Nat) : Option Heap :=
  match h.block b with
  | none => none
  | some blk =>
    let blk1 := { blk with weak_count_ := decr blk.weak_count_ }
    if blk1.weak_count_ = 0 ∧ blk1.shared_count_ = 0 then
      some (h.set b { blk1 with deleted := blk1.deleted + 1 })
    else
      some (h.set b blk1)

/-- Source: `ControlBlock::GetSharedCount`. -/
def ControlBlock.GetSharedCount (h : Heap) (b : Nat) : Option Nat :=
  match h.block b with
  | none => none
  | some blk => some blk.shared_count_

/-- Source: `ControlBlock::GetWeakCount`. -/
def ControlBlock.GetWeakCount (h : Heap) (b : Nat) : Option Nat :=
  match h.block b with
  | none => none
  | some blk => some blk.weak_count_

/-- Source: `WeakPtr::IncreaseCount`. -/
def WeakPtr.IncreaseCount (h : Heap) (w : WeakPtr) : Option Heap :=
  match w.control_block_ with
  | none => some h
  | some b => ControlBlock.IncrementWeakCount h b

/-- Source: `WeakPtr::DecreaseCount`. -/
def WeakPtr.DecreaseCount (h : Heap) (w : WeakPtr) : Option Heap :=
  match w.control_block_ with
  | none => some h
  | some b => ControlBlock.DecrementWeakCount h b

/-- Source: `WeakPtr::Reset` (also the destructor `~WeakPtr`): `DecreaseCount();
control_block_ = nullptr;`.  The field `ptr_` is left as it is. -/
def WeakPtr.Reset (h : Heap) (w : WeakPtr) : Option (Heap × WeakPtr) :=
  match WeakPtr.DecreaseCount h w with
  | none => none
  | some h1 => some (h1, { w with control_block_ := none })

/-- The virtual `ControlBlock::Deleter` (`delete ptr_` for `ControlBlockPtr`,
`Get()->~T()` for `ControlBlockObj`): the destructor of the managed object
runs; for a type deriving from `EnableSharedFromThis` this destroys the member
`weak_this_`. -/
def ControlBlock.Deleter (h : Heap) (b : Nat) : Option Heap :=
  match h.block b with
  | none => none
  | some blk =>
    let h1 := h.set b { blk with deleter_calls := blk.deleter_calls + 1 }
    if blk.payload.esft then
      match WeakPtr.Reset h1 blk.payload.weak_this_ with
      | none => none
      | some (h2, w) =>
        match h2[b]? with
        | none => none
        | some blk2 => some (h2.set b { blk2 with payload := { blk2.payload with weak_this_ := w } })
    else
      some h1

/-- Source: `ControlBlock::DecrementSharedCount`:
`if (shared_count_ == 1) Deleter(); --shared_count_;
if (shared_count_ == 0 && weak_count_ == 0) delete this;`. -/
def ControlBlock.DecrementSharedCount (h : Heap) (b : Nat) : Option Heap :=
  match h.block b with
  | none => none
  | some blk =>
    match (if blk.shared_count_ = 1 then ControlBlock.Deleter h b else some h) with
    | none => none
    | some h1 =>
      match h1.block b with
      | none => none
      | some blk1 =>
        let blk2 := { blk1 with shared_count_ := decr blk1.shared_count_ }
        if blk2.shared_count_ = 0 ∧ blk2.weak_count_ = 0 then
          some (h1.set b { blk2 with deleted := blk2.deleted + 1 })
        else
          some (h1.set b blk2)

/-- The exception class `BadWeakPtr`. -/
inductive BadWeakPtr where
  | mk
deriving DecidableEq, Repr

/-- Source: `WeakPtr::WeakPtr()`. -/
def WeakPtr.empty : WeakPtr := { control_block_ := none, ptr_ := 0 }

/-- Source: `SharedPtr::SharedPtr()` and `SharedPtr(std::nullptr_t)`. -/
def SharedPtr.empty : SharedPtr := { control_block_ := none, ptr_ := 0 }

/-- Source: `WeakPtr::WeakPtr(const WeakPtr&)`. -/
def WeakPtr.copy (h : Heap) (other : WeakPtr) : Option (Heap × WeakPtr) :=
  let w : WeakPtr := { control_block_ := other.control_block_, ptr_ := other.ptr_ }
  match WeakPtr.IncreaseCount h w with
  | none => none
  | some h1 => some (h1, w)

/-- Source: `WeakPtr::WeakPtr(WeakPtr&&)`: the new handle and the moved-from one. -/
def WeakPtr.move (other : WeakPtr) : WeakPtr × WeakPtr :=
  ({ control_block_ := other.control_block_, ptr_ := other.ptr_ },
   { control_block_ := none, ptr_ := 0 })

/-- Source: `WeakPtr::WeakPtr(const SharedPtr<T>&)`. -/
def WeakPtr.ofShared (h : Heap) (other : SharedPtr) : Option (Heap × WeakPtr) :=
  let w : WeakPtr := { control_block_ := other.control_block_, ptr_ := other.ptr_ }
  match WeakPtr.IncreaseCount h w with
  | none => none
  | some h1 => some (h1, w)

/-- Source: `WeakPtr::operator=(const WeakPtr&)`. -/
def WeakPtr.copyAssign (h : Heap) (self other : WeakPtr) : Option (Heap × WeakPtr) :=
  match WeakPtr.DecreaseCount h self with
  | none => none
  | some h1 =>
    let w : WeakPtr := { control_block_ := other.control_block_, ptr_ := other.ptr_ }
    match WeakPtr.IncreaseCount h1 w with
    | none => none
    | some h2 => some (h2, w)

/-- Source: `WeakPtr::operator=(WeakPtr&&)`: the assigned handle and the moved-from
one. -/
def WeakPtr.moveAssign (h : Heap) (self other : WeakPtr) : Option (Heap × WeakPtr × WeakPtr) :=
  match WeakPtr.DecreaseCount h self with
  | none => none
  | some h1 =>
    some (h1, { control_block_ := other.control_block_, ptr_ := other.ptr_ },
      { control_block_ := none, ptr_ := 0 })

/-- Source: `WeakPtr::Swap`. -/
def WeakPtr.Swap (self other : WeakPtr) : WeakPtr × WeakPtr := (other, self)

/-- Source: `WeakPtr::UseCount`. -/
def WeakPtr.UseCount (h : Heap) (w : WeakPtr) : Option Nat :=
  match w.control_block_ with
  | none => some 0
  | some b => ControlBlock.GetSharedCount h b

/-- Source: `WeakPtr::Expired`: `!UseCount()`. -/
def WeakPtr.Expired (h : Heap) (w : WeakPtr) : Option Bool :=
  match WeakPtr.UseCount h w with
  | none => none
  | some c => some (decide (c = 0))

/-- Source: `SharedPtr::IncreaseCount`. -/
def SharedPtr.IncreaseCount (h : Heap) (s : SharedPtr) : Option Heap :=
  match s.control_block_ with
  | none => some h
  | some b => ControlBlock.IncrementSharedCount h b

/-- Source: `SharedPtr::DecreaseCount`. -/
def SharedPtr.DecreaseCount (h : Heap) (s : SharedPtr) : Option Heap :=
  match s.control_block_ with
  | none => some h
  | some b => ControlBlock.DecrementSharedCount h b

/-- Source: `SharedPtr::Reset()` (also the destructor `~SharedPtr`). -/
def SharedPtr.Reset (h : Heap) (s : SharedPtr) : Option (Heap × SharedPtr) :=
  match SharedPtr.DecreaseCount h s with
  | none => none
  | some h1 => some (h1, { control_block_ := none, ptr_ := 0 })

/-- Source: `SharedPtr::SharedPtr(const SharedPtr&)` and its converting template. -/
def SharedPtr.copy (h : Heap) (other : SharedPtr) : Option (Heap × SharedPtr) :=
  let s : SharedPtr := { control_block_ := other.control_block_, ptr_ := other.ptr_ }
  match SharedPtr.IncreaseCount h s with
  | none => none
  | some h1 => some (h1, s)

/-- Source: `SharedPtr::SharedPtr(SharedPtr&&)`: the new handle and the moved-from
one. -/
def SharedPtr.move (other : SharedPtr) : SharedPtr × SharedPtr :=
  ({ control_block_ := other.control_block_, ptr_ := other.ptr_ },
   { control_block_ := none, ptr_ := 0 })

/-- The aliasing constructor `SharedPtr(const SharedPtr<Y>& other, T* ptr)`. -/
def SharedPtr.alias (h : Heap) (other : SharedPtr) (ptr : Nat) : Option (Heap × SharedPtr) :=
  let s : SharedPtr := { control_block_ := other.control_block_, ptr_ := ptr }
  match SharedPtr.IncreaseCount h s with
  | none => none
  | some h1 => some (h1, s)

/-- The promotion constructor `SharedPtr(const WeakPtr<T>& other)`:
`Except.error` is the thrown `BadWeakPtr`, returned with the memory as the
throw leaves it. -/
def SharedPtr.ofWeak (h : Heap) (other : WeakPtr) :
    Option (Heap × Except BadWeakPtr SharedPtr) :=
  match WeakPtr.Expired h other with
  | none => none
  | some true => some (h, Except.error BadWeakPtr.mk)
  | some false =>
    let s : SharedPtr := { control_block_ := other.control_block_, ptr_ := other.ptr_ }
    match SharedPtr.IncreaseCount h s with
    | none => none
    | some h1 => some (h1, Except.ok s)

/-- Source: `WeakPtr::Lock`. -/
def WeakPtr.Lock (h : Heap) (w : WeakPtr) : Option (Heap × Except BadWeakPtr SharedPtr) :=
  match w.control_block_ with
  | none => some (h, Except.ok SharedPtr.empty)
  | some _ =>
    match WeakPtr.UseCount h w with
    | none => none
    | some c =>
      if c ≠ 0 then SharedPtr.ofWeak h w else some (h, Except.ok SharedPtr.empty)

/-- Source: `SharedPtr::InitWeakThis(e)`, `e->weak_this_ = WeakPtr<Y>(*this);`, for the
object `e` managed by the control block of `*this` (the only way the
constructors call it).  A temporary `WeakPtr` is built from `*this`, move-
assigned to `e->weak_this_`, and destroyed. -/
def SharedPtr.InitWeakThis (h : Heap) (self : SharedPtr) (e : Nat) : Option Heap :=
  if e = 0 then none else
  match self.control_block_ with
  | none => none
  | some b =>
    match WeakPtr.ofShared h self with
    | none => none
    | some (h1, tmp) =>
      match h1.block b with
      | none => none
      | some blk =>
        match WeakPtr.moveAssign h1 blk.payload.weak_this_ tmp with
        | none => none
        | some (h2, wt, tmp2) =>
          match h2.block b with
          | none => none
          | some blk2 =>
            let h3 := h2.set b { blk2 with payload := { blk2.payload with weak_this_ := wt } }
            match WeakPtr.Reset h3 tmp2 with
            | none => none
            | some (h4, _) => some h4

/-- The constructor `ControlBlock()` under `ControlBlockPtr<Y>(ptr)` or
`ControlBlockObj<T>(args...)`: `shared_count_(1), weak_count_(0)`, managing the
object at `addr`, whose `weak_this_` (if any) is default-constructed. -/
def ControlBlock.init (addr : Nat) (esft : Bool) : ControlBlock :=
  { shared_count_ := 1, weak_count_ := 0,
    payload := { addr := addr, esft := esft, weak_this_ := WeakPtr.empty },
    deleter_calls := 0, deleted := 0 }

/-- Source: `SharedPtr::SharedPtr(Y* ptr)`: `new ControlBlockPtr<Y>(ptr)` takes the next
free address; `esft` is `std::is_convertible_v<Y*, EnableSharedFromThisBase*>`. -/
def SharedPtr.ofRaw (h : Heap) (ptr : Nat) (esft : Bool) : Option (Heap × SharedPtr) :=
  let s : SharedPtr := { control_block_ := some h.length, ptr_ := ptr }
  let h1 := h ++ [ControlBlock.init ptr esft]
  if esft then
    match SharedPtr.InitWeakThis h1 s ptr with
    | none => none
    | some h2 => some (h2, s)
  else
    some (h1, s)

/-- Source: `MakeShared<T>(args...)`: `SharedPtr(new ControlBlockObj<T>(args...))`.
`obj` is the address of the member `object_` of the new block
(`control_block->Get()`). -/
def MakeShared (h : Heap) (obj : Nat) (esft : Bool) : Option (Heap × SharedPtr) :=
  let s : SharedPtr := { control_block_ := some h.length, ptr_ := obj }
  let h1 := h ++ [ControlBlock.init obj esft]
  if esft then
    match SharedPtr.InitWeakThis h1 s s.ptr_ with
    | none => none
    | some h2 => some (h2, s)
  else
    some (h1, s)

/-- Source: `SharedPtr::operator=(const SharedPtr&)`.  In a self-assignment `other` is
`*this`; no field of `*this` is written before `other` is read, so the value
of `other` at entry is what the body reads. -/
def SharedPtr.copyAssign (h : Heap) (self other : SharedPtr) : Option (Heap × SharedPtr) :=
  match SharedPtr.DecreaseCount h self with
  | none => none
  | some h1 =>
    let s : SharedPtr := { control_block_ := other.control_block_, ptr_ := other.ptr_ }
    match SharedPtr.IncreaseCount h1 s with
    | none => none
    | some h2 => some (h2, s)

/-- Source: `SharedPtr::operator=(SharedPtr&&)` between two distinct handles: the
assigned handle and the moved-from one. -/
def SharedPtr.moveAssign (h : Heap) (self other : SharedPtr) :
    Option (Heap × SharedPtr × SharedPtr) :=
  match SharedPtr.DecreaseCount h self with
  | none => none
  | some h1 =>
    some (h1, { control_block_ := other.control_block_, ptr_ := other.ptr_ },
      { control_block_ := none, ptr_ := 0 })

/-- Source: `SharedPtr::Reset(Y* ptr)`:
`DecreaseCount(); control_block_ = new ControlBlockPtr<Y>(ptr); ptr_ = ptr;`.
`InitWeakThis` is not called here, so the object of the new block has no self
reference installed. -/
def SharedPtr.ResetPtr (h : Heap) (self : SharedPtr) (ptr : Nat) : Option (Heap × SharedPtr) :=
  match SharedPtr.DecreaseCount h self with
  | none => none
  | some h1 =>
    some (h1 ++ [ControlBlock.init ptr false], { control_block_ := some h1.length, ptr_ := ptr })

/-- Source: `SharedPtr::Swap`. -/
def SharedPtr.Swap (self other : SharedPtr) : SharedPtr × SharedPtr := (other, self)

/-- Source: `SharedPtr::Get`. -/
def SharedPtr.Get (s : SharedPtr) : Nat := s.ptr_

/-- Source: `SharedPtr::UseCount`. -/
def SharedPtr.UseCount (h : Heap) (s : SharedPtr) : Option Nat :=
  match s.control_block_ with
  | none => some 0
  | some b => ControlBlock.GetSharedCount h b

/-- Source: `SharedPtr::operator bool`. -/
def SharedPtr.toBool (s : SharedPtr) : Bool := decide (s.ptr_ ≠ 0)

/-- Source: `operator==` on two `SharedPtr`. -/
def SharedPtr.eq (left right : SharedPtr) : Bool := decide (left.Get = right.Get)

/-- Source: `EnableSharedFromThis::SharedFromThis` called on the object managed by
block `b`: `weak_this_.Lock()`.  The object must still be alive and its type
must derive from `EnableSharedFromThis`. -/
def EnableSharedFromThis.SharedFromThis (h : Heap) (b : Nat) :
    Option (Heap × Except BadWeakPtr SharedPtr) :=
  match h[b]? with
  | none => none
  | some blk =>
    if blk.payload.esft = true ∧ blk.deleter_calls = 0 then
      WeakPtr.Lock h blk.payload.weak_this_
    else none

/-- A live handle, strong or weak. -/
inductive Handle where
  | strong (s : SharedPtr)
  | weak (w : WeakPtr)
deriving DecidableEq, Repr

/-- The control block a handle refers to. -/
def Handle.control_block_ : Handle → Option Nat
  | Handle.strong s => s.control_block_
  | Handle.weak w => w.control_block_

/-- Whether a handle is a strong one. -/
def Handle.isStrong : Handle → Bool
  | Handle.strong _ => true
  | Handle.weak _ => false

/-- Release one handle: `SharedPtr::Reset()` / `~SharedPtr` for a strong one,
`WeakPtr::Reset()` / `~WeakPtr` for a weak one. -/
def Handle.release (h : Heap) : Handle → Option Heap
  | Handle.strong s =>
    match SharedPtr.Reset h s with
    | none => none
    | some (h1, _) => some h1
  | Handle.weak w =>
    match WeakPtr.Reset h w with
    | none => none
    | some (h1, _) => some h1

/-- Release the handles of a list one by one, in the order of the list. -/
def releaseAll (h : Heap) : List Handle → Option Heap
  | [] => some h
  | x :: xs =>
    match Handle.release h x with
    | none => none
    | some h1 => releaseAll h1 xs

/-- Make `n` copies of the handle `s` with the copy constructor, one after the
other; returns the copies. -/
def makeCopies (h : Heap) (s : SharedPtr) : Nat → Option (Heap × List SharedPtr)
  | 0 => some (h, [])
  | n + 1 =>
    match SharedPtr.copy h s with
    | none => none
    | some (h1, c) =>
      match makeCopies h1 s n with
      | none => none
      | some (h2, cs) => some (h2, c :: cs)

/-- Whether the self reference of the object managed by block `b` is installed
(the object derives from `EnableSharedFromThis` and its `weak_this_` refers to
block `b`). -/
def ControlBlock.wired (b : Nat) (blk : ControlBlock) : Bool :=
  blk.payload.esft && decide (blk.payload.weak_this_.control_block_ = some b)

/-- The self reference of the object managed by block `b` is empty or refers to
block `b` itself, as `InitWeakThis` installs it. -/
def ControlBlock.SelfRefOk (b : Nat) (blk : ControlBlock) : Prop :=
  blk.payload.esft = true →
    blk.payload.weak_this_.control_block_ = none ∨
    blk.payload.weak_this_.control_block_ = some b

/-- Block `b` of `h` is referenced by exactly `s` strong handles and `w` weak
handles outside the managed object, `d0` being the number of `Deleter()` calls
made before the strong count was last positive: both counters are in the range
of `size_t`, the strong count is `s`, the weak count is `w` plus one for an
installed self reference of a live object, the payload has been destroyed once
more than `d0` exactly if `s = 0`, and the block has been deallocated (once)
exactly if `s = 0` and `w = 0`. -/
def Tracks (h : Heap) (b s w d0 : Nat) : Prop :=
  ∃ blk, h[b]? = some blk ∧ blk.shared_count_ = s ∧ s < SIZE_MOD ∧
    blk.weak_count_ < SIZE_MOD ∧
    blk.deleter_calls = d0 + (if s = 0 then 1 else 0) ∧
    blk.deleted = (if s = 0 ∧ w = 0 then 1 else 0) ∧
    blk.weak_count_ = w + (if 0 < s ∧ blk.wired b = true then 1 else 0) ∧
    (0 < s → blk.SelfRefOk b)

/-- Number of strong handles in a list. -/
def strongCount (hs : List Handle) : Nat := hs.countP Handle.isStrong

/-- Number of weak handles in a list. -/
def weakCount (hs : List Handle) : Nat := hs.countP (fun x => !x.isStrong)

/-- Well-formedness of block `b` as the library maintains it: both counters are
values of `size_t`, the self reference of the managed object is empty or refers
to block `b`, and an installed self reference is counted in `weak_count_`. -/
def ControlBlock.WellFormed (b : Nat) (blk : ControlBlock) : Prop :=
  blk.shared_count_ < SIZE_MOD ∧ blk.weak_count_ < SIZE_MOD ∧ blk.SelfRefOk b ∧
  (blk.wired b = true → 1 ≤ blk.weak_count_)

/-- Number of weak handles on block `b` outside the managed object: the weak
count less the installed self reference. -/
def ControlBlock.outerWeak (b : Nat) (blk : ControlBlock) : Nat :=
  blk.weak_count_ - (if blk.wired b = true then 1 else 0)

instance (b : Nat) (blk : ControlBlock) : Decidable (blk.SelfRefOk b) := by
  unfold ControlBlock.SelfRefOk
  infer_instance

instance (b : Nat) (blk : ControlBlock) : Decidable (blk.WellFormed b) := by
  unfold ControlBlock.WellFormed
  infer_instance

/-- The block `SharedPtr(Y* ptr)` creates for an object at address `100` of a
type deriving from `EnableSharedFromThis`, once `InitWeakThis` has run. -/
def sampleBlock : ControlBlock :=
  { shared_count_ := 1, weak_count_ := 1,
    payload := { addr := 100, esft := true,
                 weak_this_ := { control_block_ := some 0, ptr_ := 100 } },
    deleter_calls := 0, deleted := 0 }

/-- The handle `SharedPtr(Y* ptr)` returns for that object in an empty memory. -/
def sampleShared : SharedPtr := { control_block_ := some 0, ptr_ := 100 }

/-- The stored strong counter of block `b`, read even after deallocation. -/
def Heap.sharedCountAt (h : Heap) (b : Nat) : Nat :=
  match h[b]? with
  | some blk => blk.shared_count_
  | none => 0

/-- The stored weak counter of block `b`, read even after deallocation. -/
def Heap.weakCountAt (h : Heap) (b : Nat) : Nat :=
  match h[b]? with
  | some blk => blk.weak_count_
  | none => 0

/-- A block with two strong handles, one weak handle outside the object and an
installed self reference: `sampleBlock` after one `SharedPtr` copy and one
`WeakPtr(const SharedPtr&)`. -/
def sampleBlock2 : ControlBlock :=
  { shared_count_ := 2, weak_count_ := 2,
    payload := { addr := 100, esft := true,
                 weak_this_ := { control_block_ := some 0, ptr_ := 100 } },
    deleter_calls := 0, deleted := 0 }

/-- The weak handle `WeakPtr(sampleShared)`. -/
def sampleWeak : WeakPtr := { control_block_ := some 0, ptr_ := 100 }

/-- The block that `SharedPtr(Y* ptr)` or `MakeShared` leaves at address `b`
for an object at `p` whose type derives from `EnableSharedFromThis`: counts
`1` and `1`, the self reference installed. -/
def ControlBlock.captured (b p : Nat) : ControlBlock :=
  { shared_count_ := 1, weak_count_ := 1,
    payload := { addr := p, esft := true,
                 weak_this_ := { control_block_ := some b, ptr_ := p } },
    deleter_calls := 0, deleted := 0 }

/-! ## `unique/unique.h` -/

/-- The primary template `UniquePtr<T, Deleter>`: its member `ptr_` is a
`CompressedPair<T*, Deleter>`; `first` is `ptr_.GetFirst()` and `second` is
`ptr_.GetSecond()`. -/
structure UniquePtr (D : Type) where
  first : Nat
  second : D
deriving DecidableEq, Repr

/-- The specialization `UniquePtr<T[], Deleter>`, with the same member. -/
structure UniquePtrArray (D : Type) where
  first : Nat
  second : D
deriving DecidableEq, Repr

/-- The calls `GetDeleter()(ptr)` made so far, oldest first: the deleter
instance invoked and its argument. -/
abbrev DeleterLog (D : Type) := List (D × Nat)

/-- Source: `UniquePtr::Get`. -/
def UniquePtr.Get {D : Type} (u : UniquePtr D) : Nat := u.first

/-- Source: `UniquePtr::GetDeleter`. -/
def UniquePtr.GetDeleter {D : Type} (u : UniquePtr D) : D := u.second

/-- Source: `UniquePtr::operator bool`. -/
def UniquePtr.toBool {D : Type} (u : UniquePtr D) : Bool := decide (u.Get ≠ 0)

/-- Source: `UniquePtr::Release`: the returned pointer and the handle afterwards. -/
def UniquePtr.Release {D : Type} (u : UniquePtr D) : Nat × UniquePtr D :=
  let tmp := u.first
  (tmp, { u with first := 0 })

/-- Source: `UniquePtr::Reset(T* ptr = nullptr)`:
`if (Get() != ptr) GetDeleter()(Release()); if (ptr != nullptr) ptr_.GetFirst() = ptr;`. -/
def UniquePtr.Reset {D : Type} (log : DeleterLog D) (u : UniquePtr D) (ptr : Nat) :
    DeleterLog D × UniquePtr D :=
  let r : DeleterLog D × UniquePtr D :=
    if u.Get ≠ ptr then
      let released := u.Release
      (log ++ [(released.2.GetDeleter, released.1)], released.2)
    else (log, u)
  if ptr ≠ 0 then (r.1, { r.2 with first := ptr }) else r

/-- The body of `UniquePtr::~UniquePtr`: `Reset();`. -/
def UniquePtr.destroy {D : Type} (log : DeleterLog D) (u : UniquePtr D) :
    DeleterLog D × UniquePtr D :=
  UniquePtr.Reset log u 0

/-- Source: `UniquePtr::UniquePtr(UniquePtr<F, S>&& other)`, deleter types taken equal:
`ptr_` starts value-initialised (null pointer, deleter `dflt`), then
`ptr_.GetSecond() = std::move(other.GetDeleter());
ptr_.GetFirst() = std::move(other.Release());`.  `moved d` is the state a
deleter `d` is left in when moved from.  Returns the log, the new handle and
`other` afterwards. -/
def UniquePtr.moveCtor {D : Type} (moved : D → D) (dflt : D) (log : DeleterLog D)
    (other : UniquePtr D) : DeleterLog D × UniquePtr D × UniquePtr D :=
  let self0 : UniquePtr D := { first := 0, second := dflt }
  let self1 : UniquePtr D := { self0 with second := other.GetDeleter }
  let other1 : UniquePtr D := { other with second := moved other.second }
  let released := other1.Release
  (log, { self1 with first := released.1 }, released.2)

/-- Source: `UniquePtr::Swap`. -/
def UniquePtr.Swap {D : Type} (self other : UniquePtr D) : UniquePtr D × UniquePtr D :=
  ({ first := other.first, second := other.second },
   { first := self.first, second := self.second })

/-- Source: `UniquePtr<T[]>::Get`. -/
def UniquePtrArray.Get {D : Type} (u : UniquePtrArray D) : Nat := u.first

/-- Source: `UniquePtr<T[]>::GetDeleter`. -/
def UniquePtrArray.GetDeleter {D : Type} (u : UniquePtrArray D) : D := u.second

/-- Source: `UniquePtr<T[]>::operator bool`. -/
def UniquePtrArray.toBool {D : Type} (u : UniquePtrArray D) : Bool := decide (u.Get ≠ 0)

/-- Source: `UniquePtr<T[]>::Release`: `auto tmp = Get(); ptr_.GetFirst() = nullptr;
return tmp;`. -/
def UniquePtrArray.Release {D : Type} (u : UniquePtrArray D) : Nat × UniquePtrArray D :=
  let tmp := u.Get
  (tmp, { u with first := 0 })

/-- Source: `UniquePtr<T[]>::Reset(T* ptr = nullptr)`. -/
def UniquePtrArray.Reset {D : Type} (log : DeleterLog D) (u : UniquePtrArray D) (ptr : Nat) :
    DeleterLog D × UniquePtrArray D :=
  let r : DeleterLog D × UniquePtrArray D :=
    if u.Get ≠ ptr then
      let released := u.Release
      (log ++ [(released.2.GetDeleter, released.1)], released.2)
    else (log, u)
  if ptr ≠ 0 then (r.1, { r.2 with first := ptr }) else r

/-- The body of `UniquePtr<T[]>::~UniquePtr`: `Reset();`. -/
def UniquePtrArray.destroy {D : Type} (log : DeleterLog D) (u : UniquePtrArray D) :
    DeleterLog D × UniquePtrArray D :=
  UniquePtrArray.Reset log u 0

/-- Source: `UniquePtr<T[]>::UniquePtr(UniquePtr<F>&& other)`: `ptr_` starts
value-initialised, then
`if (ptr_.GetFirst() != other.Get()) { ptr_.GetSecond() = std::move(other.GetDeleter());
ptr_.GetFirst() = std::move(other.Release()); }`. -/
def UniquePtrArray.moveCtor {D : Type} (moved : D → D) (dflt : D) (log : DeleterLog D)
    (other : UniquePtrArray D) : DeleterLog D × UniquePtrArray D × UniquePtrArray D :=
  let self0 : UniquePtrArray D := { first := 0, second := dflt }
  if self0.first ≠ other.Get then
    let self1 : UniquePtrArray D := { self0 with second := other.GetDeleter }
    let other1 : UniquePtrArray D := { other with second := moved other.second }
    let released := other1.Release
    (log, { self1 with first := released.1 }, released.2)
  else (log, self0, other)

/-- The block `SharedPtr(Y* ptr)` creates for an object at address `100` whose
type does not derive from `EnableSharedFromThis`, after one
`WeakPtr(const SharedPtr&)`. -/
def plainBlockWithWeak : ControlBlock :=
  { shared_count_ := 1, weak_count_ := 1,
    payload := { addr := 100, esft := false, weak_this_ := WeakPtr.empty },
    deleter_calls := 0, deleted := 0 }

/-- Source: `UniquePtr::operator=(UniquePtr<F, S>&& other)` between two distinct
handles, deleter types taken equal:
`ptr_.GetSecond() = (std::move(other.GetDeleter())); Reset(other.Release());`.
Returns the log, the assigned handle and `other` afterwards. -/
def UniquePtr.moveAssign {D : Type} (moved : D → D) (log : DeleterLog D)
    (self other : UniquePtr D) : DeleterLog D × UniquePtr D × UniquePtr D :=
  let self1 : UniquePtr D := { self with second := other.GetDeleter }
  let other1 : UniquePtr D := { other with second := moved other.second }
  let released := other1.Release
  let r := UniquePtr.Reset log self1 released.1
  (r.1, r.2, released.2)

/-- Source: `UniquePtr<T[]>::operator=(UniquePtr<F>&& other)` between two
distinct handles:
`ptr_.GetSecond() = (std::move(other.GetDeleter())); Reset(other.Release());`. -/
def UniquePtrArray.moveAssign {D : Type} (moved : D → D) (log : DeleterLog D)
    (self other : UniquePtrArray D) : DeleterLog D × UniquePtrArray D × UniquePtrArray D :=
  let self1 : UniquePtrArray D := { self with second := other.GetDeleter }
  let other1 : UniquePtrArray D := { other with second := moved other.second }
  let released := other1.Release
  let r := UniquePtrArray.Reset log self1 released.1
  (r.1, r.2, released.2)

/-- Source: `UniquePtr<T[]>::Swap`. -/
def UniquePtrArray.Swap {D : Type} (self other : UniquePtrArray D) :
    UniquePtrArray D × UniquePtrArray D :=
  ({ first := other.first, second := other.second },
   { first := self.first, second := self.second })

/-- A handle whose control block is null holds the null pointer. -/
def SharedPtr.Consistent (s : SharedPtr) : Prop :=
  s.control_block_ = none → s.ptr_ = 0

instance (s : SharedPtr) : Decidable s.Consistent := by
  unfold SharedPtr.Consistent
  infer_instance

/-- A program state of the shared family: the memory of control blocks and the
`SharedPtr` variables in scope, numbered from `0`. -/
structure SharedWorld where
  heap : Heap
  ptrs : List SharedPtr
deriving DecidableEq, Repr

/-- The mutating operations on `SharedPtr` variables: `ptrs[i] = ptrs[j]`,
`ptrs[i] = std::move(ptrs[j])`, `ptrs[i].Reset()`, `ptrs[i].Reset(q)` and
`ptrs[i].Swap(ptrs[j])`. -/
inductive SharedOp where
  | copyAssign (i j : Nat)
  | moveAssign (i j : Nat)
  | reset (i : Nat)
  | resetPtr (i q : Nat)
  | swap (i j : Nat)
deriving DecidableEq, Repr

/-- Run one operation.  `none` when a variable does not exist or the operation
has undefined behaviour.  In `ptrs[i] = std::move(ptrs[j])` the moved-from
variable is written last, as in the source, so for `i = j` the variable ends
up empty. -/
def SharedWorld.step (w : SharedWorld) : SharedOp → Option SharedWorld
  | SharedOp.copyAssign i j =>
    match w.ptrs[i]?, w.ptrs[j]? with
    | some a, some b =>
      match SharedPtr.copyAssign w.heap a b with
      | none => none
      | some (h1, a1) => some { heap := h1, ptrs := w.ptrs.set i a1 }
    | _, _ => none
  | SharedOp.moveAssign i j =>
    match w.ptrs[i]?, w.ptrs[j]? with
    | some a, some b =>
      match SharedPtr.moveAssign w.heap a b with
      | none => none
      | some (h1, a1, b1) => some { heap := h1, ptrs := (w.ptrs.set i a1).set j b1 }
    | _, _ => none
  | SharedOp.reset i =>
    match w.ptrs[i]? with
    | some a =>
      match SharedPtr.Reset w.heap a with
      | none => none
      | some (h1, a1) => some { heap := h1, ptrs := w.ptrs.set i a1 }
    | none => none
  | SharedOp.resetPtr i q =>
    match w.ptrs[i]? with
    | some a =>
      match SharedPtr.ResetPtr w.heap a q with
      | none => none
      | some (h1, a1) => some { heap := h1, ptrs := w.ptrs.set i a1 }
    | none => none
  | SharedOp.swap i j =>
    match w.ptrs[i]?, w.ptrs[j]? with
    | some a, some b =>
      some { heap := w.heap,
             ptrs := (w.ptrs.set i (SharedPtr.Swap a b).1).set j (SharedPtr.Swap a b).2 }
    | _, _ => none

/-- Run a sequence of operations, first to last. -/
def SharedWorld.run (w : SharedWorld) : List SharedOp → Option SharedWorld
  | [] => some w
  | op :: rest =>
    match w.step op with
    | none => none
    | some w1 => w1.run rest

/-- The program state of the C15 example: two handles of `sampleBlock2` and an
empty handle. -/
def sampleWorld : SharedWorld :=
  { heap := [sampleBlock2], ptrs := [sampleShared, sampleShared, SharedPtr.empty] }

/-- The operations of the C15 example. -/
def sampleOps : List SharedOp :=
  [SharedOp.copyAssign 2 0, SharedOp.swap 0 2, SharedOp.reset 1, SharedOp.resetPtr 0 7,
    SharedOp.moveAssign 1 2]

/-- The program state that `sampleOps` leaves when run from `sampleWorld`. -/
def sampleWorldAfter : SharedWorld :=
  { heap := [{ sampleBlock2 with shared_count_ := 1 }, ControlBlock.init 7 false],
    ptrs := [{ control_block_ := some 1, ptr_ := 7 }, sampleShared, SharedPtr.empty] }

/-! ## `intrusive/intrusive.h` -/

/-- The class `SimpleCounter`: the member `count_`, and an event counter the
C++ code does not have, `wraps`, the number of `--count_` executed while
`count_` was `0`. -/
structure SimpleCounter where
  count_ : Nat
  wraps : Nat
deriving DecidableEq, Repr

/-- Source: `SimpleCounter::IncRef`, `return ++count_;`: the returned value and
the counter afterwards. -/
def SimpleCounter.IncRef (c : SimpleCounter) : Nat × SimpleCounter :=
  (incr c.count_, { c with count_ := incr c.count_ })

/-- Source: `SimpleCounter::DecRef`, `return --count_;`: the returned value and
the counter afterwards. -/
def SimpleCounter.DecRef (c : SimpleCounter) : Nat × SimpleCounter :=
  (decr c.count_,
    { count_ := decr c.count_, wraps := c.wraps + (if c.count_ = 0 then 1 else 0) })

/-- Source: `SimpleCounter::RefCount`. -/
def SimpleCounter.RefCount (c : SimpleCounter) : Nat := c.count_

/-- An object of a class deriving from
`RefCounted<Derived, SimpleCounter, DefaultDelete>`: the member `counter_`, and
an event counter the C++ code does not have, `destroyed`, the number of calls
of `Deleter().Destroy` on the object. -/
structure RefCountedObj where
  counter_ : SimpleCounter
  destroyed : Nat
deriving DecidableEq, Repr

/-- Source: `RefCounted::RefCounted()`, `counter_()`: value-initialisation sets
`count_` to `0`. -/
def RefCountedObj.init : RefCountedObj :=
  { counter_ := { count_ := 0, wraps := 0 }, destroyed := 0 }

/-- Source: `RefCounted::IncRef`. -/
def RefCounted.IncRef (o : RefCountedObj) : RefCountedObj :=
  { o with counter_ := o.counter_.IncRef.2 }

/-- Source: `RefCounted::RefCount`. -/
def RefCounted.RefCount (o : RefCountedObj) : Nat := o.counter_.RefCount

/-- Source: `RefCounted::DecRef`,
`if (counter_.DecRef() == 0) Deleter().Destroy(static_cast<Derived*>(this));`,
with `DefaultDelete::Destroy`, `delete object;`, which runs the destructor
`~RefCounted() { DecRef(); }`.  The recursion through the destructor is bounded
by `fuel`; `none` when the fuel runs out. -/
def RefCounted.DecRef : Nat → RefCountedObj → Option RefCountedObj
  | 0, _ => none
  | fuel + 1, o =>
    let r := o.counter_.DecRef
    let o1 : RefCountedObj := { o with counter_ := r.2 }
    if r.1 = 0 then
      RefCounted.DecRef fuel { o1 with destroyed := o1.destroyed + 1 }
    else
      some o1

/-- Source: `DefaultDelete::Destroy`, `delete object;`: the call is recorded, and
the destructor `~RefCounted() { DecRef(); }` runs. -/
def DefaultDelete.Destroy (fuel : Nat) (o : RefCountedObj) : Option RefCountedObj :=
  RefCounted.DecRef fuel { o with destroyed := o.destroyed + 1 }

/-- Memory holding the reference-counted objects; the index of an object is its
address. -/
abbrev ObjHeap := List RefCountedObj

/-- Dereference a `T*`: `none` when the object has been destroyed or was never
allocated. -/
def ObjHeap.obj (h : ObjHeap) (p : Nat) : Option RefCountedObj :=
  match h[p]? with
  | some o => if o.destroyed = 0 then some o else none
  | none => none

/-- The call `ptr_->IncRef()`. -/
def ObjHeap.IncRef (h : ObjHeap) (p : Nat) : Option ObjHeap :=
  match h.obj p with
  | none => none
  | some o => some (h.set p (RefCounted.IncRef o))

/-- The call `ptr_->DecRef()`. -/
def ObjHeap.DecRef (fuel : Nat) (h : ObjHeap) (p : Nat) : Option ObjHeap :=
  match h.obj p with
  | none => none
  | some o =>
    match RefCounted.DecRef fuel o with
    | none => none
    | some o1 => some (h.set p o1)

/-- The class `IntrusivePtr<T>`: the member `ptr_`, `none` being `nullptr`. -/
structure IntrusivePtr where
  ptr_ : Option Nat
deriving DecidableEq, Repr

/-- Source: `IntrusivePtr::IntrusivePtr()` and `IntrusivePtr(std::nullptr_t)`. -/
def IntrusivePtr.null : IntrusivePtr := { ptr_ := none }

/-- Source: `IntrusivePtr::IntrusivePtr(T* ptr)`. -/
def IntrusivePtr.ofRaw (h : ObjHeap) (ptr : Option Nat) : Option (ObjHeap × IntrusivePtr) :=
  match ptr with
  | none => some (h, { ptr_ := none })
  | some p =>
    match h.IncRef p with
    | none => none
    | some h1 => some (h1, { ptr_ := some p })

/-- Source: `IntrusivePtr::IntrusivePtr(const IntrusivePtr&)` and its converting
template. -/
def IntrusivePtr.copy (h : ObjHeap) (other : IntrusivePtr) : Option (ObjHeap × IntrusivePtr) :=
  match other.ptr_ with
  | none => some (h, { ptr_ := none })
  | some p =>
    match h.IncRef p with
    | none => none
    | some h1 => some (h1, { ptr_ := some p })

/-- Source: `IntrusivePtr::IntrusivePtr(IntrusivePtr&&)`: the new handle and the
moved-from one. -/
def IntrusivePtr.move (other : IntrusivePtr) : IntrusivePtr × IntrusivePtr :=
  ({ ptr_ := other.ptr_ }, { ptr_ := none })

/-- Source: `IntrusivePtr::operator=(const IntrusivePtr&)`. -/
def IntrusivePtr.copyAssign (fuel : Nat) (h : ObjHeap) (self other : IntrusivePtr) :
    Option (ObjHeap × IntrusivePtr) :=
  if self.ptr_ ≠ other.ptr_ then
    match (match self.ptr_ with
           | none => some h
           | some p => h.DecRef fuel p) with
    | none => none
    | some h1 =>
      match other.ptr_ with
      | none => some (h1, { ptr_ := none })
      | some q =>
        match h1.IncRef q with
        | none => none
        | some h2 => some (h2, { ptr_ := some q })
  else some (h, self)

/-- Source: `IntrusivePtr::operator=(IntrusivePtr&&)`: the assigned handle and the
other one afterwards. -/
def IntrusivePtr.moveAssign (fuel : Nat) (h : ObjHeap) (self other : IntrusivePtr) :
    Option (ObjHeap × IntrusivePtr × IntrusivePtr) :=
  if self.ptr_ ≠ other.ptr_ then
    match (match self.ptr_ with
           | none => some h
           | some p => h.DecRef fuel p) with
    | none => none
    | some h1 => some (h1, { ptr_ := other.ptr_ }, { ptr_ := none })
  else some (h, self, other)

/-- Source: `IntrusivePtr::Reset()` (also the destructor `~IntrusivePtr`). -/
def IntrusivePtr.Reset (fuel : Nat) (h : ObjHeap) (self : IntrusivePtr) :
    Option (ObjHeap × IntrusivePtr) :=
  match (match self.ptr_ with
         | none => some h
         | some p => h.DecRef fuel p) with
  | none => none
  | some h1 => some (h1, { ptr_ := none })

/-- Source: `IntrusivePtr::Reset(T* ptr)`:
`if (ptr_) ptr_->DecRef(); ptr_ = ptr; if (ptr_) ptr_->IncRef();`. -/
def IntrusivePtr.ResetPtr (fuel : Nat) (h : ObjHeap) (self : IntrusivePtr)
    (ptr : Option Nat) : Option (ObjHeap × IntrusivePtr) :=
  match (match self.ptr_ with
         | none => some h
         | some p => h.DecRef fuel p) with
  | none => none
  | some h1 =>
    match ptr with
    | none => some (h1, { ptr_ := none })
    | some q =>
      match h1.IncRef q with
      | none => none
      | some h2 => some (h2, { ptr_ := some q })

/-- Source: `IntrusivePtr::Swap`. -/
def IntrusivePtr.Swap (self other : IntrusivePtr) : IntrusivePtr × IntrusivePtr :=
  (other, self)

/-- Source: `IntrusivePtr::Get`. -/
def IntrusivePtr.Get (p : IntrusivePtr) : Option Nat := p.ptr_

/-- Source: `IntrusivePtr::UseCount`. -/
def IntrusivePtr.UseCount (h : ObjHeap) (p : IntrusivePtr) : Option Nat :=
  match p.ptr_ with
  | none => some 0
  | some q =>
    match h.obj q with
    | none => none
    | some o => some (RefCounted.RefCount o)

/-- Source: `IntrusivePtr::operator bool`. -/
def IntrusivePtr.toBool (p : IntrusivePtr) : Bool := p.ptr_.isSome

/-- Source: `MakeIntrusive<T>(args...)`, `IntrusivePtr<T>(new T(...))`: the new
object takes the next free address. -/
def MakeIntrusive (h : ObjHeap) : Option (ObjHeap × IntrusivePtr) :=
  IntrusivePtr.ofRaw (h ++ [RefCountedObj.init]) (some h.length)

/-- A program state of the intrusive family: the memory of objects and the
`IntrusivePtr` variables in scope, numbered from `0`. -/
structure IntrusiveWorld where
  objs : ObjHeap
  ptrs : List IntrusivePtr
deriving DecidableEq, Repr

/-- The operations on `IntrusivePtr` variables.  `make`, `ofRaw`, `copy` and
`move` declare a new variable (by `MakeIntrusive`, from a raw pointer, by copy
or move construction from `ptrs[i]`); `copyAssign i j` is `ptrs[i] = ptrs[j]`,
`moveAssign i j` is `ptrs[i] = std::move(ptrs[j])`; `destroy i` runs the
destructor of `ptrs[i]`, whose slot stays behind null. -/
inductive IntrusiveOp where
  | make
  | ofRaw (raw : Option Nat)
  | copy (i : Nat)
  | move (i : Nat)
  | copyAssign (i j : Nat)
  | moveAssign (i j : Nat)
  | reset (i : Nat)
  | swap (i j : Nat)
  | destroy (i : Nat)
deriving DecidableEq, Repr

/-- Run one operation.  `none` when a variable does not exist, the operation has
undefined behaviour, or the fuel runs out. -/
def IntrusiveWorld.step (fuel : Nat) (w : IntrusiveWorld) : IntrusiveOp → Option IntrusiveWorld
  | IntrusiveOp.make =>
    match MakeIntrusive w.objs with
    | none => none
    | some (h1, p) => some { objs := h1, ptrs := w.ptrs ++ [p] }
  | IntrusiveOp.ofRaw raw =>
    match IntrusivePtr.ofRaw w.objs raw with
    | none => none
    | some (h1, p) => some { objs := h1, ptrs := w.ptrs ++ [p] }
  | IntrusiveOp.copy i =>
    match w.ptrs[i]? with
    | none => none
    | some a =>
      match IntrusivePtr.copy w.objs a with
      | none => none
      | some (h1, p) => some { objs := h1, ptrs := w.ptrs ++ [p] }
  | IntrusiveOp.move i =>
    match w.ptrs[i]? with
    | none => none
    | some a =>
      some { objs := w.objs,
             ptrs := w.ptrs.set i (IntrusivePtr.move a).2 ++ [(IntrusivePtr.move a).1] }
  | IntrusiveOp.copyAssign i j =>
    match w.ptrs[i]?, w.ptrs[j]? with
    | some a, some b =>
      match IntrusivePtr.copyAssign fuel w.objs a b with
      | none => none
      | some (h1, a1) => some { objs := h1, ptrs := w.ptrs.set i a1 }
    | _, _ => none
  | IntrusiveOp.moveAssign i j =>
    match w.ptrs[i]?, w.ptrs[j]? with
    | some a, some b =>
      match IntrusivePtr.moveAssign fuel w.objs a b with
      | none => none
      | some (h1, a1, b1) => some { objs := h1, ptrs := (w.ptrs.set i a1).set j b1 }
    | _, _ => none
  | IntrusiveOp.reset i =>
    match w.ptrs[i]? with
    | none => none
    | some a =>
      match IntrusivePtr.Reset fuel w.objs a with
      | none => none
      | some (h1, a1) => some { objs := h1, ptrs := w.ptrs.set i a1 }
  | IntrusiveOp.swap i j =>
    match w.ptrs[i]?, w.ptrs[j]? with
    | some a, some b =>
      some { objs := w.objs,
             ptrs := (w.ptrs.set i (IntrusivePtr.Swap a b).1).set j (IntrusivePtr.Swap a b).2 }
    | _, _ => none
  | IntrusiveOp.destroy i =>
    match w.ptrs[i]? with
    | none => none
    | some a =>
      match IntrusivePtr.Reset fuel w.objs a with
      | none => none
      | some (h1, a1) => some { objs := h1, ptrs := w.ptrs.set i a1 }

/-- Run a sequence of operations, first to last. -/
def IntrusiveWorld.run (fuel : Nat) (w : IntrusiveWorld) : List IntrusiveOp → Option IntrusiveWorld
  | [] => some w
  | op :: rest =>
    match w.step fuel op with
    | none => none
    | some w1 => w1.run fuel rest

/-- The program state before anything is allocated or declared. -/
def IntrusiveWorld.start : IntrusiveWorld := { objs := [], ptrs := [] }

/-- Number of variables of the state that hold the object at address `o`. -/
def IntrusiveWorld.holders (w : IntrusiveWorld) (o : Nat) : Nat :=
  w.ptrs.count { ptr_ := some o }

/-- An object is accounted for by `n` handles: either it is alive, `n >= 1`
handles hold it, its counter is `n` and was never decremented at `0`; or it has
been destroyed exactly once, no handle holds it, and its counter was wrapped
once, from `0` to `2 ^ 64 - 1`, by the destructor. -/
def RefCountedObj.Accounted (obj : RefCountedObj) (n : Nat) : Prop :=
  (obj.destroyed = 0 ∧ 1 ≤ n ∧ obj.counter_ = { count_ := n, wraps := 0 }) ∨
  (obj.destroyed = 1 ∧ n = 0 ∧ obj.counter_ = { count_ := SIZE_MOD - 1, wraps := 1 })

/-- The invariant of the intrusive family: the number of variables is a value of
`size_t`, no variable holds an address that was never allocated, and every
object is accounted for by the variables that hold it. -/
def IntrusiveWorld.Inv (w : IntrusiveWorld) : Prop :=
  w.ptrs.length < SIZE_MOD ∧
  (∀ o, w.objs.length ≤ o → w.holders o = 0) ∧
  (∀ (o : Nat) (obj : RefCountedObj), w.objs[o]? = some obj → obj.Accounted (w.holders o))

/-- An operation is well-formed in a state: the variables it names exist, a raw
pointer given to a constructor is null or points to a live object, and a new
variable keeps the number of variables a value of `size_t`. -/
def IntrusiveOp.valid (w : IntrusiveWorld) : IntrusiveOp → Bool
  | IntrusiveOp.make => decide (w.ptrs.length + 1 < SIZE_MOD)
  | IntrusiveOp.ofRaw raw =>
    decide (w.ptrs.length + 1 < SIZE_MOD) &&
      (match raw with
       | none => true
       | some p => (w.objs.obj p).isSome)
  | IntrusiveOp.copy i => decide (i < w.ptrs.length) && decide (w.ptrs.length + 1 < SIZE_MOD)
  | IntrusiveOp.move i => decide (i < w.ptrs.length) && decide (w.ptrs.length + 1 < SIZE_MOD)
  | IntrusiveOp.copyAssign i j => decide (i < w.ptrs.length) && decide (j < w.ptrs.length)
  | IntrusiveOp.moveAssign i j => decide (i < w.ptrs.length) && decide (j < w.ptrs.length)
  | IntrusiveOp.reset i => decide (i < w.ptrs.length)
  | IntrusiveOp.swap i j => decide (i < w.ptrs.length) && decide (j < w.ptrs.length)
  | IntrusiveOp.destroy i => decide (i < w.ptrs.length)

/-- Every operation of a sequence is well-formed in the state it is applied
to. -/
def IntrusiveWorld.validRun (fuel : Nat) (w : IntrusiveWorld) : List IntrusiveOp → Bool
  | [] => true
  | op :: rest =>
    op.valid w &&
      (match w.step fuel op with
       | none => true
       | some w1 => w1.validRun fuel rest)

/-- The operations of the intrusive examples: an object is made, its handle
copied, moved from, assigned to itself and to others, swapped and released. -/
def sampleIntrusiveOps : List IntrusiveOp :=
  [IntrusiveOp.make, IntrusiveOp.copy 0, IntrusiveOp.move 1, IntrusiveOp.copyAssign 0 0,
    IntrusiveOp.copyAssign 1 2, IntrusiveOp.moveAssign 2 2, IntrusiveOp.swap 0 1,
    IntrusiveOp.ofRaw (some 0), IntrusiveOp.reset 0, IntrusiveOp.moveAssign 0 3,
    IntrusiveOp.destroy 1, IntrusiveOp.destroy 2]

/-- A fresh object after one `IncRef()`: counter one. -/
def sampleObj : RefCountedObj := RefCounted.IncRef RefCountedObj.init

/-! ## Program states of the shared / weak family -/

/-- Number of entries of a list of control-block pointers that are block `b`. -/
def refs (l : List (Option Nat)) (b : Nat) : Nat := l.count (some b)

/-- A program state of the shared / weak family: the memory of control blocks,
the `SharedPtr` variables in scope and the `WeakPtr` variables in scope, each
kind numbered from `0`.  The member `weak_this_` of a managed object is not a
variable; it lives in the payload of its block. -/
structure FamilyWorld where
  heap : Heap
  shared : List SharedPtr
  weak : List WeakPtr
deriving DecidableEq, Repr

/-- Number of `SharedPtr` variables whose control block is `b`. -/
def FamilyWorld.strongRefs (w : FamilyWorld) (b : Nat) : Nat :=
  refs (w.shared.map SharedPtr.control_block_) b

/-- Number of `WeakPtr` variables whose control block is `b`. -/
def FamilyWorld.weakRefs (w : FamilyWorld) (b : Nat) : Nat :=
  refs (w.weak.map WeakPtr.control_block_) b

/-- The operations on handles.  With `s` the `SharedPtr` variables and `v` the
`WeakPtr` variables: `empty`, `makeShared`, `ofRaw`, `copy i`, `move i`,
`promote k` and `lock k` declare a new `SharedPtr` (default-constructed, by
`MakeShared`, from a raw pointer, by copy or move construction from `s[i]`, by
`SharedPtr(v[k])`, by `v[k].Lock()`); `copyAssign i j` is `s[i] = s[j]`,
`moveAssign i j` is `s[i] = std::move(s[j])`, `swap i j` is `s[i].Swap(s[j])`,
`destroy i` runs the destructor of `s[i]`, whose slot stays behind empty.
`weakEmpty`, `weakOfShared i`, `weakCopy k` and `weakMove k` declare a new
`WeakPtr` (default-constructed, by `WeakPtr(s[i])`, by copy or move
construction from `v[k]`); the other `weak` operations are those of `WeakPtr`
on `v`. -/
inductive FamilyOp where
  | empty
  | makeShared (obj : Nat) (esft : Bool)
  | ofRaw (ptr : Nat) (esft : Bool)
  | copy (i : Nat)
  | move (i : Nat)
  | copyAssign (i j : Nat)
  | moveAssign (i j : Nat)
  | reset (i : Nat)
  | swap (i j : Nat)
  | destroy (i : Nat)
  | promote (k : Nat)
  | lock (k : Nat)
  | weakEmpty
  | weakOfShared (i : Nat)
  | weakCopy (k : Nat)
  | weakMove (k : Nat)
  | weakCopyAssign (k l : Nat)
  | weakMoveAssign (k l : Nat)
  | weakReset (k : Nat)
  | weakSwap (k l : Nat)
  | weakDestroy (k : Nat)
deriving DecidableEq, Repr

/-- Declare the `SharedPtr` a constructor returned, if it returned one: a
constructor that throws declares nothing. -/
def FamilyWorld.declare (w : FamilyWorld) :
    Option (Heap × Except BadWeakPtr SharedPtr) → Option FamilyWorld
  | none => none
  | some (h1, Except.error _) => some { heap := h1, shared := w.shared, weak := w.weak }
  | some (h1, Except.ok s) => some { heap := h1, shared := w.shared ++ [s], weak := w.weak }

/-- Run one operation.  `none` when a variable does not exist or the operation
has undefined behaviour.  In a move assignment the moved-from variable is
written last, as in the source, so for `i = j` the variable ends up empty. -/
def FamilyWorld.step (w : FamilyWorld) : FamilyOp → Option FamilyWorld
  | FamilyOp.empty =>
    some { heap := w.heap, shared := w.shared ++ [SharedPtr.empty], weak := w.weak }
  | FamilyOp.makeShared obj esft =>
    match MakeShared w.heap obj esft with
    | none => none
    | some (h1, s) => some { heap := h1, shared := w.shared ++ [s], weak := w.weak }
  | FamilyOp.ofRaw ptr esft =>
    match SharedPtr.ofRaw w.heap ptr esft with
    | none => none
    | some (h1, s) => some { heap := h1, shared := w.shared ++ [s], weak := w.weak }
  | FamilyOp.copy i =>
    match w.shared[i]? with
    | none => none
    | some a =>
      match SharedPtr.copy w.heap a with
      | none => none
      | some (h1, s) => some { heap := h1, shared := w.shared ++ [s], weak := w.weak }
  | FamilyOp.move i =>
    match w.shared[i]? with
    | none => none
    | some a =>
      some { heap := w.heap,
             shared := w.shared.set i (SharedPtr.move a).2 ++ [(SharedPtr.move a).1],
             weak := w.weak }
  | FamilyOp.copyAssign i j =>
    match w.shared[i]?, w.shared[j]? with
    | some a, some b =>
      match SharedPtr.copyAssign w.heap a b with
      | none => none
      | some (h1, a1) => some { heap := h1, shared := w.shared.set i a1, weak := w.weak }
    | _, _ => none
  | FamilyOp.moveAssign i j =>
    match w.shared[i]?, w.shared[j]? with
    | some a, some b =>
      match SharedPtr.moveAssign w.heap a b with
      | none => none
      | some (h1, a1, b1) =>
        some { heap := h1, shared := (w.shared.set i a1).set j b1, weak := w.weak }
    | _, _ => none
  | FamilyOp.reset i =>
    match w.shared[i]? with
    | none => none
    | some a =>
      match SharedPtr.Reset w.heap a with
      | none => none
      | some (h1, a1) => some { heap := h1, shared := w.shared.set i a1, weak := w.weak }
  | FamilyOp.swap i j =>
    match w.shared[i]?, w.shared[j]? with
    | some a, some b =>
      some { heap := w.heap,
             shared := (w.shared.set i (SharedPtr.Swap a b).1).set j (SharedPtr.Swap a b).2,
             weak := w.weak }
    | _, _ => none
  | FamilyOp.destroy i =>
    match w.shared[i]? with
    | none => none
    | some a =>
      match SharedPtr.Reset w.heap a with
      | none => none
      | some (h1, a1) => some { heap := h1, shared := w.shared.set i a1, weak := w.weak }
  | FamilyOp.promote k =>
    match w.weak[k]? with
    | none => none
    | some x => w.declare (SharedPtr.ofWeak w.heap x)
  | FamilyOp.lock k =>
    match w.weak[k]? with
    | none => none
    | some x => w.declare (WeakPtr.Lock w.heap x)
  | FamilyOp.weakEmpty =>
    some { heap := w.heap, shared := w.shared, weak := w.weak ++ [WeakPtr.empty] }
  | FamilyOp.weakOfShared i =>
    match w.shared[i]? with
    | none => none
    | some a =>
      match WeakPtr.ofShared w.heap a with
      | none => none
      | some (h1, x) => some { heap := h1, shared := w.shared, weak := w.weak ++ [x] }
  | FamilyOp.weakCopy k =>
    match w.weak[k]? with
    | none => none
    | some x =>
      match WeakPtr.copy w.heap x with
      | none => none
      | some (h1, x1) => some { heap := h1, shared := w.shared, weak := w.weak ++ [x1] }
  | FamilyOp.weakMove k =>
    match w.weak[k]? with
    | none => none
    | some x =>
      some { heap := w.heap, shared := w.shared,
             weak := w.weak.set k (WeakPtr.move x).2 ++ [(WeakPtr.move x).1] }
  | FamilyOp.weakCopyAssign k l =>
    match w.weak[k]?, w.weak[l]? with
    | some x, some y =>
      match WeakPtr.copyAssign w.heap x y with
      | none => none
      | some (h1, x1) => some { heap := h1, shared := w.shared, weak := w.weak.set k x1 }
    | _, _ => none
  | FamilyOp.weakMoveAssign k l =>
    match w.weak[k]?, w.weak[l]? with
    | some x, some y =>
      match WeakPtr.moveAssign w.heap x y with
      | none => none
      | some (h1, x1, y1) =>
        some { heap := h1, shared := w.shared, weak := (w.weak.set k x1).set l y1 }
    | _, _ => none
  | FamilyOp.weakReset k =>
    match w.weak[k]? with
    | none => none
    | some x =>
      match WeakPtr.Reset w.heap x with
      | none => none
      | some (h1, x1) => some { heap := h1, shared := w.shared, weak := w.weak.set k x1 }
  | FamilyOp.weakSwap k l =>
    match w.weak[k]?, w.weak[l]? with
    | some x, some y =>
      some { heap := w.heap, shared := w.shared,
             weak := (w.weak.set k (WeakPtr.Swap x y).1).set l (WeakPtr.Swap x y).2 }
    | _, _ => none
  | FamilyOp.weakDestroy k =>
    match w.weak[k]? with
    | none => none
    | some x =>
      match WeakPtr.Reset w.heap x with
      | none => none
      | some (h1, x1) => some { heap := h1, shared := w.shared, weak := w.weak.set k x1 }

/-- Run a sequence of operations, first to last. -/
def FamilyWorld.run (w : FamilyWorld) : List FamilyOp → Option FamilyWorld
  | [] => some w
  | op :: rest =>
    match w.step op with
    | none => none
    | some w1 => w1.run rest

/-- The program state before anything is allocated or declared. -/
def FamilyWorld.start : FamilyWorld := { heap := [], shared := [], weak := [] }

/-- Block `b` is counted by `s` strong and `w` weak variables: its strong count
is `s`; its weak count is `w`, plus one when the managed object holds an
installed self reference `weak_this_` (itself a `WeakPtr` on block `b`); the
block has been deallocated (once) exactly if `s = 0` and `w = 0`; the self
reference is empty or refers to `b`, and it is gone once no strong handle is
left. -/
def ControlBlock.Counted (b : Nat) (blk : ControlBlock) (s w : Nat) : Prop :=
  blk.shared_count_ = s ∧
  blk.weak_count_ = w + (if blk.wired b = true then 1 else 0) ∧
  blk.deleted = (if s = 0 ∧ w = 0 then 1 else 0) ∧
  blk.SelfRefOk b ∧ (s = 0 → blk.wired b = false)

/-- Every block of `h` is counted by `S b` strong and `W b` weak handles, and
nothing refers to an address beyond the blocks ever allocated. -/
def Heap.Counts (h : Heap) (S W : Nat → Nat) : Prop :=
  (∀ b, h.length ≤ b → S b = 0 ∧ W b = 0) ∧
  (∀ (b : Nat) (blk : ControlBlock), h[b]? = some blk → blk.Counted b (S b) (W b))

/-- The invariant of the shared / weak family: the numbers of variables are
values of `size_t` (with room for two more), and every block is counted by the
variables that refer to it. -/
def FamilyWorld.Inv (w : FamilyWorld) : Prop :=
  w.shared.length + 2 < SIZE_MOD ∧ w.weak.length + 2 < SIZE_MOD ∧
  w.heap.Counts w.strongRefs w.weakRefs

/-- An operation is well-formed in a state: the variables it names exist, a copy
assignment is between two distinct variables, an object whose type derives from
`EnableSharedFromThis` is not at the null address, and a new variable keeps the
number of variables a value of `size_t`. -/
def FamilyOp.valid (w : FamilyWorld) : FamilyOp → Bool
  | FamilyOp.empty => decide (w.shared.length + 3 < SIZE_MOD)
  | FamilyOp.makeShared obj esft =>
    decide (w.shared.length + 3 < SIZE_MOD) && (!esft || decide (obj ≠ 0))
  | FamilyOp.ofRaw ptr esft =>
    decide (w.shared.length + 3 < SIZE_MOD) && (!esft || decide (ptr ≠ 0))
  | FamilyOp.copy i => decide (i < w.shared.length) && decide (w.shared.length + 3 < SIZE_MOD)
  | FamilyOp.move i => decide (i < w.shared.length) && decide (w.shared.length + 3 < SIZE_MOD)
  | FamilyOp.copyAssign i j =>
    decide (i < w.shared.length) && decide (j < w.shared.length) && decide (i ≠ j)
  | FamilyOp.moveAssign i j => decide (i < w.shared.length) && decide (j < w.shared.length)
  | FamilyOp.reset i => decide (i < w.shared.length)
  | FamilyOp.swap i j => decide (i < w.shared.length) && decide (j < w.shared.length)
  | FamilyOp.destroy i => decide (i < w.shared.length)
  | FamilyOp.promote k => decide (k < w.weak.length) && decide (w.shared.length + 3 < SIZE_MOD)
  | FamilyOp.lock k => decide (k < w.weak.length) && decide (w.shared.length + 3 < SIZE_MOD)
  | FamilyOp.weakEmpty => decide (w.weak.length + 3 < SIZE_MOD)
  | FamilyOp.weakOfShared i =>
    decide (i < w.shared.length) && decide (w.weak.length + 3 < SIZE_MOD)
  | FamilyOp.weakCopy k => decide (k < w.weak.length) && decide (w.weak.length + 3 < SIZE_MOD)
  | FamilyOp.weakMove k => decide (k < w.weak.length) && decide (w.weak.length + 3 < SIZE_MOD)
  | FamilyOp.weakCopyAssign k l =>
    decide (k < w.weak.length) && decide (l < w.weak.length) && decide (k ≠ l)
  | FamilyOp.weakMoveAssign k l => decide (k < w.weak.length) && decide (l < w.weak.length)
  | FamilyOp.weakReset k => decide (k < w.weak.length)
  | FamilyOp.weakSwap k l => decide (k < w.weak.length) && decide (l < w.weak.length)
  | FamilyOp.weakDestroy k => decide (k < w.weak.length)

/-- Every operation of a sequence is well-formed in the state it is applied
to. -/
def FamilyWorld.validRun (w : FamilyWorld) : List FamilyOp → Bool
  | [] => true
  | op :: rest =>
    op.valid w &&
      (match w.step op with
       | none => true
       | some w1 => w1.validRun rest)

/-- The operations of the shared / weak example: an object with a self reference
is made; its handle is copied, moved, assigned and swapped; weak handles are
taken, copied, moved, assigned and swapped; both are promoted; then every
strong handle is released, promotion fails, and the weak handles are
released. -/
def sampleFamilyOps : List FamilyOp :=
  [FamilyOp.makeShared 100 true, FamilyOp.copy 0, FamilyOp.weakOfShared 0, FamilyOp.weakCopy 0,
    FamilyOp.move 1, FamilyOp.empty, FamilyOp.copyAssign 3 0, FamilyOp.moveAssign 1 3,
    FamilyOp.swap 0 1, FamilyOp.lock 0, FamilyOp.promote 1, FamilyOp.weakMove 1,
    FamilyOp.weakEmpty, FamilyOp.weakCopyAssign 3 0, FamilyOp.weakMoveAssign 1 3,
    FamilyOp.weakSwap 0 2, FamilyOp.reset 0, FamilyOp.destroy 1, FamilyOp.destroy 2,
    FamilyOp.reset 4, FamilyOp.destroy 5, FamilyOp.promote 0, FamilyOp.lock 0,
    FamilyOp.weakReset 0, FamilyOp.weakDestroy 1, FamilyOp.weakDestroy 2]

/-! ## Memory lemmas -/

theorem Heap.lt_length_of_get {h : Heap} {b : Nat} {blk : ControlBlock}
    (hb : h[b]? = some blk) : b < h.length := by
  by_contra hlt
  have hnone : h[b]? = none := List.getElem?_eq_none (Nat.le_of_not_lt hlt)
  rw [hnone] at hb
  exact Option.noConfusion hb

theorem Heap.get_set_same {h : Heap} {b : Nat} {blk : ControlBlock} (new : ControlBlock)
    (hb : h[b]? = some blk) : (h.set b new)[b]? = some new := by
  rw [List.getElem?_set]
  simp [Heap.lt_length_of_get hb]

theorem Heap.get_set_other (h : Heap) {b c : Nat} (new : ControlBlock) (hne : b ≠ c) :
    (h.set b new)[c]? = h[c]? := by
  rw [List.getElem?_set]
  simp [hne]

theorem Heap.block_of_get {h : Heap} {b : Nat} {blk : ControlBlock}
    (hb : h[b]? = some blk) (hd : blk.deleted = 0) : h.block b = some blk := by
  simp [Heap.block, hb, hd]

theorem Heap.get_of_block {h : Heap} {b : Nat} {blk : ControlBlock}
    (hb : h.block b = some blk) : h[b]? = some blk ∧ blk.deleted = 0 := by
  unfold Heap.block at hb
  cases hg : h[b]? with
  | none => simp [hg] at hb
  | some x =>
    simp only [hg] at hb
    by_cases hx : x.deleted = 0
    · simp [hx] at hb
      subst hb
      exact ⟨rfl, hx⟩
    · simp [hx] at hb

theorem SIZE_MOD_pos : 0 < SIZE_MOD := by
  unfold SIZE_MOD
  exact Nat.pow_pos (by omega)

theorem decr_lt (c : Nat) : decr c < SIZE_MOD := by
  unfold decr
  split
  · exact Nat.sub_lt SIZE_MOD_pos (by decide)
  · exact Nat.mod_lt _ SIZE_MOD_pos

theorem incr_lt_mod (c : Nat) : incr c < SIZE_MOD := Nat.mod_lt _ SIZE_MOD_pos

theorem decr_pos {c : Nat} (h1 : 1 ≤ c) (h2 : c < SIZE_MOD) : decr c = c - 1 := by
  unfold decr
  rw [if_neg (by omega)]
  exact Nat.mod_eq_of_lt (by omega)

theorem incr_lt {c : Nat} (h2 : c + 1 < SIZE_MOD) : incr c = c + 1 := by
  unfold incr
  exact Nat.mod_eq_of_lt h2

/-! ## Closed forms of the counter operations on an allocated block -/

theorem ControlBlock.IncrementSharedCount_eq {h : Heap} {b : Nat} {blk : ControlBlock}
    (hb : h[b]? = some blk) (hd : blk.deleted = 0) :
    ControlBlock.IncrementSharedCount h b =
      some (h.set b { blk with shared_count_ := incr blk.shared_count_ }) := by
  simp [ControlBlock.IncrementSharedCount, Heap.block_of_get hb hd]

theorem ControlBlock.IncrementWeakCount_eq {h : Heap} {b : Nat} {blk : ControlBlock}
    (hb : h[b]? = some blk) (hd : blk.deleted = 0) :
    ControlBlock.IncrementWeakCount h b =
      some (h.set b { blk with weak_count_ := incr blk.weak_count_ }) := by
  simp [ControlBlock.IncrementWeakCount, Heap.block_of_get hb hd]

theorem ControlBlock.GetSharedCount_eq {h : Heap} {b : Nat} {blk : ControlBlock}
    (hb : h[b]? = some blk) (hd : blk.deleted = 0) :
    ControlBlock.GetSharedCount h b = some blk.shared_count_ := by
  simp [ControlBlock.GetSharedCount, Heap.block_of_get hb hd]

theorem ControlBlock.DecrementWeakCount_eq {h : Heap} {b : Nat} {blk : ControlBlock}
    (hb : h[b]? = some blk) (hd : blk.deleted = 0) :
    ControlBlock.DecrementWeakCount h b =
      some (h.set b { blk with
        weak_count_ := decr blk.weak_count_,
        deleted := if decr blk.weak_count_ = 0 ∧ blk.shared_count_ = 0 then 1 else 0 }) := by
  simp only [ControlBlock.DecrementWeakCount, Heap.block_of_get hb hd]
  by_cases hc : decr blk.weak_count_ = 0 ∧ blk.shared_count_ = 0
  · simp [hc, hd]
  · simp only [hc, if_false]
    congr 2
    cases blk
    simp_all

/-- Closed form of `Deleter` on an allocated block whose object has no self
reference installed (its type does not derive from `EnableSharedFromThis`, or
`weak_this_` is empty). -/
theorem ControlBlock.Deleter_plain {h : Heap} {b : Nat} {blk : ControlBlock}
    (hb : h[b]? = some blk) (hd : blk.deleted = 0)
    (hp : blk.payload.esft = false ∨ blk.payload.weak_this_.control_block_ = none) :
    ControlBlock.Deleter h b =
      some (h.set b { blk with deleter_calls := blk.deleter_calls + 1 }) := by
  simp only [ControlBlock.Deleter, Heap.block_of_get hb hd]
  cases he : blk.payload.esft with
  | false => simp
  | true =>
    have hw : blk.payload.weak_this_.control_block_ = none := by
      cases hp with
      | inl h1 => rw [he] at h1; exact Bool.noConfusion h1
      | inr h2 => exact h2
    simp only [if_true, WeakPtr.Reset, WeakPtr.DecreaseCount, hw]
    rw [Heap.get_set_same _ hb]
    simp only [List.set_set]
    congr 2
    cases blk with
    | mk s w p dc d =>
      cases p with
      | mk a e wt =>
        cases wt
        simp_all

/-- Closed form of `Deleter` on an allocated block with strong count at least
one whose object holds a self reference to this block. -/
theorem ControlBlock.Deleter_wired {h : Heap} {b : Nat} {blk : ControlBlock}
    (hb : h[b]? = some blk) (hd : blk.deleted = 0)
    (he : blk.payload.esft = true) (hw : blk.payload.weak_this_.control_block_ = some b)
    (hs : blk.shared_count_ ≠ 0) :
    ControlBlock.Deleter h b =
      some (h.set b { blk with
        deleter_calls := blk.deleter_calls + 1,
        weak_count_ := decr blk.weak_count_,
        payload := { blk.payload with
          weak_this_ := { blk.payload.weak_this_ with control_block_ := none } } }) := by
  simp only [ControlBlock.Deleter, Heap.block_of_get hb hd, he, if_true, WeakPtr.Reset,
    WeakPtr.DecreaseCount, hw]
  have hb1 := Heap.get_set_same { blk with deleter_calls := blk.deleter_calls + 1 } hb
  rw [ControlBlock.DecrementWeakCount_eq hb1 hd]
  simp only [List.set_set, hs, and_false, if_false]
  rw [Heap.get_set_same _ hb]
  simp only [List.set_set]
  congr 2
  cases blk
  simp_all

/-- Closed form of `DecrementSharedCount` when the strong count is not one: no
payload destroy. -/
theorem ControlBlock.DecrementSharedCount_ne_one {h : Heap} {b : Nat} {blk : ControlBlock}
    (hb : h[b]? = some blk) (hd : blk.deleted = 0) (hs : blk.shared_count_ ≠ 1) :
    ControlBlock.DecrementSharedCount h b =
      some (h.set b { blk with
        shared_count_ := decr blk.shared_count_,
        deleted := if decr blk.shared_count_ = 0 ∧ blk.weak_count_ = 0 then 1 else 0 }) := by
  simp only [ControlBlock.DecrementSharedCount, Heap.block_of_get hb hd, hs, if_false]
  by_cases hc : decr blk.shared_count_ = 0 ∧ blk.weak_count_ = 0
  · simp [hc, hd]
  · simp only [hc, if_false]
    congr 2
    cases blk
    simp_all

/-- Closed form of `DecrementSharedCount` at strong count one, object without
installed self reference. -/
theorem ControlBlock.DecrementSharedCount_one_plain {h : Heap} {b : Nat} {blk : ControlBlock}
    (hb : h[b]? = some blk) (hd : blk.deleted = 0) (hs : blk.shared_count_ = 1)
    (hp : blk.payload.esft = false ∨ blk.payload.weak_this_.control_block_ = none) :
    ControlBlock.DecrementSharedCount h b =
      some (h.set b { blk with
        shared_count_ := 0,
        deleter_calls := blk.deleter_calls + 1,
        deleted := if blk.weak_count_ = 0 then 1 else 0 }) := by
  have hdec : decr 1 = 0 := by decide
  simp only [ControlBlock.DecrementSharedCount, Heap.block_of_get hb hd]
  rw [if_pos hs, ControlBlock.Deleter_plain hb hd hp]
  simp only []
  have hb1 := Heap.get_set_same { blk with deleter_calls := blk.deleter_calls + 1 } hb
  rw [Heap.block_of_get hb1 hd]
  simp only [hs, hdec, true_and, List.set_set]
  by_cases hc : blk.weak_count_ = 0
  · simp [hc, hd]
  · simp [hc, hd]

/-- Closed form of `DecrementSharedCount` at strong count one, object holding a
self reference to its block. -/
theorem ControlBlock.DecrementSharedCount_one_wired {h : Heap} {b : Nat} {blk : ControlBlock}
    (hb : h[b]? = some blk) (hd : blk.deleted = 0) (hs : blk.shared_count_ = 1)
    (he : blk.payload.esft = true) (hw : blk.payload.weak_this_.control_block_ = some b) :
    ControlBlock.DecrementSharedCount h b =
      some (h.set b { blk with
        shared_count_ := 0,
        weak_count_ := decr blk.weak_count_,
        payload := { blk.payload with
          weak_this_ := { blk.payload.weak_this_ with control_block_ := none } },
        deleter_calls := blk.deleter_calls + 1,
        deleted := if decr blk.weak_count_ = 0 then 1 else 0 }) := by
  have hdec : decr 1 = 0 := by decide
  have hs0 : blk.shared_count_ ≠ 0 := by omega
  simp only [ControlBlock.DecrementSharedCount, Heap.block_of_get hb hd]
  rw [if_pos hs, ControlBlock.Deleter_wired hb hd he hw hs0]
  have hb1 := Heap.get_set_same { blk with
        deleter_calls := blk.deleter_calls + 1,
        weak_count_ := decr blk.weak_count_,
        payload := { blk.payload with
          weak_this_ := { blk.payload.weak_this_ with control_block_ := none } } } hb
  simp only []
  rw [Heap.block_of_get hb1 hd]
  simp only [hs, hdec, true_and, List.set_set]
  by_cases hc : decr blk.weak_count_ = 0
  · simp [hc, hd]
  · simp [hc, hd]

/-! ## One release step on a tracked block -/

theorem Tracks.deleterCalls_eq {h : Heap} {b s w d0 : Nat} (ht : Tracks h b s w d0) :
    h.deleterCalls b = d0 + (if s = 0 then 1 else 0) := by
  obtain ⟨blk, hb, _, _, _, hdc, _⟩ := ht
  simp [Heap.deleterCalls, hb, hdc]

theorem Tracks.deletedCount_eq {h : Heap} {b s w d0 : Nat} (ht : Tracks h b s w d0) :
    h.deletedCount b = (if s = 0 ∧ w = 0 then 1 else 0) := by
  obtain ⟨blk, hb, _, _, _, _, hdel, _⟩ := ht
  simp [Heap.deletedCount, hb, hdel]

/-- Releasing a strong handle of a tracked block leaves it tracked with one
strong handle less. -/
theorem Tracks.release_strong {h : Heap} {b s w d0 : Nat} (ht : Tracks h b (s + 1) w d0)
    (x : SharedPtr) (hx : x.control_block_ = some b) :
    ∃ h1, Handle.release h (Handle.strong x) = some h1 ∧ Tracks h1 b s w d0 := by
  obtain ⟨blk, hb, hs, hlt, hwlt, hdc, hdel, hwc, hok⟩ := ht
  have hd : blk.deleted = 0 := by simpa using hdel
  have hdc0 : blk.deleter_calls = d0 := by simpa using hdc
  simp only [Handle.release, SharedPtr.Reset, SharedPtr.DecreaseCount, hx]
  by_cases hs0 : s = 0
  · subst hs0
    have hs1 : blk.shared_count_ = 1 := by simpa using hs
    cases hwired : blk.wired b with
    | true =>
      have hew : blk.payload.esft = true ∧ blk.payload.weak_this_.control_block_ = some b := by
        simpa [ControlBlock.wired] using hwired
      rw [ControlBlock.DecrementSharedCount_one_wired hb hd hs1 hew.1 hew.2]
      refine ⟨_, rfl, _, Heap.get_set_same _ hb, rfl, by decide, ?_, ?_, ?_, ?_, ?_⟩
      · exact decr_lt _
      · simp [hdc0]
      · have hw1 : blk.weak_count_ = w + 1 := by simpa [hwired] using hwc
        have hdw : decr blk.weak_count_ = w := by
          rw [decr_pos (by omega) hwlt]; omega
        simp [hdw]
      · have hw1 : blk.weak_count_ = w + 1 := by simpa [hwired] using hwc
        have hdw : decr blk.weak_count_ = w := by
          rw [decr_pos (by omega) hwlt]; omega
        simp [hdw]
      · intro hpos; exact absurd hpos (by decide)
    | false =>
      have hp : blk.payload.esft = false ∨ blk.payload.weak_this_.control_block_ = none := by
        cases he : blk.payload.esft with
        | false => exact Or.inl rfl
        | true =>
          right
          cases hok (by decide) he with
          | inl h1 => exact h1
          | inr h2 => simp [ControlBlock.wired, he, h2] at hwired
      rw [ControlBlock.DecrementSharedCount_one_plain hb hd hs1 hp]
      have hw0 : blk.weak_count_ = w := by simpa [hwired] using hwc
      refine ⟨_, rfl, _, Heap.get_set_same _ hb, rfl, by decide, hwlt, ?_, ?_, ?_, ?_⟩
      · simp [hdc0]
      · simp [hw0]
      · simp [hw0]
      · intro hpos; exact absurd hpos (by decide)
  · have hne : blk.shared_count_ ≠ 1 := by omega
    have hdec : decr blk.shared_count_ = s := by
      rw [decr_pos (by omega) (by omega)]; omega
    rw [ControlBlock.DecrementSharedCount_ne_one hb hd hne]
    refine ⟨_, rfl, _, Heap.get_set_same _ hb, hdec, by omega, hwlt, ?_, ?_, ?_, ?_⟩
    · simp [hdc0, hs0]
    · simp [hdec, hs0]
    · have hpos : 0 < s := Nat.pos_of_ne_zero hs0
      simpa [ControlBlock.wired, hpos] using hwc
    · intro _
      have hok1 := hok (Nat.succ_pos s)
      simpa [ControlBlock.SelfRefOk] using hok1

/-- Releasing a weak handle of a tracked block leaves it tracked with one weak
handle less. -/
theorem Tracks.release_weak {h : Heap} {b s w d0 : Nat} (ht : Tracks h b s (w + 1) d0)
    (x : WeakPtr) (hx : x.control_block_ = some b) :
    ∃ h1, Handle.release h (Handle.weak x) = some h1 ∧ Tracks h1 b s w d0 := by
  obtain ⟨blk, hb, hs, hlt, hwlt, hdc, hdel, hwc, hok⟩ := ht
  have hd : blk.deleted = 0 := by simpa using hdel
  simp only [Handle.release, WeakPtr.Reset, WeakPtr.DecreaseCount, hx]
  rw [ControlBlock.DecrementWeakCount_eq hb hd]
  have hdw : decr blk.weak_count_ = w + (if 0 < s ∧ blk.wired b = true then 1 else 0) := by
    rw [decr_pos (by omega) hwlt]; omega
  refine ⟨_, rfl, _, Heap.get_set_same _ hb, hs, hlt, decr_lt _, hdc, ?_, ?_, ?_⟩
  · simp only []
    rw [hdw, hs]
    by_cases hs0 : s = 0
    · simp [hs0]
    · have hpos : 0 < s := Nat.pos_of_ne_zero hs0
      rw [if_neg (fun hc => hs0 hc.2), if_neg (fun hc => hs0 hc.1)]
  · simpa [ControlBlock.wired] using hdw
  · simpa [ControlBlock.SelfRefOk] using hok

/-- Releasing, in the order of the list, handles that all refer to a tracked
block: every release succeeds and the block stays tracked by the handles that
remain. -/
theorem Tracks.releaseAll {b d0 : Nat} (pre : List Handle)
    (hon : ∀ x ∈ pre, x.control_block_ = some b) :
    ∀ (h : Heap) (s w : Nat), Tracks h b (strongCount pre + s) (weakCount pre + w) d0 →
      ∃ h1, SmartPtrs.releaseAll h pre = some h1 ∧ Tracks h1 b s w d0 := by
  induction pre with
  | nil =>
    intro h s w ht
    refine ⟨h, rfl, ?_⟩
    simpa [strongCount, weakCount] using ht
  | cons x xs ih =>
    intro h s w ht
    have hxs : ∀ y ∈ xs, y.control_block_ = some b := fun y hy => hon y (List.mem_cons_of_mem x hy)
    have hxb : x.control_block_ = some b := hon x (List.mem_cons_self x xs)
    cases x with
    | strong sp =>
      have ht1 : Tracks h b ((strongCount xs + s) + 1) (weakCount xs + w) d0 := by
        have e1 : strongCount (Handle.strong sp :: xs) + s = (strongCount xs + s) + 1 := by
          simp [strongCount, List.countP_cons, Handle.isStrong]; omega
        have e2 : weakCount (Handle.strong sp :: xs) + w = weakCount xs + w := by
          simp [weakCount, List.countP_cons, Handle.isStrong]
        rw [e1, e2] at ht
        exact ht
      obtain ⟨h1, hr, ht2⟩ := Tracks.release_strong ht1 sp hxb
      obtain ⟨h2, hr2, ht3⟩ := ih hxs h1 s w ht2
      exact ⟨h2, by simp [SmartPtrs.releaseAll, hr, hr2], ht3⟩
    | weak wp =>
      have ht1 : Tracks h b (strongCount xs + s) ((weakCount xs + w) + 1) d0 := by
        have e1 : strongCount (Handle.weak wp :: xs) + s = strongCount xs + s := by
          simp [strongCount, List.countP_cons, Handle.isStrong]
        have e2 : weakCount (Handle.weak wp :: xs) + w = (weakCount xs + w) + 1 := by
          simp [weakCount, List.countP_cons, Handle.isStrong]; omega
        rw [e1, e2] at ht
        exact ht
      obtain ⟨h1, hr, ht2⟩ := Tracks.release_weak ht1 wp hxb
      obtain ⟨h2, hr2, ht3⟩ := ih hxs h1 s w ht2
      exact ⟨h2, by simp [SmartPtrs.releaseAll, hr, hr2], ht3⟩

/-! ## Tracking a well-formed block, copies, new weak handles -/

/-- A well-formed allocated block with live payload is tracked by its own
counters. -/
theorem Tracks.of_block {h : Heap} {b : Nat} {blk : ControlBlock}
    (hblk : h.block b = some blk) (hwf : blk.WellFormed b) (hpos : 1 ≤ blk.shared_count_) :
    Tracks h b blk.shared_count_ (blk.outerWeak b) blk.deleter_calls := by
  obtain ⟨hb, hd⟩ := Heap.get_of_block hblk
  obtain ⟨h1, h2, h3, h4⟩ := hwf
  have hne : blk.shared_count_ ≠ 0 := by omega
  refine ⟨blk, hb, rfl, h1, h2, by simp [hne], by simp [hne, hd], ?_, fun _ => h3⟩
  unfold ControlBlock.outerWeak
  cases hw : blk.wired b with
  | true =>
    have h5 := h4 hw
    have hp : 0 < blk.shared_count_ := hpos
    simp only [hp, true_and, if_true]
    omega
  | false => simp

theorem Tracks.allocated {h : Heap} {b s w d0 : Nat} (ht : Tracks h b s w d0)
    (hlive : 0 < s ∨ 0 < w) : ∃ blk, h.block b = some blk ∧ blk.shared_count_ = s := by
  obtain ⟨blk, hb, hs, _, _, _, hdel, _⟩ := ht
  have hd : blk.deleted = 0 := by
    rw [hdel]
    rw [if_neg]
    omega
  exact ⟨blk, Heap.block_of_get hb hd, hs⟩

/-- Copying a strong handle of a tracked block adds one strong handle. -/
theorem Tracks.copy {h : Heap} {b s w d0 : Nat} (ht : Tracks h b s w d0) (hpos : 0 < s)
    (hlt : s + 1 < SIZE_MOD) (x : SharedPtr) (hx : x.control_block_ = some b) :
    ∃ h1, SharedPtr.copy h x = some (h1, x) ∧ Tracks h1 b (s + 1) w d0 := by
  obtain ⟨blk, hb, hs, _, hwlt, hdc, hdel, hwc, hok⟩ := ht
  have hne : s ≠ 0 := by omega
  have hd : blk.deleted = 0 := by simpa [hne] using hdel
  have hinc : incr blk.shared_count_ = s + 1 := by rw [hs]; exact incr_lt hlt
  simp only [SharedPtr.copy, SharedPtr.IncreaseCount, hx]
  rw [ControlBlock.IncrementSharedCount_eq hb hd]
  refine ⟨h.set b { blk with shared_count_ := incr blk.shared_count_ }, ?_,
    { blk with shared_count_ := incr blk.shared_count_ }, Heap.get_set_same _ hb, hinc, hlt,
    hwlt, ?_, ?_, ?_, ?_⟩
  · cases x
    simp_all
  · simpa [hne] using hdc
  · simpa using hd
  · simpa [ControlBlock.wired, hpos] using hwc
  · intro _
    have hok1 := hok hpos
    simpa [ControlBlock.SelfRefOk] using hok1

/-- Making `n` copies of a strong handle of a tracked block. -/
theorem Tracks.makeCopies {b w d0 : Nat} (x : SharedPtr) (hx : x.control_block_ = some b)
    (n : Nat) : ∀ (h : Heap) (s : Nat), Tracks h b s w d0 → 0 < s → s + n < SIZE_MOD →
      ∃ h1, SmartPtrs.makeCopies h x n = some (h1, List.replicate n x) ∧
        Tracks h1 b (s + n) w d0 := by
  induction n with
  | zero =>
    intro h s ht _ _
    exact ⟨h, rfl, ht⟩
  | succ n ih =>
    intro h s ht hpos hlt
    obtain ⟨h1, hc, ht1⟩ := Tracks.copy ht hpos (by omega) x hx
    obtain ⟨h2, hm, ht2⟩ := ih h1 (s + 1) ht1 (by omega) (by omega)
    refine ⟨h2, ?_, ?_⟩
    · simp [SmartPtrs.makeCopies, hc, hm, List.replicate_succ]
    · have e : s + (n + 1) = s + 1 + n := by omega
      rw [e]
      exact ht2

/-- Building a weak handle from a strong handle of a tracked block adds one
weak handle. -/
theorem Tracks.ofShared {h : Heap} {b s w d0 : Nat} (ht : Tracks h b s w d0) (hpos : 0 < s)
    (hlt : ∀ blk, h[b]? = some blk → blk.weak_count_ + 1 < SIZE_MOD)
    (x : SharedPtr) (hx : x.control_block_ = some b) :
    ∃ h1, WeakPtr.ofShared h x = some (h1, { control_block_ := some b, ptr_ := x.ptr_ }) ∧
      Tracks h1 b s (w + 1) d0 := by
  obtain ⟨blk, hb, hs, hslt, hwlt, hdc, hdel, hwc, hok⟩ := ht
  have hne : s ≠ 0 := by omega
  have hd : blk.deleted = 0 := by simpa [hne] using hdel
  have hinc : incr blk.weak_count_ = blk.weak_count_ + 1 := incr_lt (hlt blk hb)
  simp only [WeakPtr.ofShared, WeakPtr.IncreaseCount, hx]
  rw [ControlBlock.IncrementWeakCount_eq hb hd]
  refine ⟨_, rfl, _, Heap.get_set_same _ hb, hs, hslt, incr_lt_mod _, ?_, ?_, ?_, ?_⟩
  · simpa using hdc
  · simpa [hne] using hd
  · simp only []
    rw [hinc]
    have hwc1 : blk.weak_count_ =
        w + (if 0 < s ∧ ControlBlock.wired b blk = true then 1 else 0) := hwc
    simp only [ControlBlock.wired] at hwc1 ⊢
    omega
  · intro _
    have hok1 := hok hpos
    simpa [ControlBlock.SelfRefOk] using hok1

theorem strongCount_map_strong (l : List SharedPtr) :
    strongCount (l.map Handle.strong) = l.length := by
  induction l with
  | nil => rfl
  | cons x xs ih =>
    simp only [strongCount, List.map_cons, List.countP_cons, Handle.isStrong] at ih ⊢
    simp [ih]

theorem weakCount_map_strong (l : List SharedPtr) :
    weakCount (l.map Handle.strong) = 0 := by
  induction l with
  | nil => rfl
  | cons x xs ih =>
    simp only [weakCount, List.map_cons, List.countP_cons, Handle.isStrong] at ih ⊢
    simp [ih]

theorem strongCount_add_weakCount (l : List Handle) :
    strongCount l + weakCount l = l.length := by
  induction l with
  | nil => rfl
  | cons x xs ih =>
    cases x <;>
      simp only [strongCount, weakCount, List.countP_cons, Handle.isStrong,
        List.length_cons] at ih ⊢ <;> simp <;> omega

theorem strongCount_append (l1 l2 : List Handle) :
    strongCount (l1 ++ l2) = strongCount l1 + strongCount l2 := by
  simp [strongCount, List.countP_append]

theorem weakCount_append (l1 l2 : List Handle) :
    weakCount (l1 ++ l2) = weakCount l1 + weakCount l2 := by
  simp [weakCount, List.countP_append]

theorem Tracks.sharedCountAt_eq {h : Heap} {b s w d0 : Nat} (ht : Tracks h b s w d0) :
    h.sharedCountAt b = s := by
  obtain ⟨blk, hb, hs, _⟩ := ht
  simp [Heap.sharedCountAt, hb, hs]

theorem Tracks.weakCountAt_eq {h : Heap} {b w d0 : Nat} (ht : Tracks h b 0 w d0) :
    h.weakCountAt b = w := by
  obtain ⟨blk, hb, _, _, _, _, _, hwc, _⟩ := ht
  simp [Heap.weakCountAt, hb, hwc]

/-- The function `IncrementSharedCount` on a tracked block with live payload adds one strong
handle. -/
theorem Tracks.incShared {h : Heap} {b s w d0 : Nat} (ht : Tracks h b s w d0) (hpos : 0 < s)
    (hlt : s + 1 < SIZE_MOD) :
    ∃ h1, ControlBlock.IncrementSharedCount h b = some h1 ∧ Tracks h1 b (s + 1) w d0 := by
  obtain ⟨h1, hc, ht1⟩ :=
    Tracks.copy ht hpos hlt { control_block_ := some b, ptr_ := 0 } rfl
  refine ⟨h1, ?_, ht1⟩
  simp only [SharedPtr.copy, SharedPtr.IncreaseCount] at hc
  cases hi : ControlBlock.IncrementSharedCount h b with
  | none => simp [hi] at hc
  | some h2 =>
    simp [hi] at hc
    rw [hc]

theorem Tracks.useCount {h : Heap} {b s w d0 : Nat} (ht : Tracks h b s w d0)
    (hlive : 0 < s ∨ 0 < w) (x : SharedPtr) (hx : x.control_block_ = some b) :
    SharedPtr.UseCount h x = some s := by
  obtain ⟨blk, hblk, hs⟩ := ht.allocated hlive
  obtain ⟨hg, hd⟩ := Heap.get_of_block hblk
  simp only [SharedPtr.UseCount, hx]
  rw [ControlBlock.GetSharedCount_eq hg hd, hs]

theorem Handle.release_strong_eq {h h1 : Heap} {x : SharedPtr}
    (hr : Handle.release h (Handle.strong x) = some h1) :
    SharedPtr.Reset h x = some (h1, SharedPtr.empty) := by
  simp only [Handle.release, SharedPtr.Reset] at hr ⊢
  cases hd : SharedPtr.DecreaseCount h x with
  | none => simp [hd] at hr
  | some h2 =>
    simp [hd] at hr
    rw [hr]
    rfl

/-- The function `Lock` on a weak handle of an allocated block with non-zero strong count. -/
theorem WeakPtr.Lock_live {h : Heap} {b : Nat} {blk : ControlBlock} {w : WeakPtr}
    (hblk : h.block b = some blk) (hw : w.control_block_ = some b)
    (hz : blk.shared_count_ ≠ 0) :
    WeakPtr.Lock h w =
      some (h.set b { blk with shared_count_ := incr blk.shared_count_ },
        Except.ok { control_block_ := some b, ptr_ := w.ptr_ }) := by
  obtain ⟨hg, hd⟩ := Heap.get_of_block hblk
  have huse : WeakPtr.UseCount h w = some blk.shared_count_ := by
    simp only [WeakPtr.UseCount, hw]
    exact ControlBlock.GetSharedCount_eq hg hd
  have hexp : WeakPtr.Expired h w = some false := by
    simp [WeakPtr.Expired, huse, hz]
  simp only [WeakPtr.Lock, hw, huse, ne_eq, hz, not_false_eq_true, if_true,
    SharedPtr.ofWeak, hexp, SharedPtr.IncreaseCount]
  rw [ControlBlock.IncrementSharedCount_eq hg hd]

/-- The function `InitWeakThis` on the fresh block of a constructor installs the self
reference. -/
theorem SharedPtr.InitWeakThis_fresh (h0 : Heap) (p : Nat) (hp : p ≠ 0) :
    SharedPtr.InitWeakThis (h0 ++ [ControlBlock.init p true])
        { control_block_ := some h0.length, ptr_ := p } p =
      some (h0 ++ [ControlBlock.captured h0.length p]) := by
  have hinc : incr 0 = 1 := by decide
  simp [SharedPtr.InitWeakThis, hp, WeakPtr.ofShared, WeakPtr.IncreaseCount,
    ControlBlock.IncrementWeakCount, Heap.block, ControlBlock.init, WeakPtr.moveAssign,
    WeakPtr.DecreaseCount, WeakPtr.empty, WeakPtr.Reset, ControlBlock.captured, hinc]

theorem SharedPtr.ofRaw_esft (h0 : Heap) (p : Nat) (hp : p ≠ 0) :
    SharedPtr.ofRaw h0 p true =
      some (h0 ++ [ControlBlock.captured h0.length p],
        { control_block_ := some h0.length, ptr_ := p }) := by
  simp only [SharedPtr.ofRaw, if_true]
  rw [SharedPtr.InitWeakThis_fresh h0 p hp]

theorem MakeShared_esft (h0 : Heap) (p : Nat) (hp : p ≠ 0) :
    MakeShared h0 p true =
      some (h0 ++ [ControlBlock.captured h0.length p],
        { control_block_ := some h0.length, ptr_ := p }) := by
  simp only [MakeShared, if_true]
  rw [SharedPtr.InitWeakThis_fresh h0 p hp]

/-! ## Well-formedness is what the constructors establish and tracking keeps -/

theorem ControlBlock.init_wellFormed (b addr : Nat) (esft : Bool) :
    (ControlBlock.init addr esft).WellFormed b := by
  have h1 : (1 : Nat) < SIZE_MOD := by decide
  refine ⟨h1, SIZE_MOD_pos, fun _ => Or.inl rfl, ?_⟩
  intro hw
  simp [ControlBlock.wired, ControlBlock.init, WeakPtr.empty] at hw

theorem ControlBlock.captured_wellFormed (b p : Nat) :
    (ControlBlock.captured b p).WellFormed b := by
  have h1 : (1 : Nat) < SIZE_MOD := by decide
  exact ⟨h1, h1, fun _ => Or.inr rfl, fun _ => Nat.le_refl 1⟩

/-- A tracked block with live payload is allocated and well-formed, and its
weak handles outside the object are the tracked ones. -/
theorem Tracks.wellFormed {h : Heap} {b s w d0 : Nat} (ht : Tracks h b s w d0) (hpos : 0 < s) :
    ∃ blk, h.block b = some blk ∧ blk.WellFormed b ∧ blk.shared_count_ = s ∧
      blk.outerWeak b = w ∧ blk.deleter_calls = d0 := by
  obtain ⟨blk, hb, hs, hslt, hwlt, hdc, hdel, hwc, hok⟩ := ht
  have hne : s ≠ 0 := by omega
  have hd : blk.deleted = 0 := by simpa [hne] using hdel
  refine ⟨blk, Heap.block_of_get hb hd, ⟨by omega, hwlt, hok hpos, ?_⟩, hs, ?_, ?_⟩
  · intro hw
    rw [hwc, if_pos ⟨hpos, hw⟩]
    omega
  · unfold ControlBlock.outerWeak
    rw [hwc]
    by_cases hw : blk.wired b = true
    · rw [if_pos ⟨hpos, hw⟩, if_pos hw]
      omega
    · rw [if_neg (fun hc => hw hc.2), if_neg hw]
      omega
  · simpa [hne] using hdc

/-! ## Claims -/

/-- C1: let `s0` be the only strong handle of an allocated, well-formed block
`b` (strong count one), whatever its payload.  Making `n` copies of `s0`
succeeds and gives `n + 1` handles; releasing these handles one by one in any
order succeeds, and the payload destroy `Deleter()` of the block has been
called during none of the first `k < n + 1` releases and exactly once after
the last one.  (`n + 1` must be a value of `size_t`.) -/
theorem shared_copies_released_destroy_once
    (h : Heap) (b : Nat) (blk : ControlBlock) (s0 : SharedPtr) (n : Nat)
    (hblk : h.block b = some blk) (hwf : blk.WellFormed b)
    (hs0 : s0.control_block_ = some b) (hone : blk.shared_count_ = 1)
    (hn : n + 1 < SIZE_MOD) :
    ∃ h1 copies, makeCopies h s0 n = some (h1, copies) ∧ copies.length = n ∧
      ∀ order : List SharedPtr, order.Perm (s0 :: copies) →
        ∀ k, k ≤ n + 1 →
          ∃ hk, releaseAll h1 ((order.take k).map Handle.strong) = some hk ∧
            hk.deleterCalls b = blk.deleter_calls + (if k = n + 1 then 1 else 0) := by
  have ht0 := Tracks.of_block hblk hwf (by omega)
  rw [hone] at ht0
  obtain ⟨h1, hm, ht1⟩ := Tracks.makeCopies s0 hs0 n h 1 ht0 (by decide) (by omega)
  refine ⟨h1, List.replicate n s0, hm, List.length_replicate n s0, ?_⟩
  intro order hperm k hk
  have hlen : order.length = n + 1 := by
    rw [hperm.length_eq]
    simp
  have hmem : ∀ x ∈ order, x.control_block_ = some b := by
    intro x hx
    have hx1 := hperm.mem_iff.mp hx
    rcases List.mem_cons.mp hx1 with h2 | h2
    · rw [h2]; exact hs0
    · rw [List.eq_of_mem_replicate h2]; exact hs0
  have hon : ∀ x ∈ (order.take k).map Handle.strong, x.control_block_ = some b := by
    intro x hx
    obtain ⟨y, hy, rfl⟩ := List.mem_map.mp hx
    exact hmem y (List.mem_of_mem_take hy)
  have hsc : strongCount ((order.take k).map Handle.strong) = k := by
    rw [strongCount_map_strong, List.length_take, hlen]
    omega
  have hwc := weakCount_map_strong (order.take k)
  have ht2 : Tracks h1 b (strongCount ((order.take k).map Handle.strong) + (n + 1 - k))
      (weakCount ((order.take k).map Handle.strong) + blk.outerWeak b) blk.deleter_calls := by
    rw [hsc, hwc]
    have e1 : k + (n + 1 - k) = 1 + n := by omega
    rw [e1, Nat.zero_add]
    exact ht1
  obtain ⟨hk1, hr, ht3⟩ := Tracks.releaseAll _ hon h1 _ _ ht2
  refine ⟨hk1, hr, ?_⟩
  rw [ht3.deleterCalls_eq]
  by_cases hkn : k = n + 1
  · simp [hkn]
  · have hne : n + 1 - k ≠ 0 := by omega
    simp [hkn, hne]

/-- C1 at a concrete input: the block made by `SharedPtr(Y* ptr)` for an object
with a self reference, two copies. -/
theorem shared_copies_released_destroy_once_witness :
    (SharedPtr.ofRaw [] 100 true = some ([sampleBlock], sampleShared) ∧
      Heap.block [sampleBlock] 0 = some sampleBlock ∧ sampleBlock.WellFormed 0 ∧
      sampleShared.control_block_ = some 0 ∧ sampleBlock.shared_count_ = 1 ∧
      2 + 1 < SIZE_MOD) ∧
    ∃ h1 copies, makeCopies [sampleBlock] sampleShared 2 = some (h1, copies) ∧
      copies.length = 2 ∧
      ∀ order : List SharedPtr, order.Perm (sampleShared :: copies) →
        ∀ k, k ≤ 2 + 1 →
          ∃ hk, releaseAll h1 ((order.take k).map Handle.strong) = some hk ∧
            hk.deleterCalls 0 = sampleBlock.deleter_calls + (if k = 2 + 1 then 1 else 0) :=
  ⟨⟨by decide, by decide, by decide, rfl, rfl, by decide⟩,
    shared_copies_released_destroy_once [sampleBlock] 0 sampleBlock sampleShared 2
      (by decide) (by decide) rfl rfl (by decide)⟩

/-- C2: let `hs` be the handles of an allocated, well-formed block `b`: all its
`s >= 1` strong handles and all its `w >= 0` weak handles.  For every order in
which they are released, every release succeeds; after `k` releases the block
has been deallocated once if `k` is the number of handles and not at all
before, and the two stored counters are both zero exactly after the last
release.  So the one deallocation is made by the last decrement, strong or
weak, whichever comes last. -/
theorem block_deallocated_once_by_last_release
    (h : Heap) (b : Nat) (blk : ControlBlock) (hs : List Handle)
    (hblk : h.block b = some blk) (hwf : blk.WellFormed b)
    (hon : ∀ x ∈ hs, x.control_block_ = some b)
    (hpos : 1 ≤ blk.shared_count_)
    (hsc : strongCount hs = blk.shared_count_)
    (hwc : weakCount hs = blk.outerWeak b) :
    ∀ order : List Handle, order.Perm hs →
      ∀ k, k ≤ order.length →
        ∃ hk, releaseAll h (order.take k) = some hk ∧
          hk.deletedCount b = (if k = order.length then 1 else 0) ∧
          ((hk.sharedCountAt b = 0 ∧ hk.weakCountAt b = 0) ↔ k = order.length) := by
  intro order hperm k hk
  have ht0 := Tracks.of_block hblk hwf hpos
  have hsc1 : strongCount order = blk.shared_count_ := by
    rw [← hsc]; exact hperm.countP_eq _
  have hwc1 : weakCount order = blk.outerWeak b := by
    rw [← hwc]; exact hperm.countP_eq _
  have hsplit : order.take k ++ order.drop k = order := List.take_append_drop k order
  have hs2 : strongCount (order.take k) + strongCount (order.drop k) = blk.shared_count_ := by
    rw [← strongCount_append, hsplit, hsc1]
  have hw2 : weakCount (order.take k) + weakCount (order.drop k) = blk.outerWeak b := by
    rw [← weakCount_append, hsplit, hwc1]
  have hon1 : ∀ x ∈ order.take k, x.control_block_ = some b := fun x hx =>
    hon x (hperm.mem_iff.mp (List.mem_of_mem_take hx))
  rw [← hs2, ← hw2] at ht0
  obtain ⟨hk1, hr, ht1⟩ := Tracks.releaseAll _ hon1 h _ _ ht0
  have hrest : strongCount (order.drop k) + weakCount (order.drop k) = order.length - k := by
    rw [strongCount_add_weakCount, List.length_drop]
  refine ⟨hk1, hr, ?_, ?_⟩
  · rw [ht1.deletedCount_eq]
    by_cases hkl : k = order.length
    · have h0 : strongCount (order.drop k) = 0 ∧ weakCount (order.drop k) = 0 := by omega
      rw [if_pos h0, if_pos hkl]
    · have h0 : ¬ (strongCount (order.drop k) = 0 ∧ weakCount (order.drop k) = 0) := by omega
      rw [if_neg h0, if_neg hkl]
  · rw [ht1.sharedCountAt_eq]
    constructor
    · intro hz
      have hz1 := hz.1
      rw [hz1] at ht1
      have hz2 := hz.2
      rw [ht1.weakCountAt_eq] at hz2
      omega
    · intro hkl
      have h0 : strongCount (order.drop k) = 0 ∧ weakCount (order.drop k) = 0 := by omega
      refine ⟨h0.1, ?_⟩
      rw [h0.1] at ht1
      rw [ht1.weakCountAt_eq]
      exact h0.2

/-- C2 at a concrete input: two strong handles and one weak handle, the weak
one released between the strong ones. -/
theorem block_deallocated_once_by_last_release_witness :
    (Heap.block [sampleBlock2] 0 = some sampleBlock2 ∧ sampleBlock2.WellFormed 0 ∧
      (∀ x ∈ [Handle.strong sampleShared, Handle.weak sampleWeak, Handle.strong sampleShared],
        x.control_block_ = some 0) ∧
      1 ≤ sampleBlock2.shared_count_ ∧
      strongCount [Handle.strong sampleShared, Handle.weak sampleWeak,
        Handle.strong sampleShared] = sampleBlock2.shared_count_ ∧
      weakCount [Handle.strong sampleShared, Handle.weak sampleWeak,
        Handle.strong sampleShared] = sampleBlock2.outerWeak 0) ∧
    ∀ order : List Handle,
      order.Perm [Handle.strong sampleShared, Handle.weak sampleWeak,
        Handle.strong sampleShared] →
      ∀ k, k ≤ order.length →
        ∃ hk, releaseAll [sampleBlock2] (order.take k) = some hk ∧
          hk.deletedCount 0 = (if k = order.length then 1 else 0) ∧
          ((hk.sharedCountAt 0 = 0 ∧ hk.weakCountAt 0 = 0) ↔ k = order.length) :=
  ⟨⟨by decide, by decide, by decide, by decide, by decide, by decide⟩,
    block_deallocated_once_by_last_release [sampleBlock2] 0 sampleBlock2
      [Handle.strong sampleShared, Handle.weak sampleWeak, Handle.strong sampleShared]
      (by decide) (by decide) (by decide) (by decide) (by decide) (by decide)⟩

/-- C3: let `s` be a strong handle of an allocated, well-formed block `b` whose
strong handles are `strongs` (at least one), with any number of weak handles
already on the block.  `WeakPtr w(s)` succeeds; once all strong handles have
been released, in any order, `w.Expired()` is true, `w.UseCount()` is `0`,
`w.Lock()` returns an empty `SharedPtr` and changes nothing, and the block `w`
reads is still allocated.  (The weak counter must have room for `w`.) -/
theorem weak_expired_after_last_strong_release
    (h : Heap) (b : Nat) (blk : ControlBlock) (s : SharedPtr) (strongs : List SharedPtr)
    (hblk : h.block b = some blk) (hwf : blk.WellFormed b)
    (hs : s.control_block_ = some b) (hin : s ∈ strongs)
    (hon : ∀ x ∈ strongs, x.control_block_ = some b)
    (hlen : strongs.length = blk.shared_count_)
    (hroom : blk.weak_count_ + 1 < SIZE_MOD) :
    ∃ h1 w, WeakPtr.ofShared h s = some (h1, w) ∧
      ∀ order : List SharedPtr, order.Perm strongs →
        ∃ h2, releaseAll h1 (order.map Handle.strong) = some h2 ∧
          WeakPtr.Expired h2 w = some true ∧
          WeakPtr.UseCount h2 w = some 0 ∧
          WeakPtr.Lock h2 w = some (h2, Except.ok SharedPtr.empty) ∧
          (∃ blk2, h2.block b = some blk2) ∧
          h2.weakCountAt b = blk.outerWeak b + 1 := by
  have hpos : 1 ≤ blk.shared_count_ := by
    rw [← hlen]
    exact List.length_pos_of_mem hin
  have ht0 := Tracks.of_block hblk hwf hpos
  have hget := (Heap.get_of_block hblk).1
  have hroom1 : ∀ blk1, h[b]? = some blk1 → blk1.weak_count_ + 1 < SIZE_MOD := by
    intro blk1 hb1
    rw [hget] at hb1
    cases hb1
    exact hroom
  obtain ⟨h1, hw, ht1⟩ := Tracks.ofShared ht0 hpos hroom1 s hs
  refine ⟨h1, _, hw, ?_⟩
  intro order hperm
  have hon1 : ∀ x ∈ order.map Handle.strong, x.control_block_ = some b := by
    intro x hx
    obtain ⟨y, hy, rfl⟩ := List.mem_map.mp hx
    exact hon y (hperm.mem_iff.mp hy)
  have ht2 : Tracks h1 b (strongCount (order.map Handle.strong) + 0)
      (weakCount (order.map Handle.strong) + (blk.outerWeak b + 1)) blk.deleter_calls := by
    rw [strongCount_map_strong, weakCount_map_strong, hperm.length_eq, hlen, Nat.add_zero,
      Nat.zero_add]
    exact ht1
  obtain ⟨h2, hr, ht3⟩ := Tracks.releaseAll _ hon1 h1 _ _ ht2
  obtain ⟨blk2, hb2, hs2⟩ := ht3.allocated (Or.inr (Nat.succ_pos _))
  obtain ⟨hg2, hd2⟩ := Heap.get_of_block hb2
  have huse : WeakPtr.UseCount h2 { control_block_ := some b, ptr_ := s.ptr_ } = some 0 := by
    simp only [WeakPtr.UseCount]
    rw [ControlBlock.GetSharedCount_eq hg2 hd2, hs2]
  refine ⟨h2, hr, ?_, huse, ?_, ⟨blk2, hb2⟩, ht3.weakCountAt_eq⟩
  · simp only [WeakPtr.Expired, huse]
    rfl
  · simp only [WeakPtr.Lock, huse]
    rfl

/-- C3 at a concrete input: two strong handles, one other weak handle and the
self reference of the object alive on the block. -/
theorem weak_expired_after_last_strong_release_witness :
    (Heap.block [sampleBlock2] 0 = some sampleBlock2 ∧ sampleBlock2.WellFormed 0 ∧
      sampleShared.control_block_ = some 0 ∧ sampleShared ∈ [sampleShared, sampleShared] ∧
      (∀ x ∈ [sampleShared, sampleShared], x.control_block_ = some 0) ∧
      [sampleShared, sampleShared].length = sampleBlock2.shared_count_ ∧
      sampleBlock2.weak_count_ + 1 < SIZE_MOD) ∧
    ∃ h1 w, WeakPtr.ofShared [sampleBlock2] sampleShared = some (h1, w) ∧
      ∀ order : List SharedPtr, order.Perm [sampleShared, sampleShared] →
        ∃ h2, releaseAll h1 (order.map Handle.strong) = some h2 ∧
          WeakPtr.Expired h2 w = some true ∧
          WeakPtr.UseCount h2 w = some 0 ∧
          WeakPtr.Lock h2 w = some (h2, Except.ok SharedPtr.empty) ∧
          (∃ blk2, h2.block 0 = some blk2) ∧
          h2.weakCountAt 0 = sampleBlock2.outerWeak 0 + 1 :=
  ⟨⟨by decide, by decide, rfl, by decide, by decide, by decide, by decide⟩,
    weak_expired_after_last_strong_release [sampleBlock2] 0 sampleBlock2 sampleShared
      [sampleShared, sampleShared] (by decide) (by decide) rfl (by decide) (by decide)
      (by decide) (by decide)⟩

/-- C4: let `w` be a weak handle that is empty or refers to an allocated block
whose strong counter is below the largest `size_t`.  The promotion constructor
`SharedPtr(w)` raises `BadWeakPtr` if and only if `w.Expired()`, that is if and
only if the block of `w` is null or its strong count is zero, and then the
memory is unchanged; otherwise it returns a handle with the block and the
pointer of `w` whose `UseCount()` is one more than `w.UseCount()` was. -/
theorem promotion_raises_iff_expired (h : Heap) (w : WeakPtr)
    (hvalid : ∀ b, w.control_block_ = some b →
      ∃ blk, h.block b = some blk ∧ blk.shared_count_ + 1 < SIZE_MOD) :
    ((∃ h1, SharedPtr.ofWeak h w = some (h1, Except.error BadWeakPtr.mk)) ↔
        WeakPtr.Expired h w = some true) ∧
    (WeakPtr.Expired h w = some true ↔
        (w.control_block_ = none ∨
          ∃ b blk, w.control_block_ = some b ∧ h.block b = some blk ∧ blk.shared_count_ = 0)) ∧
    (WeakPtr.Expired h w = some true →
        SharedPtr.ofWeak h w = some (h, Except.error BadWeakPtr.mk)) ∧
    (WeakPtr.Expired h w ≠ some true →
        ∃ c h1 s, WeakPtr.UseCount h w = some c ∧
          SharedPtr.ofWeak h w = some (h1, Except.ok s) ∧
          s.control_block_ = w.control_block_ ∧ s.ptr_ = w.ptr_ ∧
          SharedPtr.UseCount h1 s = some (c + 1)) := by
  cases hcb : w.control_block_ with
  | none =>
    have huse : WeakPtr.UseCount h w = some 0 := by simp [WeakPtr.UseCount, hcb]
    have hexp : WeakPtr.Expired h w = some true := by simp [WeakPtr.Expired, huse]
    have hof : SharedPtr.ofWeak h w = some (h, Except.error BadWeakPtr.mk) := by
      simp [SharedPtr.ofWeak, hexp]
    refine ⟨⟨fun _ => hexp, fun _ => ⟨h, hof⟩⟩, ⟨fun _ => Or.inl rfl, fun _ => hexp⟩,
      fun _ => hof, fun hne => absurd hexp hne⟩
  | some b =>
    obtain ⟨blk, hblk, hlt⟩ := hvalid b hcb
    obtain ⟨hg, hd⟩ := Heap.get_of_block hblk
    have huse : WeakPtr.UseCount h w = some blk.shared_count_ := by
      simp only [WeakPtr.UseCount, hcb]
      exact ControlBlock.GetSharedCount_eq hg hd
    have hexp : WeakPtr.Expired h w = some (decide (blk.shared_count_ = 0)) := by
      simp [WeakPtr.Expired, huse]
    by_cases hz : blk.shared_count_ = 0
    · have hexp1 : WeakPtr.Expired h w = some true := by rw [hexp]; simp [hz]
      have hof : SharedPtr.ofWeak h w = some (h, Except.error BadWeakPtr.mk) := by
        simp [SharedPtr.ofWeak, hexp1]
      refine ⟨⟨fun _ => hexp1, fun _ => ⟨h, hof⟩⟩,
        ⟨fun _ => Or.inr ⟨b, blk, rfl, hblk, hz⟩, fun _ => hexp1⟩,
        fun _ => hof, fun hne => absurd hexp1 hne⟩
    · have hexp1 : WeakPtr.Expired h w = some false := by rw [hexp]; simp [hz]
      have hne : WeakPtr.Expired h w ≠ some true := by rw [hexp1]; simp
      have hof : SharedPtr.ofWeak h w =
          some (h.set b { blk with shared_count_ := incr blk.shared_count_ },
            Except.ok { control_block_ := some b, ptr_ := w.ptr_ }) := by
        simp only [SharedPtr.ofWeak, hexp1, SharedPtr.IncreaseCount, hcb]
        rw [ControlBlock.IncrementSharedCount_eq hg hd]
      have hcnt : SharedPtr.UseCount
          (h.set b { blk with shared_count_ := incr blk.shared_count_ })
          { control_block_ := some b, ptr_ := w.ptr_ } = some (blk.shared_count_ + 1) := by
        simp only [SharedPtr.UseCount]
        have hg1 := Heap.get_set_same { blk with shared_count_ := incr blk.shared_count_ } hg
        rw [ControlBlock.GetSharedCount_eq hg1 hd]
        simp only []
        rw [incr_lt hlt]
      refine ⟨⟨fun hex => ?_, fun hex => absurd hex hne⟩, ⟨fun hex => absurd hex hne, ?_⟩,
        fun hex => absurd hex hne,
        fun _ => ⟨blk.shared_count_, _, _, huse, hof, rfl, rfl, hcnt⟩⟩
      · obtain ⟨h1, hh1⟩ := hex
        rw [hof] at hh1
        simp at hh1
      · intro hor
        rcases hor with h0 | ⟨b1, blk1, hb1, hblk1, hz1⟩
        · exact Option.noConfusion h0
        · cases hb1
          rw [hblk] at hblk1
          cases hblk1
          exact absurd hz1 hz

/-- C4 at a concrete input: the self reference of `sampleBlock`, strong count
one. -/
theorem promotion_raises_iff_expired_witness :
    (∀ b, sampleWeak.control_block_ = some b →
      ∃ blk, Heap.block [sampleBlock] b = some blk ∧ blk.shared_count_ + 1 < SIZE_MOD) ∧
    (((∃ h1, SharedPtr.ofWeak [sampleBlock] sampleWeak =
          some (h1, Except.error BadWeakPtr.mk)) ↔
        WeakPtr.Expired [sampleBlock] sampleWeak = some true) ∧
    (WeakPtr.Expired [sampleBlock] sampleWeak = some true ↔
        (sampleWeak.control_block_ = none ∨
          ∃ b blk, sampleWeak.control_block_ = some b ∧
            Heap.block [sampleBlock] b = some blk ∧ blk.shared_count_ = 0)) ∧
    (WeakPtr.Expired [sampleBlock] sampleWeak = some true →
        SharedPtr.ofWeak [sampleBlock] sampleWeak =
          some ([sampleBlock], Except.error BadWeakPtr.mk)) ∧
    (WeakPtr.Expired [sampleBlock] sampleWeak ≠ some true →
        ∃ c h1 s, WeakPtr.UseCount [sampleBlock] sampleWeak = some c ∧
          SharedPtr.ofWeak [sampleBlock] sampleWeak = some (h1, Except.ok s) ∧
          s.control_block_ = sampleWeak.control_block_ ∧ s.ptr_ = sampleWeak.ptr_ ∧
          SharedPtr.UseCount h1 s = some (c + 1))) :=
  have hv : ∀ b, sampleWeak.control_block_ = some b →
      ∃ blk, Heap.block [sampleBlock] b = some blk ∧ blk.shared_count_ + 1 < SIZE_MOD :=
    fun b hb => ⟨sampleBlock, by cases hb; decide, by decide⟩
  ⟨hv, promotion_raises_iff_expired [sampleBlock] sampleWeak hv⟩

/-- C5: let `w` be a weak handle that is empty or refers to an allocated block
whose strong counter is below the largest `size_t`, and `c` its `UseCount()`.
`w.Lock()` returns a handle and never raises.  If the block of `w` is null or
`c` is zero, the handle is the empty one (null block, null pointer, use count
zero) and the memory is unchanged; otherwise the handle has the block and the
pointer of `w`, the strong count of the block is `c + 1` and its weak count is
unchanged. -/
theorem lock_never_raises (h : Heap) (w : WeakPtr)
    (hvalid : ∀ b, w.control_block_ = some b →
      ∃ blk, h.block b = some blk ∧ blk.shared_count_ + 1 < SIZE_MOD) :
    ∃ c, WeakPtr.UseCount h w = some c ∧
      (∃ h1 s, WeakPtr.Lock h w = some (h1, Except.ok s)) ∧
      ((w.control_block_ = none ∨ c = 0) →
        WeakPtr.Lock h w = some (h, Except.ok SharedPtr.empty) ∧
        SharedPtr.empty.control_block_ = none ∧ SharedPtr.empty.Get = 0 ∧
        SharedPtr.UseCount h SharedPtr.empty = some 0) ∧
      (¬ (w.control_block_ = none ∨ c = 0) →
        ∃ h1 s, WeakPtr.Lock h w = some (h1, Except.ok s) ∧
          s.control_block_ = w.control_block_ ∧ s.ptr_ = w.ptr_ ∧
          ∀ b, w.control_block_ = some b →
            ControlBlock.GetSharedCount h1 b = some (c + 1) ∧
            ControlBlock.GetWeakCount h1 b = ControlBlock.GetWeakCount h b) := by
  have hempty : SharedPtr.empty.control_block_ = none ∧ SharedPtr.empty.Get = 0 ∧
      SharedPtr.UseCount h SharedPtr.empty = some 0 := ⟨rfl, rfl, rfl⟩
  cases hcb : w.control_block_ with
  | none =>
    have hlock : WeakPtr.Lock h w = some (h, Except.ok SharedPtr.empty) := by
      simp [WeakPtr.Lock, hcb]
    refine ⟨0, by simp [WeakPtr.UseCount, hcb], ⟨h, _, hlock⟩, fun _ => ⟨hlock, hempty⟩,
      fun hn => absurd (Or.inl rfl) hn⟩
  | some b =>
    obtain ⟨blk, hblk, hlt⟩ := hvalid b hcb
    obtain ⟨hg, hd⟩ := Heap.get_of_block hblk
    have huse : WeakPtr.UseCount h w = some blk.shared_count_ := by
      simp only [WeakPtr.UseCount, hcb]
      exact ControlBlock.GetSharedCount_eq hg hd
    by_cases hz : blk.shared_count_ = 0
    · have hlock : WeakPtr.Lock h w = some (h, Except.ok SharedPtr.empty) := by
        simp [WeakPtr.Lock, hcb, huse, hz]
      exact ⟨blk.shared_count_, huse, ⟨h, _, hlock⟩, fun _ => ⟨hlock, hempty⟩,
        fun hn => absurd (Or.inr hz) hn⟩
    · have hexp : WeakPtr.Expired h w = some false := by
        simp [WeakPtr.Expired, huse, hz]
      have hg1 := Heap.get_set_same { blk with shared_count_ := incr blk.shared_count_ } hg
      have hlock : WeakPtr.Lock h w =
          some (h.set b { blk with shared_count_ := incr blk.shared_count_ },
            Except.ok { control_block_ := some b, ptr_ := w.ptr_ }) := by
        simp only [WeakPtr.Lock, hcb, huse, ne_eq, hz, not_false_eq_true, if_true,
          SharedPtr.ofWeak, hexp, SharedPtr.IncreaseCount]
        rw [ControlBlock.IncrementSharedCount_eq hg hd]
      refine ⟨blk.shared_count_, huse, ⟨_, _, hlock⟩, fun hor => ?_, fun _ => ?_⟩
      · rcases hor with h0 | h0
        · exact Option.noConfusion h0
        · exact absurd h0 hz
      · refine ⟨_, _, hlock, rfl, rfl, ?_⟩
        intro b1 hb1
        cases hb1
        constructor
        · rw [ControlBlock.GetSharedCount_eq hg1 hd]
          simp only []
          rw [incr_lt hlt]
        · simp only [ControlBlock.GetWeakCount]
          rw [Heap.block_of_get hg1 hd, hblk]

/-- C5 at a concrete input: the self reference of `sampleBlock`. -/
theorem lock_never_raises_witness :
    (∀ b, sampleWeak.control_block_ = some b →
      ∃ blk, Heap.block [sampleBlock] b = some blk ∧ blk.shared_count_ + 1 < SIZE_MOD) ∧
    ∃ c, WeakPtr.UseCount [sampleBlock] sampleWeak = some c ∧
      (∃ h1 s, WeakPtr.Lock [sampleBlock] sampleWeak = some (h1, Except.ok s)) ∧
      ((sampleWeak.control_block_ = none ∨ c = 0) →
        WeakPtr.Lock [sampleBlock] sampleWeak = some ([sampleBlock], Except.ok SharedPtr.empty) ∧
        SharedPtr.empty.control_block_ = none ∧ SharedPtr.empty.Get = 0 ∧
        SharedPtr.UseCount [sampleBlock] SharedPtr.empty = some 0) ∧
      (¬ (sampleWeak.control_block_ = none ∨ c = 0) →
        ∃ h1 s, WeakPtr.Lock [sampleBlock] sampleWeak = some (h1, Except.ok s) ∧
          s.control_block_ = sampleWeak.control_block_ ∧ s.ptr_ = sampleWeak.ptr_ ∧
          ∀ b, sampleWeak.control_block_ = some b →
            ControlBlock.GetSharedCount h1 b = some (c + 1) ∧
            ControlBlock.GetWeakCount h1 b = ControlBlock.GetWeakCount [sampleBlock] b) :=
  have hv : ∀ b, sampleWeak.control_block_ = some b →
      ∃ blk, Heap.block [sampleBlock] b = some blk ∧ blk.shared_count_ + 1 < SIZE_MOD :=
    fun b hb => ⟨sampleBlock, by cases hb; decide, by decide⟩
  ⟨hv, lock_never_raises [sampleBlock] sampleWeak hv⟩

/-- C6: let `owner` be a strong handle of an allocated, well-formed block `b`
with strong count `c` (at least one, below the largest `size_t`) and `q` any
address.  The aliasing constructor `SharedPtr a(owner, q)` succeeds with
`a.Get() == q`, the block of `owner`, and strong count `c + 1`.  Releasing
`owner` then calls no `Deleter()`; and if `owner` was the only handle before,
releasing `a` afterwards calls `Deleter()` exactly once. -/
theorem aliasing_shares_block_and_keeps_payload
    (h : Heap) (b : Nat) (blk : ControlBlock) (owner : SharedPtr) (q : Nat)
    (hblk : h.block b = some blk) (hwf : blk.WellFormed b)
    (ho : owner.control_block_ = some b) (hpos : 1 ≤ blk.shared_count_)
    (hlt : blk.shared_count_ + 1 < SIZE_MOD) :
    ∃ h1 a, SharedPtr.alias h owner q = some (h1, a) ∧ a.Get = q ∧
      a.control_block_ = owner.control_block_ ∧
      SharedPtr.UseCount h1 a = some (blk.shared_count_ + 1) ∧
      ∃ h2 o2, SharedPtr.Reset h1 owner = some (h2, o2) ∧
        h2.deleterCalls b = blk.deleter_calls ∧
        SharedPtr.UseCount h2 a = some blk.shared_count_ ∧
        (blk.shared_count_ = 1 →
          ∃ h3 a3, SharedPtr.Reset h2 a = some (h3, a3) ∧
            h3.deleterCalls b = blk.deleter_calls + 1) := by
  have ht0 := Tracks.of_block hblk hwf hpos
  obtain ⟨h1, hinc, ht1⟩ := Tracks.incShared ht0 hpos hlt
  have ha : (⟨some b, q⟩ : SharedPtr).control_block_ = some b := rfl
  have halias : SharedPtr.alias h owner q = some (h1, ⟨some b, q⟩) := by
    simp only [SharedPtr.alias, SharedPtr.IncreaseCount, ho, hinc]
  obtain ⟨h2, hr2, ht2⟩ := Tracks.release_strong ht1 owner ho
  have hne : blk.shared_count_ ≠ 0 := by omega
  refine ⟨h1, ⟨some b, q⟩, halias, rfl, ho.symm,
    ht1.useCount (Or.inl (Nat.succ_pos _)) _ ha, h2, SharedPtr.empty,
    Handle.release_strong_eq hr2, ?_, ht2.useCount (Or.inl hpos) _ ha, ?_⟩
  · rw [ht2.deleterCalls_eq]
    simp [hne]
  · intro hone
    rw [hone] at ht2
    obtain ⟨h3, hr3, ht3⟩ := Tracks.release_strong ht2 ⟨some b, q⟩ ha
    refine ⟨h3, SharedPtr.empty, Handle.release_strong_eq hr3, ?_⟩
    rw [ht3.deleterCalls_eq]
    simp

/-- C6 at a concrete input: aliasing the only handle of `sampleBlock` to the
address `104`. -/
theorem aliasing_shares_block_and_keeps_payload_witness :
    (Heap.block [sampleBlock] 0 = some sampleBlock ∧ sampleBlock.WellFormed 0 ∧
      sampleShared.control_block_ = some 0 ∧ 1 ≤ sampleBlock.shared_count_ ∧
      sampleBlock.shared_count_ + 1 < SIZE_MOD) ∧
    ∃ h1 a, SharedPtr.alias [sampleBlock] sampleShared 104 = some (h1, a) ∧ a.Get = 104 ∧
      a.control_block_ = sampleShared.control_block_ ∧
      SharedPtr.UseCount h1 a = some (sampleBlock.shared_count_ + 1) ∧
      ∃ h2 o2, SharedPtr.Reset h1 sampleShared = some (h2, o2) ∧
        h2.deleterCalls 0 = sampleBlock.deleter_calls ∧
        SharedPtr.UseCount h2 a = some sampleBlock.shared_count_ ∧
        (sampleBlock.shared_count_ = 1 →
          ∃ h3 a3, SharedPtr.Reset h2 a = some (h3, a3) ∧
            h3.deleterCalls 0 = sampleBlock.deleter_calls + 1) :=
  ⟨⟨by decide, by decide, rfl, by decide, by decide⟩,
    aliasing_shares_block_and_keeps_payload [sampleBlock] 0 sampleBlock sampleShared 104
      (by decide) (by decide) rfl (by decide) (by decide)⟩

/-- C7: an object at a non-null address `p` of a type deriving from
`EnableSharedFromThis` is captured in memory `h0` by `SharedPtr(Y* ptr)` or by
`MakeShared`.  Either capture succeeds with a handle `s` on a new block, and a
call of `SharedFromThis()` on the object right away, or in any later memory
`h2` in which the object is alive and unchanged and the strong count `c` of its
block is at least one and below the largest `size_t`, returns without raising
a non-empty handle whose `Get()` is `p`, whose block is the block of `s`, and
the strong count of that block is then `c + 1`. -/
theorem shared_from_this_returns_own_handle (h0 : Heap) (p : Nat) (hp : p ≠ 0) :
    ∀ capture ∈ [SharedPtr.ofRaw h0 p true, MakeShared h0 p true],
      ∃ h1 s blk1, capture = some (h1, s) ∧ s.Get = p ∧
        s.control_block_ = some h0.length ∧
        h1.block h0.length = some blk1 ∧ blk1.shared_count_ = 1 ∧
        (∃ h3 r, EnableSharedFromThis.SharedFromThis h1 h0.length = some (h3, Except.ok r) ∧
          r.Get = p ∧ r.control_block_ = s.control_block_ ∧ r.toBool = true ∧
          SharedPtr.UseCount h3 r = some 2) ∧
        ∀ h2 blk2, h2.block h0.length = some blk2 → blk2.payload = blk1.payload →
          blk2.deleter_calls = 0 → 1 ≤ blk2.shared_count_ →
          blk2.shared_count_ + 1 < SIZE_MOD →
          ∃ h3 r, EnableSharedFromThis.SharedFromThis h2 h0.length = some (h3, Except.ok r) ∧
            r.Get = p ∧ r.control_block_ = s.control_block_ ∧ r.toBool = true ∧
            SharedPtr.UseCount h3 r = some (blk2.shared_count_ + 1) := by
  have hlater : ∀ h2 blk2, h2.block h0.length = some blk2 →
      blk2.payload = (ControlBlock.captured h0.length p).payload →
      blk2.deleter_calls = 0 → 1 ≤ blk2.shared_count_ →
      blk2.shared_count_ + 1 < SIZE_MOD →
      ∃ h3 r, EnableSharedFromThis.SharedFromThis h2 h0.length = some (h3, Except.ok r) ∧
        r.Get = p ∧ r.control_block_ = some h0.length ∧ r.toBool = true ∧
        SharedPtr.UseCount h3 r = some (blk2.shared_count_ + 1) := by
    intro h2 blk2 hblk2 hpay hdc hpos hlt
    obtain ⟨hg, hd⟩ := Heap.get_of_block hblk2
    have hwt : blk2.payload.weak_this_ = { control_block_ := some h0.length, ptr_ := p } := by
      rw [hpay]; rfl
    have hes : blk2.payload.esft = true := by rw [hpay]; rfl
    have hz : blk2.shared_count_ ≠ 0 := by omega
    have hlock := WeakPtr.Lock_live (w := blk2.payload.weak_this_) hblk2 (by rw [hwt]) hz
    have hg1 := Heap.get_set_same { blk2 with shared_count_ := incr blk2.shared_count_ } hg
    refine ⟨h2.set h0.length { blk2 with shared_count_ := incr blk2.shared_count_ },
      { control_block_ := some h0.length, ptr_ := blk2.payload.weak_this_.ptr_ },
      ?_, ?_, rfl, ?_, ?_⟩
    · simp only [EnableSharedFromThis.SharedFromThis, hg]
      rw [if_pos ⟨hes, hdc⟩]
      exact hlock
    · simp [SharedPtr.Get, hwt]
    · simp [SharedPtr.toBool, hwt, hp]
    · simp only [SharedPtr.UseCount]
      rw [ControlBlock.GetSharedCount_eq hg1 hd]
      simp only []
      rw [incr_lt hlt]
  have hcap : (h0 ++ [ControlBlock.captured h0.length p]).block h0.length =
      some (ControlBlock.captured h0.length p) := by
    simp [Heap.block, ControlBlock.captured]
  have hmain : ∀ capture, capture = some (h0 ++ [ControlBlock.captured h0.length p],
        ({ control_block_ := some h0.length, ptr_ := p } : SharedPtr)) →
      ∃ h1 s blk1, capture = some (h1, s) ∧ s.Get = p ∧
        s.control_block_ = some h0.length ∧
        h1.block h0.length = some blk1 ∧ blk1.shared_count_ = 1 ∧
        (∃ h3 r, EnableSharedFromThis.SharedFromThis h1 h0.length = some (h3, Except.ok r) ∧
          r.Get = p ∧ r.control_block_ = s.control_block_ ∧ r.toBool = true ∧
          SharedPtr.UseCount h3 r = some 2) ∧
        ∀ h2 blk2, h2.block h0.length = some blk2 → blk2.payload = blk1.payload →
          blk2.deleter_calls = 0 → 1 ≤ blk2.shared_count_ →
          blk2.shared_count_ + 1 < SIZE_MOD →
          ∃ h3 r, EnableSharedFromThis.SharedFromThis h2 h0.length = some (h3, Except.ok r) ∧
            r.Get = p ∧ r.control_block_ = s.control_block_ ∧ r.toBool = true ∧
            SharedPtr.UseCount h3 r = some (blk2.shared_count_ + 1) := by
    intro capture hc
    refine ⟨_, _, ControlBlock.captured h0.length p, hc, rfl, rfl, hcap, rfl, ?_, hlater⟩
    have h1le : 1 ≤ (ControlBlock.captured h0.length p).shared_count_ := Nat.le_refl 1
    have h2lt : (ControlBlock.captured h0.length p).shared_count_ + 1 < SIZE_MOD := by
      show 1 + 1 < SIZE_MOD
      decide
    exact hlater _ _ hcap rfl rfl h1le h2lt
  intro capture hmem
  rcases List.mem_cons.mp hmem with h1 | h1
  · exact hmain capture (by rw [h1]; exact SharedPtr.ofRaw_esft h0 p hp)
  · rcases List.mem_cons.mp h1 with h2 | h2
    · exact hmain capture (by rw [h2]; exact MakeShared_esft h0 p hp)
    · exact absurd h2 (List.not_mem_nil _)

/-- C7 at a concrete input: an object at address `100` captured in an empty
memory. -/
theorem shared_from_this_returns_own_handle_witness :
    (100 ≠ 0) ∧
    ∀ capture ∈ [SharedPtr.ofRaw [] 100 true, MakeShared [] 100 true],
      ∃ h1 s blk1, capture = some (h1, s) ∧ s.Get = 100 ∧
        s.control_block_ = some ([] : Heap).length ∧
        h1.block ([] : Heap).length = some blk1 ∧ blk1.shared_count_ = 1 ∧
        (∃ h3 r, EnableSharedFromThis.SharedFromThis h1 ([] : Heap).length =
            some (h3, Except.ok r) ∧
          r.Get = 100 ∧ r.control_block_ = s.control_block_ ∧ r.toBool = true ∧
          SharedPtr.UseCount h3 r = some 2) ∧
        ∀ h2 blk2, h2.block ([] : Heap).length = some blk2 → blk2.payload = blk1.payload →
          blk2.deleter_calls = 0 → 1 ≤ blk2.shared_count_ →
          blk2.shared_count_ + 1 < SIZE_MOD →
          ∃ h3 r, EnableSharedFromThis.SharedFromThis h2 ([] : Heap).length =
              some (h3, Except.ok r) ∧
            r.Get = 100 ∧ r.control_block_ = s.control_block_ ∧ r.toBool = true ∧
            SharedPtr.UseCount h3 r = some (blk2.shared_count_ + 1) :=
  ⟨by decide, shared_from_this_returns_own_handle [] 100 (by decide)⟩

/-- C8, the code at the failing input `SharedPtr<int> a(new int); a = a;`:
`a` is the only handle of its block (use count one).  The first statement of
`operator=`, `DecreaseCount()`, calls `Deleter()` and deallocates the block;
the following `IncreaseCount()` then writes to the deallocated block, so the
assignment has no defined result.  When a `WeakPtr` keeps the block allocated,
the assignment returns with the payload destroyed while `a` still refers to
the block with use count one. -/
theorem copy_assign_self_sole_owner_destroys_payload :
    SharedPtr.ofRaw [] 100 false = some ([ControlBlock.init 100 false], sampleShared) ∧
    SharedPtr.UseCount [ControlBlock.init 100 false] sampleShared = some 1 ∧
    (∃ h1, SharedPtr.DecreaseCount [ControlBlock.init 100 false] sampleShared = some h1 ∧
      h1.deleterCalls 0 = 1 ∧ h1.deletedCount 0 = 1) ∧
    SharedPtr.copyAssign [ControlBlock.init 100 false] sampleShared sampleShared = none ∧
    WeakPtr.ofShared [ControlBlock.init 100 false] sampleShared =
      some ([plainBlockWithWeak], sampleWeak) ∧
    (∃ h2 a2, SharedPtr.copyAssign [plainBlockWithWeak] sampleShared sampleShared =
        some (h2, a2) ∧
      a2 = sampleShared ∧ h2.deleterCalls 0 = 1 ∧ SharedPtr.UseCount h2 a2 = some 1) := by
  refine ⟨by decide, by decide, ⟨_, rfl, by decide, by decide⟩, by decide, by decide,
    ⟨_, _, rfl, by decide, by decide, by decide⟩⟩

/-- C9: let `src` be a `UniquePtr` holding a pointer `p`, null or not, and a
deleter `d`.  After move-constructing `dst` from `src`, in the primary template
and in the array specialization alike: `dst.Get() == p`, `src.Get()` is null,
`src` converts to `false`, the deleter log is unchanged, and destroying `src`
afterwards leaves the log unchanged. -/
theorem unique_move_construct_transfers {D : Type} (moved : D → D) (dflt : D)
    (log : DeleterLog D) (p : Nat) (d : D) :
    ((UniquePtr.moveCtor moved dflt log { first := p, second := d }).2.1.Get = p ∧
      (UniquePtr.moveCtor moved dflt log { first := p, second := d }).2.2.Get = 0 ∧
      (UniquePtr.moveCtor moved dflt log { first := p, second := d }).2.2.toBool = false ∧
      (UniquePtr.moveCtor moved dflt log { first := p, second := d }).1 = log ∧
      (UniquePtr.destroy log
        (UniquePtr.moveCtor moved dflt log { first := p, second := d }).2.2).1 = log) ∧
    ((UniquePtrArray.moveCtor moved dflt log { first := p, second := d }).2.1.Get = p ∧
      (UniquePtrArray.moveCtor moved dflt log { first := p, second := d }).2.2.Get = 0 ∧
      (UniquePtrArray.moveCtor moved dflt log { first := p, second := d }).2.2.toBool = false ∧
      (UniquePtrArray.moveCtor moved dflt log { first := p, second := d }).1 = log ∧
      (UniquePtrArray.destroy log
        (UniquePtrArray.moveCtor moved dflt log { first := p, second := d }).2.2).1 = log) := by
  constructor
  · simp [UniquePtr.moveCtor, UniquePtr.Release, UniquePtr.Get, UniquePtr.toBool,
      UniquePtr.destroy, UniquePtr.Reset]
  · by_cases hp : p = 0
    · subst hp
      simp [UniquePtrArray.moveCtor, UniquePtrArray.Release, UniquePtrArray.Get,
        UniquePtrArray.toBool, UniquePtrArray.destroy, UniquePtrArray.Reset]
    · have hp1 : ¬ (0 = p) := fun h => hp h.symm
      simp [UniquePtrArray.moveCtor, UniquePtrArray.Release, UniquePtrArray.Get,
        UniquePtrArray.toBool, UniquePtrArray.destroy, UniquePtrArray.Reset, hp1]

/-- C10: let `u` be a `UniquePtr` holding a pointer `p` and a deleter `d`, and
`q` any pointer.  `u.Reset(q)` appends to the deleter log exactly one call,
of `d` with argument `p`, when `q` differs from `p`, and nothing when `q` is
`p`; afterwards `u.Get() == q`, and after `Reset(nullptr)` the handle converts
to `false`.  The same holds for the array specialization. -/
theorem unique_reset_calls_deleter_iff_different {D : Type} (log : DeleterLog D)
    (p q : Nat) (d : D) :
    ((UniquePtr.Reset log { first := p, second := d } q).1 =
        (if q = p then log else log ++ [(d, p)]) ∧
      (UniquePtr.Reset log { first := p, second := d } q).2.Get = q ∧
      (UniquePtr.Reset log { first := p, second := d } 0).2.toBool = false) ∧
    ((UniquePtrArray.Reset log { first := p, second := d } q).1 =
        (if q = p then log else log ++ [(d, p)]) ∧
      (UniquePtrArray.Reset log { first := p, second := d } q).2.Get = q ∧
      (UniquePtrArray.Reset log { first := p, second := d } 0).2.toBool = false) := by
  constructor
  · refine ⟨?_, ?_, ?_⟩
    · by_cases hpq : p = q
      · subst hpq
        by_cases h0 : p = 0 <;>
          simp [UniquePtr.Reset, UniquePtr.Release, UniquePtr.Get, UniquePtr.GetDeleter, h0]
      · have hqp : ¬ q = p := fun hc => hpq hc.symm
        by_cases h0 : q = 0
        · subst h0
          simp [UniquePtr.Reset, UniquePtr.Release, UniquePtr.Get, UniquePtr.GetDeleter, hpq,
            hqp]
        · simp [UniquePtr.Reset, UniquePtr.Release, UniquePtr.Get, UniquePtr.GetDeleter, hpq,
            hqp, h0]
    · by_cases hpq : p = q
      · subst hpq
        by_cases h0 : p = 0 <;>
          simp [UniquePtr.Reset, UniquePtr.Release, UniquePtr.Get, UniquePtr.GetDeleter, h0]
      · by_cases h0 : q = 0
        · subst h0
          simp [UniquePtr.Reset, UniquePtr.Release, UniquePtr.Get, UniquePtr.GetDeleter, hpq]
        · simp [UniquePtr.Reset, UniquePtr.Release, UniquePtr.Get, UniquePtr.GetDeleter, hpq,
            h0]
    · by_cases hp : p = 0 <;>
        simp [UniquePtr.Reset, UniquePtr.Release, UniquePtr.Get, UniquePtr.toBool, hp]
  · refine ⟨?_, ?_, ?_⟩
    · by_cases hpq : p = q
      · subst hpq
        by_cases h0 : p = 0 <;>
          simp [UniquePtrArray.Reset, UniquePtrArray.Release, UniquePtrArray.Get,
            UniquePtrArray.GetDeleter, h0]
      · have hqp : ¬ q = p := fun hc => hpq hc.symm
        by_cases h0 : q = 0
        · subst h0
          simp [UniquePtrArray.Reset, UniquePtrArray.Release, UniquePtrArray.Get,
            UniquePtrArray.GetDeleter, hpq, hqp]
        · simp [UniquePtrArray.Reset, UniquePtrArray.Release, UniquePtrArray.Get,
            UniquePtrArray.GetDeleter, hpq, hqp, h0]
    · by_cases hpq : p = q
      · subst hpq
        by_cases h0 : p = 0 <;>
          simp [UniquePtrArray.Reset, UniquePtrArray.Release, UniquePtrArray.Get,
            UniquePtrArray.GetDeleter, h0]
      · by_cases h0 : q = 0
        · subst h0
          simp [UniquePtrArray.Reset, UniquePtrArray.Release, UniquePtrArray.Get,
            UniquePtrArray.GetDeleter, hpq]
        · simp [UniquePtrArray.Reset, UniquePtrArray.Release, UniquePtrArray.Get,
            UniquePtrArray.GetDeleter, hpq, h0]
    · by_cases hp : p = 0 <;>
        simp [UniquePtrArray.Reset, UniquePtrArray.Release, UniquePtrArray.Get,
          UniquePtrArray.toBool, hp]

/-- C11: let `u` be a `UniquePtr` holding a pointer `p` and a deleter `d`.
`u.Release()` returns `p`, leaves `u.Get()` null and the stored deleter `d`;
`Release` has no access to the deleter log, and destroying `u` afterwards
leaves the log as it is, so no deleter is ever invoked on `p` by `u`.  The
same holds for the array specialization. -/
theorem unique_release_gives_up_ownership {D : Type} (log : DeleterLog D) (p : Nat) (d : D) :
    ((UniquePtr.Release { first := p, second := d }).1 = p ∧
      (UniquePtr.Release { first := p, second := d }).2.Get = 0 ∧
      (UniquePtr.Release { first := p, second := d }).2.GetDeleter = d ∧
      UniquePtr.destroy log (UniquePtr.Release { first := p, second := d }).2 =
        (log, { first := 0, second := d })) ∧
    ((UniquePtrArray.Release { first := p, second := d }).1 = p ∧
      (UniquePtrArray.Release { first := p, second := d }).2.Get = 0 ∧
      (UniquePtrArray.Release { first := p, second := d }).2.GetDeleter = d ∧
      UniquePtrArray.destroy log (UniquePtrArray.Release { first := p, second := d }).2 =
        (log, { first := 0, second := d })) := by
  constructor
  · simp [UniquePtr.Release, UniquePtr.Get, UniquePtr.GetDeleter, UniquePtr.destroy,
      UniquePtr.Reset]
  · simp [UniquePtrArray.Release, UniquePtrArray.Get, UniquePtrArray.GetDeleter,
      UniquePtrArray.destroy, UniquePtrArray.Reset]

/-- C20 as stated fails: `dst` holds the pointer `10` with deleter instance `1`,
`src` holds `20` with deleter instance `2`.  After `dst = std::move(src)` the
only deleter call is instance `2`, the one transferred from `src`, on `10`;
instance `1`, which `dst` stored before, is never invoked.  The same in the
array specialization. -/
theorem unique_move_assign_old_deleter_not_used :
    (UniquePtr.moveAssign id [] ({ first := 10, second := 1 } : UniquePtr Nat)
        { first := 20, second := 2 }).1 = [(2, 10)] ∧
    (UniquePtr.moveAssign id [] ({ first := 10, second := 1 } : UniquePtr Nat)
        { first := 20, second := 2 }).1 ≠ [(1, 10)] ∧
    (UniquePtrArray.moveAssign id [] ({ first := 10, second := 1 } : UniquePtrArray Nat)
        { first := 20, second := 2 }).1 = [(2, 10)] ∧
    (UniquePtrArray.moveAssign id [] ({ first := 10, second := 1 } : UniquePtrArray Nat)
        { first := 20, second := 2 }).1 ≠ [(1, 10)] := by
  decide

/-- C20 amended: `dst` holds a pointer `p` and a deleter `dOld`, `src` holds a
different pointer `q` and a deleter `dNew`.  The move assignment
`dst = std::move(src)` stores `dNew` in `dst` first and then resets, so the one
deleter call it makes is `dNew` on `p`; afterwards `dst` holds `q` and `dNew`
and `src` holds null.  The same in the array specialization. -/
theorem unique_move_assign_destroys_with_transferred_deleter {D : Type} (moved : D → D)
    (log : DeleterLog D) (p q : Nat) (dOld dNew : D) (hpq : p ≠ q) :
    UniquePtr.moveAssign moved log { first := p, second := dOld }
        { first := q, second := dNew } =
      (log ++ [(dNew, p)], { first := q, second := dNew },
        { first := 0, second := moved dNew }) ∧
    UniquePtrArray.moveAssign moved log { first := p, second := dOld }
        { first := q, second := dNew } =
      (log ++ [(dNew, p)], { first := q, second := dNew },
        { first := 0, second := moved dNew }) := by
  constructor
  · by_cases hq : q = 0
    · subst hq
      simp [UniquePtr.moveAssign, UniquePtr.Reset, UniquePtr.Release, UniquePtr.Get,
        UniquePtr.GetDeleter, hpq]
    · simp [UniquePtr.moveAssign, UniquePtr.Reset, UniquePtr.Release, UniquePtr.Get,
        UniquePtr.GetDeleter, hpq, hq]
  · by_cases hq : q = 0
    · subst hq
      simp [UniquePtrArray.moveAssign, UniquePtrArray.Reset, UniquePtrArray.Release,
        UniquePtrArray.Get, UniquePtrArray.GetDeleter, hpq]
    · simp [UniquePtrArray.moveAssign, UniquePtrArray.Reset, UniquePtrArray.Release,
        UniquePtrArray.Get, UniquePtrArray.GetDeleter, hpq, hq]

/-- C20 amended at a concrete input: pointers `10` and `20`, deleter instances
`1` and `2`. -/
theorem unique_move_assign_destroys_with_transferred_deleter_witness :
    (10 ≠ 20) ∧
    (UniquePtr.moveAssign id ([] : DeleterLog Nat) { first := 10, second := 1 }
        { first := 20, second := 2 } =
      ([] ++ [(2, 10)], { first := 20, second := 2 }, { first := 0, second := id 2 }) ∧
    UniquePtrArray.moveAssign id ([] : DeleterLog Nat) { first := 10, second := 1 }
        { first := 20, second := 2 } =
      ([] ++ [(2, 10)], { first := 20, second := 2 }, { first := 0, second := id 2 })) :=
  ⟨by decide, unique_move_assign_destroys_with_transferred_deleter id [] 10 20 1 2 (by decide)⟩

/-- C18: `l == r` on two `SharedPtr` holds exactly if `l.Get() == r.Get()`,
whatever their control blocks.  The aliasing constructor applied to
`sampleShared` with the address `104` gives a handle on the same block that
compares unequal to it; two `SharedPtr(Y* ptr)` made from the same address
`100` have different blocks and compare equal. -/
theorem shared_equality_compares_addresses :
    (∀ l r : SharedPtr, SharedPtr.eq l r = true ↔ l.Get = r.Get) ∧
    (∀ (b c : Option Nat) (p q : Nat),
      SharedPtr.eq { control_block_ := b, ptr_ := p } { control_block_ := c, ptr_ := q } =
        decide (p = q)) ∧
    (∃ h1 a, SharedPtr.alias [sampleBlock] sampleShared 104 = some (h1, a) ∧
      a.control_block_ = sampleShared.control_block_ ∧ SharedPtr.eq a sampleShared = false) ∧
    (∃ h1 s1 h2 s2, SharedPtr.ofRaw [] 100 false = some (h1, s1) ∧
      SharedPtr.ofRaw h1 100 false = some (h2, s2) ∧
      s1.control_block_ ≠ s2.control_block_ ∧ SharedPtr.eq s1 s2 = true) := by
  refine ⟨?_, ?_, ?_, ?_⟩
  · intro l r
    simp [SharedPtr.eq]
  · intro b c p q
    simp [SharedPtr.eq, SharedPtr.Get]
  · exact ⟨_, _, rfl, by decide, by decide⟩
  · exact ⟨_, _, _, _, rfl, rfl, by decide, by decide⟩

/-- C19: block `b` manages an object deriving from `EnableSharedFromThis` whose
`weak_this_` is the only weak handle (weak count one), and `s` is its last
strong handle (strong count one).  The payload destroy `Deleter()` releases
`weak_this_`: afterwards the weak count is zero, the strong count still reads
one and the block is not deallocated.  The whole release `s.Reset()` calls
`Deleter()` exactly once and deallocates the block exactly once, with both
counters zero at the end. -/
theorem self_reference_release_deallocates_once
    (h : Heap) (b : Nat) (blk : ControlBlock) (s : SharedPtr)
    (hblk : h.block b = some blk) (hs : s.control_block_ = some b)
    (he : blk.payload.esft = true)
    (hw : blk.payload.weak_this_.control_block_ = some b)
    (hsc : blk.shared_count_ = 1) (hwc : blk.weak_count_ = 1) :
    (∃ hd, ControlBlock.Deleter h b = some hd ∧
      hd.deleterCalls b = blk.deleter_calls + 1 ∧
      hd.weakCountAt b = 0 ∧ hd.sharedCountAt b = 1 ∧ hd.deletedCount b = 0) ∧
    (∃ h1 s1, SharedPtr.Reset h s = some (h1, s1) ∧
      h1.deleterCalls b = blk.deleter_calls + 1 ∧ h1.deletedCount b = 1 ∧
      h1.sharedCountAt b = 0 ∧ h1.weakCountAt b = 0) := by
  obtain ⟨hg, hd⟩ := Heap.get_of_block hblk
  have hne : blk.shared_count_ ≠ 0 := by omega
  have hdec : decr blk.weak_count_ = 0 := by rw [hwc]; decide
  constructor
  · refine ⟨_, ControlBlock.Deleter_wired hg hd he hw hne, ?_, ?_, ?_, ?_⟩
    · simp [Heap.deleterCalls, Heap.get_set_same _ hg]
    · simp [Heap.weakCountAt, Heap.get_set_same _ hg, hdec]
    · simp [Heap.sharedCountAt, Heap.get_set_same _ hg, hsc]
    · simp [Heap.deletedCount, Heap.get_set_same _ hg, hd]
  · have hreset := ControlBlock.DecrementSharedCount_one_wired hg hd hsc he hw
    have hr : ∃ h1, SharedPtr.Reset h s = some (h1, SharedPtr.empty) ∧
        ControlBlock.DecrementSharedCount h b = some h1 := by
      simp only [SharedPtr.Reset, SharedPtr.DecreaseCount, hs, hreset]
      exact ⟨_, rfl, rfl⟩
    obtain ⟨h1, hr1, hr2⟩ := hr
    rw [hreset] at hr2
    have hh := Option.some.inj hr2
    subst hh
    refine ⟨_, SharedPtr.empty, hr1, ?_, ?_, ?_, ?_⟩
    · simp [Heap.deleterCalls, Heap.get_set_same _ hg]
    · simp [Heap.deletedCount, Heap.get_set_same _ hg, hdec]
    · simp [Heap.sharedCountAt, Heap.get_set_same _ hg]
    · simp [Heap.weakCountAt, Heap.get_set_same _ hg, hdec]

/-- C19 at a concrete input: the block `SharedPtr(Y* ptr)` makes for an object
with a self reference, released by its only handle. -/
theorem self_reference_release_deallocates_once_witness :
    (SharedPtr.ofRaw [] 100 true = some ([sampleBlock], sampleShared) ∧
      Heap.block [sampleBlock] 0 = some sampleBlock ∧ sampleShared.control_block_ = some 0 ∧
      sampleBlock.payload.esft = true ∧
      sampleBlock.payload.weak_this_.control_block_ = some 0 ∧
      sampleBlock.shared_count_ = 1 ∧ sampleBlock.weak_count_ = 1) ∧
    ((∃ hd, ControlBlock.Deleter [sampleBlock] 0 = some hd ∧
      hd.deleterCalls 0 = sampleBlock.deleter_calls + 1 ∧
      hd.weakCountAt 0 = 0 ∧ hd.sharedCountAt 0 = 1 ∧ hd.deletedCount 0 = 0) ∧
    (∃ h1 s1, SharedPtr.Reset [sampleBlock] sampleShared = some (h1, s1) ∧
      h1.deleterCalls 0 = sampleBlock.deleter_calls + 1 ∧ h1.deletedCount 0 = 1 ∧
      h1.sharedCountAt 0 = 0 ∧ h1.weakCountAt 0 = 0)) :=
  ⟨⟨by decide, by decide, rfl, rfl, rfl, rfl, rfl⟩,
    self_reference_release_deallocates_once [sampleBlock] 0 sampleBlock sampleShared
      (by decide) rfl rfl rfl rfl rfl⟩

/-- C16: `s` is a handle of an allocated block `b` with strong count `c >= 2`
and `q` any raw pointer.  `s.Reset(q)` succeeds; afterwards `s.Get() == q`, the
block of `s` is a new external block at an address that was not allocated
before, hence distinct from `b`, and `s.UseCount() == 1`.  Block `b` keeps its
payload, weak count and event counters and has strong count `c - 1`, which is
what `UseCount()` returns through every other handle of `b`; every other block
is unchanged. -/
theorem reset_with_pointer_starts_fresh_block
    (h : Heap) (b : Nat) (blk : ControlBlock) (s : SharedPtr) (q : Nat)
    (hblk : h.block b = some blk) (hs : s.control_block_ = some b)
    (hc : 2 ≤ blk.shared_count_) (hlt : blk.shared_count_ < SIZE_MOD) :
    ∃ h1 s1, SharedPtr.ResetPtr h s q = some (h1, s1) ∧
      s1.Get = q ∧ s1.control_block_ = some h.length ∧
      s1.control_block_ ≠ s.control_block_ ∧
      h.block h.length = none ∧
      h1.block h.length = some (ControlBlock.init q false) ∧
      SharedPtr.UseCount h1 s1 = some 1 ∧
      h1.block b = some { blk with shared_count_ := blk.shared_count_ - 1 } ∧
      (∀ t : SharedPtr, t.control_block_ = some b →
        SharedPtr.UseCount h1 t = some (blk.shared_count_ - 1)) ∧
      (∀ c, c ≠ b → c < h.length → h1[c]? = h[c]?) := by
  obtain ⟨hg, hd⟩ := Heap.get_of_block hblk
  have hblt := Heap.lt_length_of_get hg
  have hne1 : blk.shared_count_ ≠ 1 := by omega
  have hdec : decr blk.shared_count_ = blk.shared_count_ - 1 := decr_pos (by omega) hlt
  have hnz : ¬ (decr blk.shared_count_ = 0 ∧ blk.weak_count_ = 0) := by
    rw [hdec]; omega
  have hdown : ControlBlock.DecrementSharedCount h b =
      some (h.set b { blk with shared_count_ := blk.shared_count_ - 1 }) := by
    rw [ControlBlock.DecrementSharedCount_ne_one hg hd hne1, if_neg hnz, hdec]
    congr 2
    cases blk
    simp_all
  have hlen : (h.set b { blk with shared_count_ := blk.shared_count_ - 1 }).length = h.length :=
    List.length_set _ _ _
  have hnew : (h.set b { blk with shared_count_ := blk.shared_count_ - 1 } ++
      [ControlBlock.init q false])[h.length]? = some (ControlBlock.init q false) := by
    rw [← hlen]
    simp
  have hold : (h.set b { blk with shared_count_ := blk.shared_count_ - 1 } ++
      [ControlBlock.init q false])[b]? =
      some { blk with shared_count_ := blk.shared_count_ - 1 } := by
    rw [List.getElem?_append_left (by rw [hlen]; exact hblt)]
    exact Heap.get_set_same _ hg
  have hbne : h.length ≠ b := by omega
  refine ⟨h.set b { blk with shared_count_ := blk.shared_count_ - 1 } ++
      [ControlBlock.init q false],
    { control_block_ := some (h.set b
        { blk with shared_count_ := blk.shared_count_ - 1 }).length, ptr_ := q },
    ?_, rfl, ?_, ?_, ?_, ?_, ?_, ?_, ?_, ?_⟩
  · simp only [SharedPtr.ResetPtr, SharedPtr.DecreaseCount, hs, hdown]
  · simp only [hlen]
  · simp only [hlen, hs]
    intro hcontra
    exact hbne (Option.some.inj hcontra)
  · simp [Heap.block]
  · exact Heap.block_of_get hnew rfl
  · simp only [SharedPtr.UseCount, hlen]
    rw [ControlBlock.GetSharedCount_eq hnew rfl]
    rfl
  · exact Heap.block_of_get hold hd
  · intro t ht
    simp only [SharedPtr.UseCount, ht]
    rw [ControlBlock.GetSharedCount_eq hold hd]
  · intro c hcb hcl
    rw [List.getElem?_append_left (by rw [hlen]; exact hcl)]
    exact Heap.get_set_other h _ (fun hbc => hcb hbc.symm)

/-- C16 at a concrete input: one of the two handles of `sampleBlock2` is reset
to the address `200`. -/
theorem reset_with_pointer_starts_fresh_block_witness :
    (Heap.block [sampleBlock2] 0 = some sampleBlock2 ∧ sampleShared.control_block_ = some 0 ∧
      2 ≤ sampleBlock2.shared_count_ ∧ sampleBlock2.shared_count_ < SIZE_MOD) ∧
    ∃ h1 s1, SharedPtr.ResetPtr [sampleBlock2] sampleShared 200 = some (h1, s1) ∧
      s1.Get = 200 ∧ s1.control_block_ = some [sampleBlock2].length ∧
      s1.control_block_ ≠ sampleShared.control_block_ ∧
      Heap.block [sampleBlock2] [sampleBlock2].length = none ∧
      h1.block [sampleBlock2].length = some (ControlBlock.init 200 false) ∧
      SharedPtr.UseCount h1 s1 = some 1 ∧
      h1.block 0 = some { sampleBlock2 with shared_count_ := sampleBlock2.shared_count_ - 1 } ∧
      (∀ t : SharedPtr, t.control_block_ = some 0 →
        SharedPtr.UseCount h1 t = some (sampleBlock2.shared_count_ - 1)) ∧
      (∀ c, c ≠ 0 → c < [sampleBlock2].length → h1[c]? = [sampleBlock2][c]?) :=
  ⟨⟨by decide, rfl, by decide, by decide⟩,
    reset_with_pointer_starts_fresh_block [sampleBlock2] 0 sampleBlock2 sampleShared 200
      (by decide) rfl (by decide) (by decide)⟩

/-! ## Null control block and null pointer go together -/

theorem SharedPtr.copyAssign_handle {h h1 : Heap} {a b a1 : SharedPtr}
    (hr : SharedPtr.copyAssign h a b = some (h1, a1)) :
    a1 = { control_block_ := b.control_block_, ptr_ := b.ptr_ } := by
  simp only [SharedPtr.copyAssign] at hr
  cases hd : SharedPtr.DecreaseCount h a with
  | none => simp [hd] at hr
  | some h2 =>
    simp only [hd] at hr
    cases hi : SharedPtr.IncreaseCount h2
        { control_block_ := b.control_block_, ptr_ := b.ptr_ } with
    | none => simp [hi] at hr
    | some h3 =>
      simp [hi] at hr
      exact hr.2.symm

theorem SharedPtr.moveAssign_handles {h h1 : Heap} {a b a1 b1 : SharedPtr}
    (hr : SharedPtr.moveAssign h a b = some (h1, a1, b1)) :
    a1 = { control_block_ := b.control_block_, ptr_ := b.ptr_ } ∧ b1 = SharedPtr.empty := by
  simp only [SharedPtr.moveAssign] at hr
  cases hd : SharedPtr.DecreaseCount h a with
  | none => simp [hd] at hr
  | some h2 =>
    simp [hd] at hr
    exact ⟨hr.2.1.symm, hr.2.2.symm⟩

theorem SharedPtr.Reset_handle {h h1 : Heap} {a a1 : SharedPtr}
    (hr : SharedPtr.Reset h a = some (h1, a1)) : a1 = SharedPtr.empty := by
  simp only [SharedPtr.Reset] at hr
  cases hd : SharedPtr.DecreaseCount h a with
  | none => simp [hd] at hr
  | some h2 =>
    simp [hd] at hr
    exact hr.2.symm

theorem SharedPtr.ResetPtr_handle {h h1 : Heap} {a a1 : SharedPtr} {q : Nat}
    (hr : SharedPtr.ResetPtr h a q = some (h1, a1)) :
    a1.control_block_ ≠ none ∧ a1.ptr_ = q := by
  simp only [SharedPtr.ResetPtr] at hr
  cases hd : SharedPtr.DecreaseCount h a with
  | none => simp [hd] at hr
  | some h2 =>
    simp [hd] at hr
    rw [← hr.2]
    simp

theorem SharedPtr.consistent_of_fields {b : SharedPtr} (hb : b.Consistent) :
    ({ control_block_ := b.control_block_, ptr_ := b.ptr_ } : SharedPtr).Consistent := hb

theorem SharedPtr.empty_consistent : SharedPtr.empty.Consistent := fun _ => rfl

theorem SharedPtr.consistent_of_block {s : SharedPtr} (hs : s.control_block_ ≠ none) :
    s.Consistent := fun hn => absurd hn hs

/-- One operation keeps every variable consistent. -/
theorem SharedWorld.step_consistent {w w1 : SharedWorld} {op : SharedOp}
    (hinit : ∀ s ∈ w.ptrs, s.Consistent) (hstep : w.step op = some w1) :
    ∀ s ∈ w1.ptrs, s.Consistent := by
  have hget : ∀ (i : Nat) (a : SharedPtr), w.ptrs[i]? = some a → a.Consistent :=
    fun i a ha => hinit a (List.mem_iff_getElem?.mpr ⟨i, ha⟩)
  have hset : ∀ (i : Nat) (x : SharedPtr) (l : List SharedPtr),
      (∀ s ∈ l, s.Consistent) → x.Consistent → ∀ s ∈ l.set i x, s.Consistent := by
    intro i x l hl hx s hs
    rcases List.mem_or_eq_of_mem_set hs with h1 | h1
    · exact hl s h1
    · rw [h1]; exact hx
  cases op with
  | copyAssign i j =>
    simp only [SharedWorld.step] at hstep
    cases hi : w.ptrs[i]? with
    | none => simp [hi] at hstep
    | some a =>
      cases hj : w.ptrs[j]? with
      | none => simp [hi, hj] at hstep
      | some b =>
        simp only [hi, hj] at hstep
        cases hc : SharedPtr.copyAssign w.heap a b with
        | none => simp [hc] at hstep
        | some r =>
          obtain ⟨h1, a1⟩ := r
          simp only [hc, Option.some.injEq] at hstep
          subst hstep
          have ha1 := SharedPtr.copyAssign_handle hc
          exact hset i a1 w.ptrs hinit (by rw [ha1]; exact hget j b hj)
  | moveAssign i j =>
    simp only [SharedWorld.step] at hstep
    cases hi : w.ptrs[i]? with
    | none => simp [hi] at hstep
    | some a =>
      cases hj : w.ptrs[j]? with
      | none => simp [hi, hj] at hstep
      | some b =>
        simp only [hi, hj] at hstep
        cases hc : SharedPtr.moveAssign w.heap a b with
        | none => simp [hc] at hstep
        | some r =>
          obtain ⟨h1, a1, b1⟩ := r
          simp only [hc, Option.some.injEq] at hstep
          subst hstep
          obtain ⟨ha1, hb1⟩ := SharedPtr.moveAssign_handles hc
          exact hset j b1 _ (hset i a1 w.ptrs hinit (by rw [ha1]; exact hget j b hj))
            (by rw [hb1]; exact SharedPtr.empty_consistent)
  | reset i =>
    simp only [SharedWorld.step] at hstep
    cases hi : w.ptrs[i]? with
    | none => simp [hi] at hstep
    | some a =>
      simp only [hi] at hstep
      cases hc : SharedPtr.Reset w.heap a with
      | none => simp [hc] at hstep
      | some r =>
        obtain ⟨h1, a1⟩ := r
        simp only [hc, Option.some.injEq] at hstep
        subst hstep
        exact hset i a1 w.ptrs hinit
          (by rw [SharedPtr.Reset_handle hc]; exact SharedPtr.empty_consistent)
  | resetPtr i q =>
    simp only [SharedWorld.step] at hstep
    cases hi : w.ptrs[i]? with
    | none => simp [hi] at hstep
    | some a =>
      simp only [hi] at hstep
      cases hc : SharedPtr.ResetPtr w.heap a q with
      | none => simp [hc] at hstep
      | some r =>
        obtain ⟨h1, a1⟩ := r
        simp only [hc, Option.some.injEq] at hstep
        subst hstep
        exact hset i a1 w.ptrs hinit
          (SharedPtr.consistent_of_block (SharedPtr.ResetPtr_handle hc).1)
  | swap i j =>
    simp only [SharedWorld.step] at hstep
    cases hi : w.ptrs[i]? with
    | none => simp [hi] at hstep
    | some a =>
      cases hj : w.ptrs[j]? with
      | none => simp [hi, hj] at hstep
      | some b =>
        simp only [hi, hj, Option.some.injEq] at hstep
        subst hstep
        exact hset j _ _ (hset i _ w.ptrs hinit (hget j b hj)) (hget i a hi)

/-- A sequence of operations keeps every variable consistent. -/
theorem SharedWorld.run_consistent (ops : List SharedOp) :
    ∀ (w w1 : SharedWorld), (∀ s ∈ w.ptrs, s.Consistent) → w.run ops = some w1 →
      ∀ s ∈ w1.ptrs, s.Consistent := by
  induction ops with
  | nil =>
    intro w w1 hinit hrun
    simp only [SharedWorld.run, Option.some.injEq] at hrun
    subst hrun
    exact hinit
  | cons op rest ih =>
    intro w w1 hinit hrun
    simp only [SharedWorld.run] at hrun
    cases hs : w.step op with
    | none => simp [hs] at hrun
    | some w2 =>
      simp only [hs] at hrun
      exact ih w2 w1 (SharedWorld.step_consistent hinit hs) hrun

theorem SharedPtr.ofRaw_block {h h1 : Heap} {p : Nat} {e : Bool} {s : SharedPtr}
    (hr : SharedPtr.ofRaw h p e = some (h1, s)) : s.control_block_ ≠ none := by
  simp only [SharedPtr.ofRaw] at hr
  cases e with
  | false =>
    simp at hr
    rw [← hr.2]
    simp
  | true =>
    simp only [if_true] at hr
    cases hi : SharedPtr.InitWeakThis (h ++ [ControlBlock.init p true])
        { control_block_ := some h.length, ptr_ := p } p with
    | none => simp [hi] at hr
    | some h2 =>
      simp [hi] at hr
      rw [← hr.2]
      simp

theorem MakeShared_block {h h1 : Heap} {p : Nat} {e : Bool} {s : SharedPtr}
    (hr : MakeShared h p e = some (h1, s)) : s.control_block_ ≠ none := by
  simp only [MakeShared] at hr
  cases e with
  | false =>
    simp at hr
    rw [← hr.2]
    simp
  | true =>
    simp only [if_true] at hr
    cases hi : SharedPtr.InitWeakThis (h ++ [ControlBlock.init p true])
        { control_block_ := some h.length, ptr_ := p } p with
    | none => simp [hi] at hr
    | some h2 =>
      simp [hi] at hr
      rw [← hr.2]
      simp

theorem SharedPtr.copy_handle {h h1 : Heap} {o s : SharedPtr}
    (hr : SharedPtr.copy h o = some (h1, s)) :
    s = { control_block_ := o.control_block_, ptr_ := o.ptr_ } := by
  simp only [SharedPtr.copy] at hr
  cases hi : SharedPtr.IncreaseCount h
      { control_block_ := o.control_block_, ptr_ := o.ptr_ } with
  | none => simp [hi] at hr
  | some h2 =>
    simp [hi] at hr
    exact hr.2.symm

theorem SharedPtr.alias_handle {h h1 : Heap} {o s : SharedPtr} {q : Nat}
    (hr : SharedPtr.alias h o q = some (h1, s)) :
    s = { control_block_ := o.control_block_, ptr_ := q } := by
  simp only [SharedPtr.alias] at hr
  cases hi : SharedPtr.IncreaseCount h { control_block_ := o.control_block_, ptr_ := q } with
  | none => simp [hi] at hr
  | some h2 =>
    simp [hi] at hr
    exact hr.2.symm

theorem SharedPtr.ofWeak_block {h h1 : Heap} {wk : WeakPtr} {s : SharedPtr}
    (hr : SharedPtr.ofWeak h wk = some (h1, Except.ok s)) : s.control_block_ ≠ none := by
  simp only [SharedPtr.ofWeak] at hr
  cases he : WeakPtr.Expired h wk with
  | none => simp [he] at hr
  | some e =>
    cases e with
    | true => simp [he] at hr
    | false =>
      simp only [he] at hr
      cases hi : SharedPtr.IncreaseCount h
          { control_block_ := wk.control_block_, ptr_ := wk.ptr_ } with
      | none => simp [hi] at hr
      | some h2 =>
        simp [hi] at hr
        rw [← hr.2]
        intro hn
        have hn1 : wk.control_block_ = none := hn
        simp [WeakPtr.Expired, WeakPtr.UseCount, hn1] at he

/-- C15 as stated fails: the aliasing constructor applied to an empty owner and
the address `5` returns a handle whose control block is null while `Get()` is
`5` and the boolean check reports non-empty. -/
theorem aliasing_empty_owner_null_block_nonnull_pointer :
    ∃ h1 a, SharedPtr.alias [] SharedPtr.empty 5 = some (h1, a) ∧
      a.control_block_ = none ∧ a.Get = 5 ∧ a.toBool = true := by
  exact ⟨_, _, rfl, rfl, rfl, rfl⟩

/-- C15 amended: in a memory `h`, the default constructor, `SharedPtr(Y* ptr)`,
`MakeShared`, the copy and move constructors applied to a consistent handle,
the promotion constructor, and the aliasing constructor applied to an owner
with a non-null control block or to a null address, all return a handle that
is consistent (null control block only with null pointer); the aliasing
constructor applied to an empty owner returns the null block with the given
address.  If all variables of a program state are consistent, then after any
sequence of assignments, `Reset()`, `Reset(q)` and `Swap` with defined
behaviour every variable with a null control block has `Get()` null and
reports empty.  `Reset()` and a move leave the cleared handle with both fields
null. -/
theorem null_block_null_pointer_without_empty_aliasing
    (h : Heap) (w w1 : SharedWorld) (ops : List SharedOp)
    (hinit : ∀ s ∈ w.ptrs, s.Consistent) (hrun : w.run ops = some w1) :
    (SharedPtr.empty.Consistent ∧
      (∀ p e h1 s, SharedPtr.ofRaw h p e = some (h1, s) → s.Consistent) ∧
      (∀ p e h1 s, MakeShared h p e = some (h1, s) → s.Consistent) ∧
      (∀ o h1 s, o.Consistent → SharedPtr.copy h o = some (h1, s) → s.Consistent) ∧
      (∀ o, o.Consistent → (SharedPtr.move o).1.Consistent) ∧
      (∀ wk h1 s, SharedPtr.ofWeak h wk = some (h1, Except.ok s) → s.Consistent) ∧
      (∀ o q h1 s, o.control_block_ ≠ none ∨ q = 0 → o.Consistent →
        SharedPtr.alias h o q = some (h1, s) → s.Consistent) ∧
      (∀ q, SharedPtr.alias h SharedPtr.empty q =
        some (h, { control_block_ := none, ptr_ := q }))) ∧
    (∀ s ∈ w1.ptrs, s.control_block_ = none → s.Get = 0 ∧ s.toBool = false) ∧
    ((∀ a h1 a1, SharedPtr.Reset h a = some (h1, a1) → a1 = SharedPtr.empty) ∧
      (∀ o, (SharedPtr.move o).2 = SharedPtr.empty) ∧
      (∀ a b h1 a1 b1, SharedPtr.moveAssign h a b = some (h1, a1, b1) →
        b1 = SharedPtr.empty)) := by
  refine ⟨⟨SharedPtr.empty_consistent, ?_, ?_, ?_, ?_, ?_, ?_, ?_⟩, ?_, ?_, ?_, ?_⟩
  · intro p e h1 s hr
    exact SharedPtr.consistent_of_block (SharedPtr.ofRaw_block hr)
  · intro p e h1 s hr
    exact SharedPtr.consistent_of_block (MakeShared_block hr)
  · intro o h1 s ho hr
    rw [SharedPtr.copy_handle hr]
    exact ho
  · intro o ho
    exact ho
  · intro wk h1 s hr
    exact SharedPtr.consistent_of_block (SharedPtr.ofWeak_block hr)
  · intro o q h1 s hor ho hr
    rw [SharedPtr.alias_handle hr]
    rcases hor with h2 | h2
    · exact fun hn => absurd hn h2
    · exact fun _ => h2
  · intro q
    rfl
  · intro s hs hn
    have hc := SharedWorld.run_consistent ops w w1 hinit hrun s hs hn
    exact ⟨hc, by simp [SharedPtr.toBool, hc]⟩
  · intro a h1 a1 hr
    exact SharedPtr.Reset_handle hr
  · intro o
    rfl
  · intro a b h1 a1 b1 hr
    exact (SharedPtr.moveAssign_handles hr).2

/-- C15 amended at a concrete input: five operations on three variables. -/
theorem null_block_null_pointer_without_empty_aliasing_witness :
    ((∀ s ∈ sampleWorld.ptrs, s.Consistent) ∧
      sampleWorld.run sampleOps = some sampleWorldAfter) ∧
    ((SharedPtr.empty.Consistent ∧
      (∀ p e h1 s, SharedPtr.ofRaw [sampleBlock2] p e = some (h1, s) → s.Consistent) ∧
      (∀ p e h1 s, MakeShared [sampleBlock2] p e = some (h1, s) → s.Consistent) ∧
      (∀ o h1 s, o.Consistent → SharedPtr.copy [sampleBlock2] o = some (h1, s) →
        s.Consistent) ∧
      (∀ o, o.Consistent → (SharedPtr.move o).1.Consistent) ∧
      (∀ wk h1 s, SharedPtr.ofWeak [sampleBlock2] wk = some (h1, Except.ok s) →
        s.Consistent) ∧
      (∀ o q h1 s, o.control_block_ ≠ none ∨ q = 0 → o.Consistent →
        SharedPtr.alias [sampleBlock2] o q = some (h1, s) → s.Consistent) ∧
      (∀ q, SharedPtr.alias [sampleBlock2] SharedPtr.empty q =
        some ([sampleBlock2], { control_block_ := none, ptr_ := q }))) ∧
    (∀ s ∈ sampleWorldAfter.ptrs, s.control_block_ = none → s.Get = 0 ∧ s.toBool = false) ∧
    ((∀ a h1 a1, SharedPtr.Reset [sampleBlock2] a = some (h1, a1) → a1 = SharedPtr.empty) ∧
      (∀ o, (SharedPtr.move o).2 = SharedPtr.empty) ∧
      (∀ a b h1 a1 b1, SharedPtr.moveAssign [sampleBlock2] a b = some (h1, a1, b1) →
        b1 = SharedPtr.empty))) :=
  ⟨⟨by decide, by decide⟩,
    null_block_null_pointer_without_empty_aliasing [sampleBlock2] sampleWorld sampleWorldAfter
      sampleOps (by decide) (by decide)⟩

/-! ## Intrusive counting: one object -/

/-- The function `RefCounted.DecRef` at a counter of at least two: the counter
goes down by one and `Destroy` is not called. -/
theorem RefCounted.DecRef_ge_two {o : RefCountedObj} (fuel : Nat)
    (h2 : 2 ≤ o.counter_.count_) (hlt : o.counter_.count_ < SIZE_MOD) :
    RefCounted.DecRef (fuel + 1) o =
      some { o with counter_ := { o.counter_ with count_ := o.counter_.count_ - 1 } } := by
  have hdec : decr o.counter_.count_ = o.counter_.count_ - 1 := decr_pos (by omega) hlt
  have hne : o.counter_.count_ ≠ 0 := by omega
  have hne1 : ¬ (o.counter_.count_ - 1 = 0) := by omega
  simp only [RefCounted.DecRef, SimpleCounter.DecRef, hdec, hne, if_false, Nat.add_zero, hne1]

/-- The function `RefCounted.DecRef` at counter one: `Destroy` is called once,
and the `DecRef` of the destructor wraps the counter from `0` to `2 ^ 64 - 1`
without a second `Destroy`. -/
theorem RefCounted.DecRef_one {o : RefCountedObj} (fuel : Nat)
    (h1 : o.counter_.count_ = 1) :
    RefCounted.DecRef (fuel + 2) o =
      some { counter_ := { count_ := SIZE_MOD - 1, wraps := o.counter_.wraps + 1 },
             destroyed := o.destroyed + 1 } := by
  have hd1 : decr 1 = 0 := by decide
  have hd0 : decr 0 = SIZE_MOD - 1 := by decide
  have hne : ¬ (SIZE_MOD - 1 = 0) := by decide
  simp [RefCounted.DecRef, SimpleCounter.DecRef, h1, hd1, hd0, hne]

/-- With fuel at least two `RefCounted.DecRef` always returns. -/
theorem RefCounted.DecRef_total (fuel : Nat) (o : RefCountedObj) :
    ∃ o1, RefCounted.DecRef (fuel + 2) o = some o1 := by
  have hd0 : decr 0 = SIZE_MOD - 1 := by decide
  have hne : ¬ (SIZE_MOD - 1 = 0) := by decide
  by_cases hz : decr o.counter_.count_ = 0
  · simp [RefCounted.DecRef, SimpleCounter.DecRef, hz, hd0, hne]
  · simp [RefCounted.DecRef, SimpleCounter.DecRef, hz]

theorem ObjHeap.obj_of_get {h : ObjHeap} {p : Nat} {o : RefCountedObj}
    (hg : h[p]? = some o) (hd : o.destroyed = 0) : h.obj p = some o := by
  simp [ObjHeap.obj, hg, hd]

theorem ObjHeap.get_of_obj {h : ObjHeap} {p : Nat} {o : RefCountedObj}
    (hb : h.obj p = some o) : h[p]? = some o ∧ o.destroyed = 0 := by
  unfold ObjHeap.obj at hb
  cases hg : h[p]? with
  | none => simp [hg] at hb
  | some x =>
    simp only [hg] at hb
    by_cases hx : x.destroyed = 0
    · simp [hx] at hb
      subst hb
      exact ⟨rfl, hx⟩
    · simp [hx] at hb

theorem ObjHeap.obj_lt_length_of_get {h : ObjHeap} {p : Nat} {o : RefCountedObj}
    (hg : h[p]? = some o) : p < h.length := by
  by_contra hlt
  have hnone : h[p]? = none := List.getElem?_eq_none (Nat.le_of_not_lt hlt)
  rw [hnone] at hg
  exact Option.noConfusion hg

theorem ObjHeap.obj_get_set_same {h : ObjHeap} {p : Nat} {o : RefCountedObj} (new : RefCountedObj)
    (hg : h[p]? = some o) : (h.set p new)[p]? = some new := by
  rw [List.getElem?_set]
  simp [ObjHeap.obj_lt_length_of_get hg]

theorem ObjHeap.obj_get_set_other (h : ObjHeap) {p q : Nat} (new : RefCountedObj) (hne : p ≠ q) :
    (h.set p new)[q]? = h[q]? := by
  rw [List.getElem?_set]
  simp [hne]

/-! ## Intrusive counting: variables and objects -/

theorem IntrusivePtr.count_set {l : List IntrusivePtr} {i : Nat} {old : IntrusivePtr}
    (a x : IntrusivePtr) (hi : l[i]? = some old) :
    (l.set i a).count x + (if old = x then 1 else 0) =
      l.count x + (if a = x then 1 else 0) := by
  obtain ⟨hlt, hget⟩ := List.getElem?_eq_some.mp hi
  have hmem : old ∈ l := by
    rw [← hget]
    exact List.getElem_mem hlt
  have hpos : old = x → 1 ≤ l.count x := by
    intro h1
    rw [← h1]
    exact List.count_pos_iff.mpr hmem
  rw [List.count_set a x l i hlt, hget]
  by_cases h1 : old = x
  · have h2 := hpos h1
    by_cases h3 : a = x <;> simp [h1, h3] <;> omega
  · by_cases h3 : a = x <;> simp [h1, h3]

theorem IntrusivePtr.get_set {l : List IntrusivePtr} {i j : Nat} {b : IntrusivePtr}
    (a : IntrusivePtr) (hi : i < l.length) (hj : l[j]? = some b) (hij : i = j → a = b) :
    (l.set i a)[j]? = some b := by
  rw [List.getElem?_set]
  by_cases h : i = j
  · simp [h, hi, hij h]
    rw [← h]
    exact hi
  · simp [h, hj]

/-- The invariant depends on the variables only through their number and the
number of holders of each object. -/
theorem IntrusiveWorld.Inv.transfer {objs : ObjHeap} {ptrs ptrs1 : List IntrusivePtr}
    (hinv : IntrusiveWorld.Inv { objs := objs, ptrs := ptrs })
    (hlen : ptrs1.length < SIZE_MOD)
    (hcnt : ∀ o, ptrs1.count { ptr_ := some o } = ptrs.count { ptr_ := some o }) :
    IntrusiveWorld.Inv { objs := objs, ptrs := ptrs1 } := by
  obtain ⟨_, h2, h3⟩ := hinv
  refine ⟨hlen, ?_, ?_⟩
  · intro o ho
    have := h2 o ho
    simp only [IntrusiveWorld.holders] at this ⊢
    rw [hcnt o]
    exact this
  · intro o obj hg
    have := h3 o obj hg
    simp only [IntrusiveWorld.holders] at this ⊢
    rw [hcnt o]
    exact this

/-- What the invariant says of a held object: it is allocated and alive, and
its counter is the number of its holders. -/
theorem IntrusiveWorld.Inv.held {objs : ObjHeap} {ptrs : List IntrusivePtr} {o : Nat}
    (hinv : IntrusiveWorld.Inv { objs := objs, ptrs := ptrs })
    (hpos : 0 < ptrs.count { ptr_ := some o }) :
    ∃ obj, objs[o]? = some obj ∧ obj.destroyed = 0 ∧
      obj.counter_ = { count_ := ptrs.count { ptr_ := some o }, wraps := 0 } ∧
      ptrs.count { ptr_ := some o } < SIZE_MOD := by
  obtain ⟨h1, h2, h3⟩ := hinv
  have hlt : o < objs.length := by
    by_contra hge
    have h0 := h2 o (Nat.le_of_not_lt hge)
    simp only [IntrusiveWorld.holders] at h0
    omega
  have hle : ptrs.count { ptr_ := some o } ≤ ptrs.length := List.count_le_length _ _
  have hg : objs[o]? = some objs[o] := List.getElem?_eq_getElem hlt
  have hacc := h3 o objs[o] hg
  simp only [IntrusiveWorld.holders] at hacc
  rcases hacc with ⟨hd, _, hc⟩ | ⟨_, hz, _⟩
  · exact ⟨objs[o], hg, hd, hc, by simp only [] at h1; omega⟩
  · omega

/-- Releasing the object held by variable `i`: `ptr_->DecRef()` returns, and with
the variable set to null the invariant holds again. -/
theorem IntrusiveWorld.Inv.release {objs : ObjHeap} {ptrs : List IntrusivePtr} {i o : Nat}
    (fuel : Nat) (hinv : IntrusiveWorld.Inv { objs := objs, ptrs := ptrs })
    (hi : ptrs[i]? = some { ptr_ := some o }) :
    ∃ objs1, objs.DecRef (fuel + 2) o = some objs1 ∧
      IntrusiveWorld.Inv { objs := objs1, ptrs := ptrs.set i { ptr_ := none } } := by
  have hmem : ({ ptr_ := some o } : IntrusivePtr) ∈ ptrs :=
    List.mem_iff_getElem?.mpr ⟨i, hi⟩
  have hpos : 0 < ptrs.count { ptr_ := some o } := List.count_pos_iff.mpr hmem
  obtain ⟨obj, hg, hd, hc, hnlt⟩ := hinv.held hpos
  obtain ⟨h1, h2, h3⟩ := hinv
  have hcnt : ∀ x : IntrusivePtr,
      (ptrs.set i { ptr_ := none }).count x + (if ({ ptr_ := some o } : IntrusivePtr) = x
        then 1 else 0) = ptrs.count x + (if ({ ptr_ := none } : IntrusivePtr) = x then 1 else 0) :=
    fun x => IntrusivePtr.count_set { ptr_ := none } x hi
  have hsame : (ptrs.set i { ptr_ := none }).count { ptr_ := some o } + 1 =
      ptrs.count { ptr_ := some o } := by
    have := hcnt { ptr_ := some o }
    simpa using this
  have hother : ∀ o1, o1 ≠ o → (ptrs.set i { ptr_ := none }).count { ptr_ := some o1 } =
      ptrs.count { ptr_ := some o1 } := by
    intro o1 hne
    have := hcnt { ptr_ := some o1 }
    have hne1 : ¬ (o = o1) := fun hc1 => hne hc1.symm
    simpa [hne1] using this
  have holt := ObjHeap.obj_lt_length_of_get hg
  have hcount : obj.counter_.count_ = ptrs.count { ptr_ := some o } := by rw [hc]
  have hwraps : obj.counter_.wraps = 0 := by rw [hc]
  -- the object after `DecRef`
  have hdec : ∃ obj1, RefCounted.DecRef (fuel + 2) obj = some obj1 ∧
      obj1.Accounted ((ptrs.set i { ptr_ := none }).count { ptr_ := some o }) := by
    by_cases hone : ptrs.count { ptr_ := some o } = 1
    · have hone1 : obj.counter_.count_ = 1 := by rw [hcount, hone]
      refine ⟨_, RefCounted.DecRef_one fuel hone1, Or.inr ⟨?_, ?_, ?_⟩⟩
      · simp [hd]
      · omega
      · simp [hwraps]
    · have hge : 2 ≤ obj.counter_.count_ := by rw [hcount]; omega
      have hlt : obj.counter_.count_ < SIZE_MOD := by rw [hcount]; exact hnlt
      refine ⟨_, RefCounted.DecRef_ge_two (fuel + 1) hge hlt, Or.inl ⟨hd, ?_, ?_⟩⟩
      · omega
      · simp only []
        rw [hwraps, hcount]
        congr 1
        omega
  obtain ⟨obj1, hdec1, hacc1⟩ := hdec
  refine ⟨objs.set o obj1, ?_, ?_, ?_, ?_⟩
  · simp only [ObjHeap.DecRef, ObjHeap.obj_of_get hg hd, hdec1]
  · simp only [List.length_set]
    exact h1
  · intro o1 hle
    simp only [List.length_set] at hle
    simp only [IntrusiveWorld.holders]
    have hne : o1 ≠ o := by omega
    rw [hother o1 hne]
    exact h2 o1 hle
  · intro o1 obj2 hg2
    simp only [IntrusiveWorld.holders]
    by_cases hne : o1 = o
    · subst hne
      simp only [] at hg2
      rw [ObjHeap.obj_get_set_same obj1 hg] at hg2
      cases hg2
      exact hacc1
    · simp only [] at hg2
      rw [ObjHeap.obj_get_set_other objs obj1 (fun hc1 => hne hc1.symm)] at hg2
      rw [hother o1 hne]
      exact h3 o1 obj2 hg2

/-- A null variable takes an object that already has a holder: `ptr_->IncRef()`
returns, and the invariant holds again. -/
theorem IntrusiveWorld.Inv.acquire {objs : ObjHeap} {ptrs : List IntrusivePtr} {i o : Nat}
    (hinv : IntrusiveWorld.Inv { objs := objs, ptrs := ptrs })
    (hi : ptrs[i]? = some { ptr_ := none })
    (hpos : 0 < ptrs.count { ptr_ := some o }) :
    ∃ objs1, objs.IncRef o = some objs1 ∧
      IntrusiveWorld.Inv { objs := objs1, ptrs := ptrs.set i { ptr_ := some o } } := by
  obtain ⟨obj, hg, hd, hc, _⟩ := hinv.held hpos
  obtain ⟨h1, h2, h3⟩ := hinv
  have hcnt : ∀ x : IntrusivePtr,
      (ptrs.set i { ptr_ := some o }).count x + (if ({ ptr_ := none } : IntrusivePtr) = x
        then 1 else 0) =
      ptrs.count x + (if ({ ptr_ := some o } : IntrusivePtr) = x then 1 else 0) :=
    fun x => IntrusivePtr.count_set { ptr_ := some o } x hi
  have hsame : (ptrs.set i { ptr_ := some o }).count { ptr_ := some o } =
      ptrs.count { ptr_ := some o } + 1 := by
    have := hcnt { ptr_ := some o }
    simpa using this
  have hother : ∀ o1, o1 ≠ o → (ptrs.set i { ptr_ := some o }).count { ptr_ := some o1 } =
      ptrs.count { ptr_ := some o1 } := by
    intro o1 hne
    have := hcnt { ptr_ := some o1 }
    have hne1 : ¬ (o = o1) := fun hc1 => hne hc1.symm
    simpa [hne1] using this
  have hle : (ptrs.set i { ptr_ := some o }).count { ptr_ := some o } ≤
      (ptrs.set i { ptr_ := some o }).length := List.count_le_length _ _
  have hroom : ptrs.count { ptr_ := some o } + 1 < SIZE_MOD := by
    rw [hsame, List.length_set] at hle
    simp only [] at h1
    omega
  have hcount : obj.counter_.count_ = ptrs.count { ptr_ := some o } := by rw [hc]
  have hwraps : obj.counter_.wraps = 0 := by rw [hc]
  have holt := ObjHeap.obj_lt_length_of_get hg
  refine ⟨objs.set o (RefCounted.IncRef obj), ?_, ?_, ?_, ?_⟩
  · simp only [ObjHeap.IncRef, ObjHeap.obj_of_get hg hd]
  · simp only [List.length_set]
    exact h1
  · intro o1 hle1
    simp only [List.length_set] at hle1
    simp only [IntrusiveWorld.holders]
    have hne : o1 ≠ o := by omega
    rw [hother o1 hne]
    exact h2 o1 hle1
  · intro o1 obj2 hg2
    simp only [IntrusiveWorld.holders]
    by_cases hne : o1 = o
    · subst hne
      simp only [] at hg2
      rw [ObjHeap.obj_get_set_same _ hg] at hg2
      cases hg2
      refine Or.inl ⟨hd, by omega, ?_⟩
      simp only [RefCounted.IncRef, SimpleCounter.IncRef]
      rw [hsame, hcount, incr_lt hroom, hwraps]
    · simp only [] at hg2
      rw [ObjHeap.obj_get_set_other objs _ (fun hc1 => hne hc1.symm)] at hg2
      rw [hother o1 hne]
      exact h3 o1 obj2 hg2

/-- Declaring a null variable keeps the invariant. -/
theorem IntrusiveWorld.Inv.append_null {objs : ObjHeap} {ptrs : List IntrusivePtr}
    (hinv : IntrusiveWorld.Inv { objs := objs, ptrs := ptrs })
    (hroom : ptrs.length + 1 < SIZE_MOD) :
    IntrusiveWorld.Inv { objs := objs, ptrs := ptrs ++ [{ ptr_ := none }] } := by
  refine hinv.transfer (by simpa using hroom) ?_
  intro o
  simp [List.count_append, List.count_singleton]

/-- A new variable built from a raw pointer that is null or held by some
variable: the constructor returns and the invariant holds again. -/
theorem IntrusiveWorld.Inv.declare {objs : ObjHeap} {ptrs : List IntrusivePtr}
    (hinv : IntrusiveWorld.Inv { objs := objs, ptrs := ptrs })
    (hroom : ptrs.length + 1 < SIZE_MOD) (raw : Option Nat)
    (hraw : ∀ o, raw = some o → 0 < ptrs.count { ptr_ := some o }) :
    ∃ objs1, IntrusivePtr.ofRaw objs raw = some (objs1, { ptr_ := raw }) ∧
      IntrusiveWorld.Inv { objs := objs1, ptrs := ptrs ++ [{ ptr_ := raw }] } := by
  have hnull := hinv.append_null hroom
  cases raw with
  | none => exact ⟨objs, rfl, hnull⟩
  | some o =>
    have hi : (ptrs ++ [({ ptr_ := none } : IntrusivePtr)])[ptrs.length]? =
        some { ptr_ := none } := by simp
    have hpos : 0 < (ptrs ++ [({ ptr_ := none } : IntrusivePtr)]).count { ptr_ := some o } := by
      rw [List.count_append]
      have := hraw o rfl
      omega
    obtain ⟨objs1, hinc, hinv1⟩ := hnull.acquire hi hpos
    refine ⟨objs1, ?_, ?_⟩
    · simp only [IntrusivePtr.ofRaw, hinc]
    · have hset : (ptrs ++ [({ ptr_ := none } : IntrusivePtr)]).set ptrs.length
          { ptr_ := some o } = ptrs ++ [{ ptr_ := some o }] := by simp
      rw [hset] at hinv1
      exact hinv1

/-- The function `MakeIntrusive` returns a handle to a new object with counter
one, and the invariant holds again. -/
theorem IntrusiveWorld.Inv.make {objs : ObjHeap} {ptrs : List IntrusivePtr}
    (hinv : IntrusiveWorld.Inv { objs := objs, ptrs := ptrs })
    (hroom : ptrs.length + 1 < SIZE_MOD) :
    MakeIntrusive objs =
      some (objs ++ [{ counter_ := { count_ := 1, wraps := 0 }, destroyed := 0 }],
        { ptr_ := some objs.length }) ∧
    IntrusiveWorld.Inv
      { objs := objs ++ [{ counter_ := { count_ := 1, wraps := 0 }, destroyed := 0 }],
        ptrs := ptrs ++ [{ ptr_ := some objs.length }] } := by
  obtain ⟨h1, h2a, h3⟩ := hinv
  have h2 : ∀ o, objs.length ≤ o → ptrs.count { ptr_ := some o } = 0 := h2a
  have hinc : incr 0 = 1 := by decide
  have hzero : ptrs.count { ptr_ := some objs.length } = 0 := h2 objs.length (Nat.le_refl _)
  constructor
  · simp [MakeIntrusive, IntrusivePtr.ofRaw, ObjHeap.IncRef, ObjHeap.obj, RefCountedObj.init,
      RefCounted.IncRef, SimpleCounter.IncRef, hinc]
  · refine ⟨by simpa using hroom, ?_, ?_⟩
    · intro o hle
      simp only [List.length_append, List.length_singleton] at hle
      simp only [IntrusiveWorld.holders, List.count_append, List.count_singleton]
      have hne : ¬ (objs.length = o) := by omega
      have h0 := h2 o (by omega)
      simp [h0, hne]
    · intro o obj hg
      simp only [IntrusiveWorld.holders, List.count_append, List.count_singleton]
      by_cases hlt : o < objs.length
      · simp only [] at hg
        rw [List.getElem?_append_left hlt] at hg
        have hne : ¬ (objs.length = o) := by omega
        have hacc := h3 o obj hg
        simp only [IntrusiveWorld.holders] at hacc
        simpa [hne] using hacc
      · have hlen := ObjHeap.obj_lt_length_of_get hg
        simp only [List.length_append, List.length_singleton] at hlen
        have heq : o = objs.length := by omega
        subst heq
        simp only [] at hg
        rw [List.getElem?_concat_length] at hg
        cases hg
        refine Or.inl ⟨rfl, ?_, ?_⟩
        · simp
        · simp [hzero]

theorem IntrusiveWorld.Inv.at_start : IntrusiveWorld.Inv IntrusiveWorld.start := by
  refine ⟨SIZE_MOD_pos, ?_, ?_⟩
  · intro o _
    rfl
  · intro o obj hg
    simp [IntrusiveWorld.start] at hg

theorem IntrusivePtr.var_lt_length_of_get {l : List IntrusivePtr} {i : Nat} {a : IntrusivePtr}
    (hi : l[i]? = some a) : i < l.length := (List.getElem?_eq_some.mp hi).1

theorem IntrusivePtr.count_set_self {l : List IntrusivePtr} {i : Nat} {a : IntrusivePtr}
    (hi : l[i]? = some a) (x : IntrusivePtr) : (l.set i a).count x = l.count x := by
  have := IntrusivePtr.count_set a x hi
  omega

theorem IntrusivePtr.count_swap {l : List IntrusivePtr} {i j : Nat} {a b : IntrusivePtr}
    (hi : l[i]? = some a) (hj : l[j]? = some b) (x : IntrusivePtr) :
    ((l.set i b).set j a).count x = l.count x := by
  have hj1 : (l.set i b)[j]? = some b :=
    IntrusivePtr.get_set b (IntrusivePtr.var_lt_length_of_get hi) hj (fun _ => rfl)
  have h1 := IntrusivePtr.count_set a x hj1
  have h2 := IntrusivePtr.count_set b x hi
  omega

theorem IntrusivePtr.count_assign_same {l : List IntrusivePtr} {i j : Nat}
    {a b : IntrusivePtr} (hi : l[i]? = some a) (hj : l[j]? = some b) (x : IntrusivePtr) :
    ((l.set i a).set j b).count x = l.count x := by
  have hj1 : (l.set i a)[j]? = some b := by
    refine IntrusivePtr.get_set a (IntrusivePtr.var_lt_length_of_get hi) hj ?_
    intro hij
    subst hij
    rw [hi] at hj
    exact Option.some.inj hj
  have h1 := IntrusivePtr.count_set b x hj1
  have h2 := IntrusivePtr.count_set a x hi
  omega

theorem IntrusivePtr.count_move_assign {l : List IntrusivePtr} {i j : Nat}
    {a b : IntrusivePtr} (hi : l[i]? = some a) (hj : l[j]? = some b) (hne : a ≠ b)
    (o : Nat) :
    ((l.set i b).set j { ptr_ := none }).count { ptr_ := some o } =
      (l.set i { ptr_ := none }).count { ptr_ := some o } := by
  have hij : i ≠ j := by
    intro hij
    subst hij
    rw [hi] at hj
    exact hne (Option.some.inj hj)
  have hj1 : (l.set i b)[j]? = some b :=
    IntrusivePtr.get_set b (IntrusivePtr.var_lt_length_of_get hi) hj (fun h => absurd h hij)
  have h1 := IntrusivePtr.count_set { ptr_ := none } { ptr_ := some o } hj1
  have h2 := IntrusivePtr.count_set b { ptr_ := some o } hi
  have h3 := IntrusivePtr.count_set { ptr_ := none } { ptr_ := some o } hi
  have hz : (if ({ ptr_ := none } : IntrusivePtr) = { ptr_ := some o } then 1 else 0) = 0 := by
    simp
  rw [hz] at h1 h3
  omega

theorem IntrusivePtr.count_move {l : List IntrusivePtr} {i : Nat} {a : IntrusivePtr}
    (hi : l[i]? = some a) (o : Nat) :
    (l.set i { ptr_ := none } ++ [a]).count { ptr_ := some o } =
      l.count { ptr_ := some o } := by
  have h3 := IntrusivePtr.count_set { ptr_ := none } { ptr_ := some o } hi
  have hz : (if ({ ptr_ := none } : IntrusivePtr) = { ptr_ := some o } then 1 else 0) = 0 := by
    simp
  rw [hz] at h3
  rw [List.count_append, List.count_singleton]
  have hb : (if (a == ({ ptr_ := some o } : IntrusivePtr)) = true then 1 else 0) =
      (if a = ({ ptr_ := some o } : IntrusivePtr) then 1 else 0) := by
    simp
  rw [hb]
  omega

/-- Dropping what variable `i` holds, if anything. -/
theorem IntrusiveWorld.Inv.drop {objs : ObjHeap} {ptrs : List IntrusivePtr} {i : Nat}
    {a : IntrusivePtr} (fuel : Nat)
    (hinv : IntrusiveWorld.Inv { objs := objs, ptrs := ptrs }) (hi : ptrs[i]? = some a) :
    ∃ objs1, (match a.ptr_ with
              | none => some objs
              | some p => objs.DecRef (fuel + 2) p) = some objs1 ∧
      IntrusiveWorld.Inv { objs := objs1, ptrs := ptrs.set i { ptr_ := none } } := by
  cases ha : a.ptr_ with
  | none =>
    have hae : a = { ptr_ := none } := by cases a; simp_all
    refine ⟨objs, rfl, hinv.transfer (by rw [List.length_set]; exact hinv.1) ?_⟩
    intro o
    rw [← hae]
    exact IntrusivePtr.count_set_self hi _
  | some p =>
    have hae : a = { ptr_ := some p } := by cases a; simp_all
    rw [hae] at hi
    exact hinv.release fuel hi

theorem IntrusivePtr.eta (a : IntrusivePtr) : ({ ptr_ := a.ptr_ } : IntrusivePtr) = a := by
  cases a
  rfl

/-- Progress and preservation: a well-formed operation on a state that
satisfies the invariant returns (with fuel at least two) a state that
satisfies it. -/
theorem IntrusiveWorld.step_inv (fuel : Nat) {w : IntrusiveWorld} (hinv : w.Inv)
    (op : IntrusiveOp) (hv : op.valid w = true) :
    ∃ w1, w.step (fuel + 2) op = some w1 ∧ w1.Inv := by
  obtain ⟨objs, ptrs⟩ := w
  have hlenlt : ptrs.length < SIZE_MOD := hinv.1
  cases op with
  | make =>
    have hroom : ptrs.length + 1 < SIZE_MOD := by simpa [IntrusiveOp.valid] using hv
    obtain ⟨hm, hi⟩ := hinv.make hroom
    exact ⟨_, by simp only [IntrusiveWorld.step, hm], hi⟩
  | ofRaw raw =>
    simp only [IntrusiveOp.valid, Bool.and_eq_true, decide_eq_true_eq] at hv
    obtain ⟨hroom, hraw⟩ := hv
    have hraw1 : ∀ o, raw = some o → 0 < ptrs.count { ptr_ := some o } := by
      intro o ho
      subst ho
      simp only [] at hraw
      cases hobj : objs.obj o with
      | none => simp [hobj] at hraw
      | some obj =>
        obtain ⟨hg, hd⟩ := ObjHeap.get_of_obj hobj
        have hacc := hinv.2.2 o obj hg
        simp only [IntrusiveWorld.holders] at hacc
        rcases hacc with ⟨_, h1, _⟩ | ⟨h1, _, _⟩
        · omega
        · omega
    obtain ⟨objs1, hc, hi⟩ := hinv.declare hroom raw hraw1
    exact ⟨_, by simp only [IntrusiveWorld.step, hc], hi⟩
  | copy i =>
    simp only [IntrusiveOp.valid, Bool.and_eq_true, decide_eq_true_eq] at hv
    obtain ⟨hi, hroom⟩ := hv
    have hgi : ptrs[i]? = some ptrs[i] := List.getElem?_eq_getElem hi
    have hraw1 : ∀ o, ptrs[i].ptr_ = some o → 0 < ptrs.count { ptr_ := some o } := by
      intro o ho
      have hmem : ptrs[i] ∈ ptrs := List.getElem_mem hi
      rw [← IntrusivePtr.eta ptrs[i], ho] at hmem
      exact List.count_pos_iff.mpr hmem
    obtain ⟨objs1, hc, hinv1⟩ := hinv.declare hroom ptrs[i].ptr_ hraw1
    have hcopy : IntrusivePtr.copy objs ptrs[i] = some (objs1, { ptr_ := ptrs[i].ptr_ }) := hc
    exact ⟨_, by simp only [IntrusiveWorld.step, hgi, hcopy], hinv1⟩
  | move i =>
    simp only [IntrusiveOp.valid, Bool.and_eq_true, decide_eq_true_eq] at hv
    obtain ⟨hi, hroom⟩ := hv
    have hgi : ptrs[i]? = some ptrs[i] := List.getElem?_eq_getElem hi
    refine ⟨{ objs := objs, ptrs := ptrs.set i { ptr_ := none } ++ [ptrs[i]] }, ?_, ?_⟩
    · simp only [IntrusiveWorld.step, hgi, IntrusivePtr.move, IntrusivePtr.eta]
    · refine hinv.transfer ?_ ?_
      · simp only [List.length_append, List.length_set, List.length_singleton]
        exact hroom
      · intro o
        exact IntrusivePtr.count_move hgi o
  | copyAssign i j =>
    simp only [IntrusiveOp.valid, Bool.and_eq_true, decide_eq_true_eq] at hv
    obtain ⟨hi, hj⟩ := hv
    have hgi : ptrs[i]? = some ptrs[i] := List.getElem?_eq_getElem hi
    have hgj : ptrs[j]? = some ptrs[j] := List.getElem?_eq_getElem hj
    by_cases heq : ptrs[i].ptr_ = ptrs[j].ptr_
    · refine ⟨{ objs := objs, ptrs := ptrs.set i ptrs[i] }, ?_, ?_⟩
      · simp only [IntrusiveWorld.step, hgi, hgj, IntrusivePtr.copyAssign, heq, ne_eq,
          not_true_eq_false, if_false]
      · exact hinv.transfer (by rw [List.length_set]; exact hlenlt)
          (fun o => IntrusivePtr.count_set_self hgi _)
    · obtain ⟨objs1, hdrop, hmid⟩ := hinv.drop fuel hgi
      cases hb : ptrs[j].ptr_ with
      | none =>
        have heq1 : ¬ ptrs[i].ptr_ = none := by rw [← hb]; exact heq
        refine ⟨{ objs := objs1, ptrs := ptrs.set i { ptr_ := none } }, ?_, hmid⟩
        simp only [IntrusiveWorld.step, hgi, hgj, IntrusivePtr.copyAssign, ne_eq, heq1,
          not_false_eq_true, if_true, hdrop, hb]
      | some q =>
        have hbe : ptrs[j] = { ptr_ := some q } := by
          rw [← IntrusivePtr.eta ptrs[j], hb]
        have hij : i ≠ j := by
          intro hij
          subst hij
          exact heq rfl
        have hj1 : (ptrs.set i { ptr_ := none })[j]? = some { ptr_ := some q } := by
          rw [← hbe]
          exact IntrusivePtr.get_set _ hi hgj (fun h => absurd h hij)
        have hpos : 0 < (ptrs.set i { ptr_ := none }).count { ptr_ := some q } :=
          List.count_pos_iff.mpr (List.mem_iff_getElem?.mpr ⟨j, hj1⟩)
        have hi1 : (ptrs.set i { ptr_ := none })[i]? = some { ptr_ := none } := by
          rw [List.getElem?_set]
          simp [hi]
        obtain ⟨objs2, hinc, hinv2⟩ := hmid.acquire hi1 hpos
        rw [List.set_set] at hinv2
        have heq1 : ¬ ptrs[i].ptr_ = some q := by rw [← hb]; exact heq
        refine ⟨{ objs := objs2, ptrs := ptrs.set i { ptr_ := some q } }, ?_, hinv2⟩
        simp only [IntrusiveWorld.step, hgi, hgj, IntrusivePtr.copyAssign, ne_eq, heq1,
          not_false_eq_true, if_true, hdrop, hb, hinc]
  | moveAssign i j =>
    simp only [IntrusiveOp.valid, Bool.and_eq_true, decide_eq_true_eq] at hv
    obtain ⟨hi, hj⟩ := hv
    have hgi : ptrs[i]? = some ptrs[i] := List.getElem?_eq_getElem hi
    have hgj : ptrs[j]? = some ptrs[j] := List.getElem?_eq_getElem hj
    by_cases heq : ptrs[i].ptr_ = ptrs[j].ptr_
    · refine ⟨{ objs := objs, ptrs := (ptrs.set i ptrs[i]).set j ptrs[j] }, ?_, ?_⟩
      · simp only [IntrusiveWorld.step, hgi, hgj, IntrusivePtr.moveAssign, heq, ne_eq,
          not_true_eq_false, if_false]
      · exact hinv.transfer (by rw [List.length_set, List.length_set]; exact hlenlt)
          (fun o => IntrusivePtr.count_assign_same hgi hgj _)
    · obtain ⟨objs1, hdrop, hmid⟩ := hinv.drop fuel hgi
      have hne : ptrs[i] ≠ ptrs[j] := fun h => heq (by rw [h])
      refine ⟨{ objs := objs1, ptrs := (ptrs.set i ptrs[j]).set j { ptr_ := none } }, ?_, ?_⟩
      · simp only [IntrusiveWorld.step, hgi, hgj, IntrusivePtr.moveAssign, ne_eq, heq,
          not_false_eq_true, if_true, hdrop, IntrusivePtr.eta]
      · exact hmid.transfer (by rw [List.length_set, List.length_set]; exact hlenlt)
          (fun o => IntrusivePtr.count_move_assign hgi hgj hne o)
  | reset i =>
    simp only [IntrusiveOp.valid, decide_eq_true_eq] at hv
    have hgi : ptrs[i]? = some ptrs[i] := List.getElem?_eq_getElem hv
    obtain ⟨objs1, hdrop, hmid⟩ := hinv.drop fuel hgi
    exact ⟨_, by simp only [IntrusiveWorld.step, hgi, IntrusivePtr.Reset, hdrop], hmid⟩
  | swap i j =>
    simp only [IntrusiveOp.valid, Bool.and_eq_true, decide_eq_true_eq] at hv
    obtain ⟨hi, hj⟩ := hv
    have hgi : ptrs[i]? = some ptrs[i] := List.getElem?_eq_getElem hi
    have hgj : ptrs[j]? = some ptrs[j] := List.getElem?_eq_getElem hj
    refine ⟨{ objs := objs, ptrs := (ptrs.set i ptrs[j]).set j ptrs[i] }, ?_, ?_⟩
    · simp only [IntrusiveWorld.step, hgi, hgj, IntrusivePtr.Swap]
    · exact hinv.transfer (by rw [List.length_set, List.length_set]; exact hlenlt)
        (fun o => IntrusivePtr.count_swap hgi hgj _)
  | destroy i =>
    simp only [IntrusiveOp.valid, decide_eq_true_eq] at hv
    have hgi : ptrs[i]? = some ptrs[i] := List.getElem?_eq_getElem hv
    obtain ⟨objs1, hdrop, hmid⟩ := hinv.drop fuel hgi
    exact ⟨_, by simp only [IntrusiveWorld.step, hgi, IntrusivePtr.Reset, hdrop], hmid⟩

/-- A well-formed sequence of operations from a state that satisfies the
invariant returns a state that satisfies it. -/
theorem IntrusiveWorld.run_inv (fuel : Nat) (ops : List IntrusiveOp) :
    ∀ w : IntrusiveWorld, w.Inv → w.validRun (fuel + 2) ops = true →
      ∃ w1, w.run (fuel + 2) ops = some w1 ∧ w1.Inv := by
  induction ops with
  | nil =>
    intro w hinv _
    exact ⟨w, rfl, hinv⟩
  | cons op rest ih =>
    intro w hinv hv
    simp only [IntrusiveWorld.validRun, Bool.and_eq_true] at hv
    obtain ⟨hv1, hv2⟩ := hv
    obtain ⟨w1, hs, hinv1⟩ := IntrusiveWorld.step_inv fuel hinv op hv1
    rw [hs] at hv2
    obtain ⟨w2, hr, hinv2⟩ := ih w1 hinv1 hv2
    exact ⟨w2, by simp only [IntrusiveWorld.run, hs, hr], hinv2⟩

/-- C12: from the state with no object and no variable, run any well-formed
sequence of `MakeIntrusive`, construction from a raw pointer, copy and move
construction, copy and move assignment (self-assignment included), `Reset()`,
`Swap` and destruction.  The run returns (with fuel at least two); in the state
reached, every live object has `RefCount()` equal to the number of variables
holding it, and `UseCount()` of a variable is that number, or `0` for a null
one.  In any memory `UseCount()` is `1` right after `MakeIntrusive` and `0` for
a null handle, and move construction leaves the memory of objects as it is. -/
theorem intrusive_count_equals_holders (fuel : Nat) (ops : List IntrusiveOp)
    (hvalid : IntrusiveWorld.start.validRun (fuel + 2) ops = true) :
    ∃ w1, IntrusiveWorld.start.run (fuel + 2) ops = some w1 ∧
      (∀ o obj, w1.objs.obj o = some obj →
        RefCounted.RefCount obj = w1.holders o ∧ 1 ≤ w1.holders o) ∧
      (∀ p ∈ w1.ptrs, IntrusivePtr.UseCount w1.objs p =
        some (match p.ptr_ with
              | none => 0
              | some o => w1.holders o)) ∧
      (∀ h : ObjHeap, ∃ h1 p, MakeIntrusive h = some (h1, p) ∧
        IntrusivePtr.UseCount h1 p = some 1) ∧
      (∀ h : ObjHeap, IntrusivePtr.UseCount h IntrusivePtr.null = some 0) ∧
      (∀ (w2 w3 : IntrusiveWorld) (i : Nat),
        w2.step (fuel + 2) (IntrusiveOp.move i) = some w3 → w3.objs = w2.objs) := by
  obtain ⟨w1, hrun, hinv⟩ :=
    IntrusiveWorld.run_inv fuel ops IntrusiveWorld.start IntrusiveWorld.Inv.at_start hvalid
  refine ⟨w1, hrun, ?_, ?_, ?_, ?_, ?_⟩
  · intro o obj hobj
    obtain ⟨hg, hd⟩ := ObjHeap.get_of_obj hobj
    rcases hinv.2.2 o obj hg with ⟨_, h1, hc⟩ | ⟨h1, _, _⟩
    · refine ⟨?_, h1⟩
      simp [RefCounted.RefCount, SimpleCounter.RefCount, hc]
    · omega
  · intro p hp
    cases hpp : p.ptr_ with
    | none => simp [IntrusivePtr.UseCount, hpp]
    | some o =>
      have hpe : p = { ptr_ := some o } := by rw [← IntrusivePtr.eta p, hpp]
      rw [hpe] at hp
      have hpos : 0 < w1.ptrs.count { ptr_ := some o } := List.count_pos_iff.mpr hp
      have hinv1 : IntrusiveWorld.Inv { objs := w1.objs, ptrs := w1.ptrs } := hinv
      obtain ⟨obj, hg, hd, hc, _⟩ := hinv1.held hpos
      simp [IntrusivePtr.UseCount, hpp, ObjHeap.obj_of_get hg hd, RefCounted.RefCount,
        SimpleCounter.RefCount, hc, IntrusiveWorld.holders]
  · intro h
    have hinc : incr 0 = 1 := by decide
    refine ⟨h ++ [{ counter_ := { count_ := 1, wraps := 0 }, destroyed := 0 }],
      { ptr_ := some h.length }, ?_, ?_⟩
    · simp [MakeIntrusive, IntrusivePtr.ofRaw, ObjHeap.IncRef, ObjHeap.obj, RefCountedObj.init,
        RefCounted.IncRef, SimpleCounter.IncRef, hinc]
    · simp [IntrusivePtr.UseCount, ObjHeap.obj, RefCounted.RefCount, SimpleCounter.RefCount]
  · intro h
    rfl
  · intro w2 w3 i hstep
    simp only [IntrusiveWorld.step] at hstep
    cases hi : w2.ptrs[i]? with
    | none => simp [hi] at hstep
    | some a =>
      simp only [hi, Option.some.injEq] at hstep
      rw [← hstep]

/-- C12 at a concrete input: one object and four variables, through twelve
operations. -/
theorem intrusive_count_equals_holders_witness :
    (IntrusiveWorld.start.validRun (0 + 2) sampleIntrusiveOps = true) ∧
    ∃ w1, IntrusiveWorld.start.run (0 + 2) sampleIntrusiveOps = some w1 ∧
      (∀ o obj, w1.objs.obj o = some obj →
        RefCounted.RefCount obj = w1.holders o ∧ 1 ≤ w1.holders o) ∧
      (∀ p ∈ w1.ptrs, IntrusivePtr.UseCount w1.objs p =
        some (match p.ptr_ with
              | none => 0
              | some o => w1.holders o)) ∧
      (∀ h : ObjHeap, ∃ h1 p, MakeIntrusive h = some (h1, p) ∧
        IntrusivePtr.UseCount h1 p = some 1) ∧
      (∀ h : ObjHeap, IntrusivePtr.UseCount h IntrusivePtr.null = some 0) ∧
      (∀ (w2 w3 : IntrusiveWorld) (i : Nat),
        w2.step (0 + 2) (IntrusiveOp.move i) = some w3 → w3.objs = w2.objs) :=
  ⟨by decide, intrusive_count_equals_holders 0 sampleIntrusiveOps (by decide)⟩

/-- C13: a `RefCounted` object whose counter holds `c >= 1` (a value of
`size_t`): `DecRef()` returns (with fuel at least two) and has called `Destroy`
once if `c` is `1` and not at all otherwise; the counter is then `c - 1`, or
`2 ^ 64 - 1` when `c` was `1`, the `DecRef()` of `~RefCounted` having wrapped it
from `0` without a second `Destroy`.  Consequently, after any well-formed
sequence of operations from the empty state, every object made is either alive
and held, or has been destroyed exactly once, is held by no variable and shows
that one wrapped decrement. -/
theorem dec_ref_destroys_exactly_at_one (fuel : Nat) (o : RefCountedObj)
    (ops : List IntrusiveOp)
    (h1 : 1 ≤ o.counter_.count_) (hlt : o.counter_.count_ < SIZE_MOD)
    (hvalid : IntrusiveWorld.start.validRun (fuel + 2) ops = true) :
    (∃ o1, RefCounted.DecRef (fuel + 2) o = some o1 ∧
      o1.destroyed = o.destroyed + (if o.counter_.count_ = 1 then 1 else 0) ∧
      o1.counter_.count_ =
        (if o.counter_.count_ = 1 then SIZE_MOD - 1 else o.counter_.count_ - 1)) ∧
    (∃ w1, IntrusiveWorld.start.run (fuel + 2) ops = some w1 ∧
      ∀ (i : Nat) (obj : RefCountedObj), w1.objs[i]? = some obj →
        (obj.destroyed = 0 ∧ 1 ≤ w1.holders i ∧ obj.counter_.wraps = 0) ∨
        (obj.destroyed = 1 ∧ w1.holders i = 0 ∧
          obj.counter_ = { count_ := SIZE_MOD - 1, wraps := 1 })) := by
  constructor
  · by_cases hone : o.counter_.count_ = 1
    · refine ⟨_, RefCounted.DecRef_one fuel hone, ?_, ?_⟩
      · simp [hone]
      · simp [hone]
    · refine ⟨_, RefCounted.DecRef_ge_two (fuel + 1) (by omega) hlt, ?_, ?_⟩
      · simp [hone]
      · simp [hone]
  · obtain ⟨w1, hrun, hinv⟩ :=
      IntrusiveWorld.run_inv fuel ops IntrusiveWorld.start IntrusiveWorld.Inv.at_start hvalid
    refine ⟨w1, hrun, ?_⟩
    intro i obj hg
    rcases hinv.2.2 i obj hg with ⟨hd, hh, hc⟩ | ⟨hd, hh, hc⟩
    · exact Or.inl ⟨hd, hh, by rw [hc]⟩
    · exact Or.inr ⟨hd, hh, hc⟩

/-- C13 at a concrete input: a counter holding `1`, and an object made, copied
and released by both its handles. -/
theorem dec_ref_destroys_exactly_at_one_witness :
    (1 ≤ sampleObj.counter_.count_ ∧
      sampleObj.counter_.count_ < SIZE_MOD ∧
      IntrusiveWorld.start.validRun (0 + 2)
        [IntrusiveOp.make, IntrusiveOp.copy 0, IntrusiveOp.reset 0, IntrusiveOp.destroy 1]
        = true) ∧
    ((∃ o1, RefCounted.DecRef (0 + 2) sampleObj = some o1 ∧
      o1.destroyed = sampleObj.destroyed +
        (if sampleObj.counter_.count_ = 1 then 1 else 0) ∧
      o1.counter_.count_ =
        (if sampleObj.counter_.count_ = 1 then SIZE_MOD - 1
         else sampleObj.counter_.count_ - 1)) ∧
    (∃ w1, IntrusiveWorld.start.run (0 + 2)
        [IntrusiveOp.make, IntrusiveOp.copy 0, IntrusiveOp.reset 0, IntrusiveOp.destroy 1]
        = some w1 ∧
      ∀ (i : Nat) (obj : RefCountedObj), w1.objs[i]? = some obj →
        (obj.destroyed = 0 ∧ 1 ≤ w1.holders i ∧ obj.counter_.wraps = 0) ∨
        (obj.destroyed = 1 ∧ w1.holders i = 0 ∧
          obj.counter_ = { count_ := SIZE_MOD - 1, wraps := 1 }))) :=
  ⟨⟨by decide, by decide, by decide⟩,
    dec_ref_destroys_exactly_at_one 0 sampleObj
      [IntrusiveOp.make, IntrusiveOp.copy 0, IntrusiveOp.reset 0, IntrusiveOp.destroy 1]
      (by decide) (by decide) (by decide)⟩

/-- C14, the code at the failing input
`auto h = MakeIntrusive<T>(); h.Reset(h.Get());`: `h` is the sole owner
(`UseCount()` is `1`).  `Reset(T*)` first runs `ptr_->DecRef()`, which brings
the counter to `0` and destroys the object; the following `ptr_->IncRef()` is
then applied to the destroyed object, so the call has no defined result,
whatever the fuel. -/
theorem intrusive_reset_to_held_pointer_destroys :
    MakeIntrusive [] =
      some ([{ counter_ := { count_ := 1, wraps := 0 }, destroyed := 0 }],
        { ptr_ := some 0 }) ∧
    IntrusivePtr.UseCount [{ counter_ := { count_ := 1, wraps := 0 }, destroyed := 0 }]
      { ptr_ := some 0 } = some 1 ∧
    (∀ fuel, ObjHeap.DecRef (fuel + 2)
        [{ counter_ := { count_ := 1, wraps := 0 }, destroyed := 0 }] 0 =
      some [{ counter_ := { count_ := SIZE_MOD - 1, wraps := 1 }, destroyed := 1 }]) ∧
    (∀ fuel, IntrusivePtr.ResetPtr (fuel + 2)
        [{ counter_ := { count_ := 1, wraps := 0 }, destroyed := 0 }] { ptr_ := some 0 }
        (IntrusivePtr.Get { ptr_ := some 0 }) = none) := by
  have hdec : ∀ fuel, ObjHeap.DecRef (fuel + 2)
      [{ counter_ := { count_ := 1, wraps := 0 }, destroyed := 0 }] 0 =
      some [{ counter_ := { count_ := SIZE_MOD - 1, wraps := 1 }, destroyed := 1 }] := by
    intro fuel
    have hone := RefCounted.DecRef_one
      (o := { counter_ := { count_ := 1, wraps := 0 }, destroyed := 0 }) fuel rfl
    simp only [ObjHeap.DecRef, ObjHeap.obj]
    simp [hone]
  refine ⟨by decide, by decide, hdec, ?_⟩
  intro fuel
  simp only [IntrusivePtr.ResetPtr, IntrusivePtr.Get, hdec fuel]
  simp [ObjHeap.IncRef, ObjHeap.obj]

/-- C17: on empty handles of the four kinds, `Reset()` (which is also the body of
the destructor), `Release()` and `Swap` leave every handle empty, return the
memory of objects or control blocks unchanged, and leave the deleter log
unchanged. -/
theorem empty_handle_operations_do_nothing {D : Type} (fuel : Nat) (oh : ObjHeap) (h : Heap)
    (log : DeleterLog D) (d e : D) :
    (IntrusivePtr.Reset fuel oh IntrusivePtr.null = some (oh, IntrusivePtr.null) ∧
      IntrusivePtr.Swap IntrusivePtr.null IntrusivePtr.null =
        (IntrusivePtr.null, IntrusivePtr.null)) ∧
    (SharedPtr.Reset h SharedPtr.empty = some (h, SharedPtr.empty) ∧
      SharedPtr.Swap SharedPtr.empty SharedPtr.empty = (SharedPtr.empty, SharedPtr.empty)) ∧
    (WeakPtr.Reset h WeakPtr.empty = some (h, WeakPtr.empty) ∧
      WeakPtr.Swap WeakPtr.empty WeakPtr.empty = (WeakPtr.empty, WeakPtr.empty)) ∧
    (UniquePtr.Reset log { first := 0, second := d } 0 = (log, { first := 0, second := d }) ∧
      UniquePtr.destroy log { first := 0, second := d } = (log, { first := 0, second := d }) ∧
      UniquePtr.Release { first := 0, second := d } = (0, { first := 0, second := d }) ∧
      (UniquePtr.Swap { first := 0, second := d } { first := 0, second := e }).1.Get = 0 ∧
      (UniquePtr.Swap { first := 0, second := d } { first := 0, second := e }).2.Get = 0) ∧
    (UniquePtrArray.Reset log { first := 0, second := d } 0 =
        (log, { first := 0, second := d }) ∧
      UniquePtrArray.destroy log { first := 0, second := d } =
        (log, { first := 0, second := d }) ∧
      UniquePtrArray.Release { first := 0, second := d } = (0, { first := 0, second := d }) ∧
      (UniquePtrArray.Swap { first := 0, second := d } { first := 0, second := e }).1.Get = 0 ∧
      (UniquePtrArray.Swap { first := 0, second := d } { first := 0, second := e }).2.Get = 0) := by
  refine ⟨⟨rfl, rfl⟩, ⟨rfl, rfl⟩, ⟨rfl, rfl⟩, ⟨?_, ?_, rfl, rfl, rfl⟩, ⟨?_, ?_, rfl, rfl, rfl⟩⟩
  · simp [UniquePtr.Reset, UniquePtr.Get]
  · simp [UniquePtr.destroy, UniquePtr.Reset, UniquePtr.Get]
  · simp [UniquePtrArray.Reset, UniquePtrArray.Get]
  · simp [UniquePtrArray.destroy, UniquePtrArray.Reset, UniquePtrArray.Get]

/-! ## The strong-count decrement, step by step -/

/-- C22: block `b` is allocated, its strong count is a `size_t` value and the
self reference of its object is empty or refers to `b`.  At strong count `1`,
`DecrementSharedCount` first runs `Deleter()` (one more call recorded), during
and after which `GetSharedCount()` still reads `1` and the block is still
allocated; the weak count is then the one before the call, less one when the
object held an installed self reference which `Deleter()` released.  It then
stores strong count `0` and deallocates the block exactly when that weak count
is `0`.  At strong count `c >= 2` the only change is the strong count stored
as `c - 1`: no `Deleter()` call and no deallocation. -/
theorem decrement_shared_count_destroys_then_lowers_then_frees
    (h : Heap) (b : Nat) (blk : ControlBlock)
    (hblk : h.block b = some blk) (hlt : blk.shared_count_ < SIZE_MOD)
    (hself : blk.SelfRefOk b) :
    (blk.shared_count_ = 1 →
      ∃ hdel blkd h1, ControlBlock.Deleter h b = some hdel ∧
        hdel.deleterCalls b = h.deleterCalls b + 1 ∧
        ControlBlock.GetSharedCount hdel b = some 1 ∧
        hdel.block b = some blkd ∧
        blkd.weak_count_ =
          (if blk.wired b = true then decr blk.weak_count_ else blk.weak_count_) ∧
        ControlBlock.DecrementSharedCount h b = some h1 ∧
        h1 = hdel.set b { blkd with
          shared_count_ := 0, deleted := if blkd.weak_count_ = 0 then 1 else 0 } ∧
        h1.sharedCountAt b = 0 ∧ h1.weakCountAt b = blkd.weak_count_ ∧
        h1.deleterCalls b = h.deleterCalls b + 1 ∧
        (h1.deletedCount b = 1 ↔ blkd.weak_count_ = 0) ∧
        (h1.block b = none ↔ blkd.weak_count_ = 0)) ∧
    (2 ≤ blk.shared_count_ →
      ∃ h1, ControlBlock.DecrementSharedCount h b = some h1 ∧
        h1 = h.set b { blk with shared_count_ := blk.shared_count_ - 1 } ∧
        h1.block b = some { blk with shared_count_ := blk.shared_count_ - 1 } ∧
        h1.deleterCalls b = h.deleterCalls b ∧ h1.deletedCount b = 0) := by
  obtain ⟨hg, hd⟩ := Heap.get_of_block hblk
  constructor
  · intro hs
    have hne : blk.shared_count_ ≠ 0 := by omega
    by_cases hwired : blk.wired b = true
    · have he : blk.payload.esft = true := by
        simp only [ControlBlock.wired, Bool.and_eq_true] at hwired
        exact hwired.1
      have hw : blk.payload.weak_this_.control_block_ = some b := by
        simp only [ControlBlock.wired, Bool.and_eq_true, decide_eq_true_eq] at hwired
        exact hwired.2
      have hb1 := Heap.get_set_same { blk with
        deleter_calls := blk.deleter_calls + 1,
        weak_count_ := decr blk.weak_count_,
        payload := { blk.payload with
          weak_this_ := { blk.payload.weak_this_ with control_block_ := none } } } hg
      refine ⟨_, _, _, ControlBlock.Deleter_wired hg hd he hw hne, ?_, ?_,
        Heap.block_of_get hb1 hd, ?_,
        ControlBlock.DecrementSharedCount_one_wired hg hd hs he hw, ?_, ?_, ?_, ?_, ?_, ?_⟩
      · simp [Heap.deleterCalls, hb1, hg]
      · rw [ControlBlock.GetSharedCount_eq hb1 hd]
        simp [hs]
      · simp [hwired]
      · simp only [List.set_set]
      · simp [Heap.sharedCountAt, Heap.get_set_same _ hg]
      · simp [Heap.weakCountAt, Heap.get_set_same _ hg]
      · simp [Heap.deleterCalls, Heap.get_set_same _ hg, hg]
      · simp [Heap.deletedCount, Heap.get_set_same _ hg]
      · by_cases hc : decr blk.weak_count_ = 0
        · simp [Heap.block, Heap.get_set_same _ hg, hc]
        · simp [Heap.block, Heap.get_set_same _ hg, hc]
    · have hp : blk.payload.esft = false ∨ blk.payload.weak_this_.control_block_ = none := by
        cases he : blk.payload.esft with
        | false => exact Or.inl rfl
        | true =>
          cases hself he with
          | inl h0 => exact Or.inr h0
          | inr h1 =>
            exfalso
            apply hwired
            simp [ControlBlock.wired, he, h1]
      have hb1 := Heap.get_set_same { blk with deleter_calls := blk.deleter_calls + 1 } hg
      refine ⟨_, _, _, ControlBlock.Deleter_plain hg hd hp, ?_, ?_,
        Heap.block_of_get hb1 hd, ?_,
        ControlBlock.DecrementSharedCount_one_plain hg hd hs hp, ?_, ?_, ?_, ?_, ?_, ?_⟩
      · simp [Heap.deleterCalls, hb1, hg]
      · rw [ControlBlock.GetSharedCount_eq hb1 hd]
        simp [hs]
      · simp [hwired]
      · simp only [List.set_set]
      · simp [Heap.sharedCountAt, Heap.get_set_same _ hg]
      · simp [Heap.weakCountAt, Heap.get_set_same _ hg]
      · simp [Heap.deleterCalls, Heap.get_set_same _ hg, hg]
      · simp [Heap.deletedCount, Heap.get_set_same _ hg]
      · by_cases hc : blk.weak_count_ = 0
        · simp [Heap.block, Heap.get_set_same _ hg, hc]
        · simp [Heap.block, Heap.get_set_same _ hg, hc]
  · intro hc
    have hne1 : blk.shared_count_ ≠ 1 := by omega
    have hdec : decr blk.shared_count_ = blk.shared_count_ - 1 := decr_pos (by omega) hlt
    have hnz : ¬ (decr blk.shared_count_ = 0 ∧ blk.weak_count_ = 0) := by
      rw [hdec]; omega
    have hdown : ControlBlock.DecrementSharedCount h b =
        some (h.set b { blk with shared_count_ := blk.shared_count_ - 1 }) := by
      rw [ControlBlock.DecrementSharedCount_ne_one hg hd hne1, if_neg hnz, hdec]
      congr 2
      cases blk
      simp_all
    have hb1 := Heap.get_set_same { blk with shared_count_ := blk.shared_count_ - 1 } hg
    refine ⟨_, hdown, rfl, Heap.block_of_get hb1 hd, ?_, ?_⟩
    · simp [Heap.deleterCalls, hb1, hg]
    · simp only [Heap.deletedCount, hb1]
      exact hd

/-- C22 at concrete inputs: the last strong handle of `sampleBlock` (strong
count one, the self reference being the only weak handle) and one of the two
strong handles of `sampleBlock2`. -/
theorem decrement_shared_count_destroys_then_lowers_then_frees_witness :
    ((Heap.block [sampleBlock] 0 = some sampleBlock ∧ sampleBlock.shared_count_ < SIZE_MOD ∧
        sampleBlock.SelfRefOk 0 ∧ sampleBlock.shared_count_ = 1) ∧
      ∃ hdel blkd h1, ControlBlock.Deleter [sampleBlock] 0 = some hdel ∧
        hdel.deleterCalls 0 = Heap.deleterCalls [sampleBlock] 0 + 1 ∧
        ControlBlock.GetSharedCount hdel 0 = some 1 ∧
        hdel.block 0 = some blkd ∧
        blkd.weak_count_ =
          (if sampleBlock.wired 0 = true then decr sampleBlock.weak_count_
            else sampleBlock.weak_count_) ∧
        ControlBlock.DecrementSharedCount [sampleBlock] 0 = some h1 ∧
        h1 = hdel.set 0 { blkd with
          shared_count_ := 0, deleted := if blkd.weak_count_ = 0 then 1 else 0 } ∧
        h1.sharedCountAt 0 = 0 ∧ h1.weakCountAt 0 = blkd.weak_count_ ∧
        h1.deleterCalls 0 = Heap.deleterCalls [sampleBlock] 0 + 1 ∧
        (h1.deletedCount 0 = 1 ↔ blkd.weak_count_ = 0) ∧
        (h1.block 0 = none ↔ blkd.weak_count_ = 0)) ∧
    ((Heap.block [sampleBlock2] 0 = some sampleBlock2 ∧
        sampleBlock2.shared_count_ < SIZE_MOD ∧ sampleBlock2.SelfRefOk 0 ∧
        2 ≤ sampleBlock2.shared_count_) ∧
      ∃ h1, ControlBlock.DecrementSharedCount [sampleBlock2] 0 = some h1 ∧
        h1 = [sampleBlock2].set 0
          { sampleBlock2 with shared_count_ := sampleBlock2.shared_count_ - 1 } ∧
        h1.block 0 =
          some { sampleBlock2 with shared_count_ := sampleBlock2.shared_count_ - 1 } ∧
        h1.deleterCalls 0 = Heap.deleterCalls [sampleBlock2] 0 ∧ h1.deletedCount 0 = 0) :=
  ⟨⟨⟨by decide, by decide, by decide, rfl⟩,
      (decrement_shared_count_destroys_then_lowers_then_frees [sampleBlock] 0 sampleBlock
        (by decide) (by decide) (by decide)).1 rfl⟩,
    ⟨⟨by decide, by decide, by decide, by decide⟩,
      (decrement_shared_count_destroys_then_lowers_then_frees [sampleBlock2] 0 sampleBlock2
        (by decide) (by decide) (by decide)).2 (by decide)⟩⟩

/-! ## Decrements applied to a counter holding zero -/

/-- C21, the code at the input `{ auto h = MakeIntrusive<T>(); }`: a handle is
made and destroyed.  After `MakeIntrusive` the counter holds `1`.  The
destructor of the handle calls `DecRef()`, whose `--count_` returns `0`, so
`Destroy` deletes the object; the destructor `~RefCounted` then calls
`DecRef()` again, on the counter holding `0`, which wraps it to `2 ^ 64 - 1`.
So it is not the case that no decrement is ever applied to a counter holding
zero up to and including the destruction of the object. -/
theorem intrusive_destructor_decrements_zero_counter :
    IntrusiveWorld.start.validRun 2 [IntrusiveOp.make, IntrusiveOp.destroy 0] = true ∧
    IntrusiveWorld.start.run 2 [IntrusiveOp.make] =
      some { objs := [{ counter_ := { count_ := 1, wraps := 0 }, destroyed := 0 }],
             ptrs := [{ ptr_ := some 0 }] } ∧
    SimpleCounter.DecRef { count_ := 1, wraps := 0 } = (0, { count_ := 0, wraps := 0 }) ∧
    SimpleCounter.DecRef { count_ := 0, wraps := 0 } =
      (SIZE_MOD - 1, { count_ := SIZE_MOD - 1, wraps := 1 }) ∧
    DefaultDelete.Destroy 1 { counter_ := { count_ := 0, wraps := 0 }, destroyed := 0 } =
      some { counter_ := { count_ := SIZE_MOD - 1, wraps := 1 }, destroyed := 1 } ∧
    IntrusiveWorld.start.run 2 [IntrusiveOp.make, IntrusiveOp.destroy 0] =
      some { objs := [{ counter_ := { count_ := SIZE_MOD - 1, wraps := 1 }, destroyed := 1 }],
             ptrs := [IntrusivePtr.null] } ∧
    ¬ (∀ ops : List IntrusiveOp, IntrusiveWorld.start.validRun 2 ops = true →
        ∀ w1, IntrusiveWorld.start.run 2 ops = some w1 →
          ∀ obj ∈ w1.objs, obj.counter_.wraps = 0 ∧ obj.counter_.count_ ≠ SIZE_MOD - 1) := by
  have hrun : IntrusiveWorld.start.run 2 [IntrusiveOp.make, IntrusiveOp.destroy 0] =
      some { objs := [{ counter_ := { count_ := SIZE_MOD - 1, wraps := 1 }, destroyed := 1 }],
             ptrs := [IntrusivePtr.null] } := by decide
  refine ⟨by decide, by decide, by decide, by decide, by decide, hrun, ?_⟩
  intro hall
  have hobj := hall [IntrusiveOp.make, IntrusiveOp.destroy 0] (by decide) _ hrun
    { counter_ := { count_ := SIZE_MOD - 1, wraps := 1 }, destroyed := 1 }
    (List.mem_singleton.mpr rfl)
  exact absurd hobj.1 (by decide)

/-- C21 as amended: from the state with no object and no variable, run any
well-formed sequence of operations (the run returns with fuel at least two).
Every object that is alive in the state reached has never had a decrement
applied to its counter at zero, and its counter is the number of handles
holding it, at least `1`.  Every object that has been destroyed was destroyed
once and has had exactly one decrement applied at zero, which left the counter
at `2 ^ 64 - 1`.  That decrement is the one of `~RefCounted`: a `DecRef()` at
counter `c >= 2` applies none at zero and destroys nothing, and a `DecRef()` at
counter `1` decrements from `1` to `0`, then `Destroy` runs the destructor,
whose `DecRef()` is applied to the counter holding `0` and calls no second
`Destroy`. -/
theorem intrusive_counter_wraps_only_in_destructor (fuel : Nat) (ops : List IntrusiveOp)
    (hvalid : IntrusiveWorld.start.validRun (fuel + 2) ops = true) :
    (∃ w1, IntrusiveWorld.start.run (fuel + 2) ops = some w1 ∧
      ∀ (i : Nat) (obj : RefCountedObj), w1.objs[i]? = some obj →
        (obj.destroyed = 0 ∧ obj.counter_.wraps = 0 ∧
          obj.counter_.count_ = w1.holders i ∧ 1 ≤ obj.counter_.count_) ∨
        (obj.destroyed = 1 ∧ obj.counter_.wraps = 1 ∧
          obj.counter_.count_ = SIZE_MOD - 1 ∧ w1.holders i = 0)) ∧
    (∀ o : RefCountedObj, 2 ≤ o.counter_.count_ → o.counter_.count_ < SIZE_MOD →
      ∃ o1, RefCounted.DecRef (fuel + 2) o = some o1 ∧
        o1.counter_.wraps = o.counter_.wraps ∧ o1.destroyed = o.destroyed ∧
        o1.counter_.count_ = o.counter_.count_ - 1) ∧
    (∀ o : RefCountedObj, o.counter_.count_ = 1 →
      o.counter_.DecRef = (0, { count_ := 0, wraps := o.counter_.wraps }) ∧
      DefaultDelete.Destroy (fuel + 1)
          { o with counter_ := { count_ := 0, wraps := o.counter_.wraps } } =
        some { counter_ := { count_ := SIZE_MOD - 1, wraps := o.counter_.wraps + 1 },
               destroyed := o.destroyed + 1 } ∧
      RefCounted.DecRef (fuel + 2) o =
        DefaultDelete.Destroy (fuel + 1)
          { o with counter_ := { count_ := 0, wraps := o.counter_.wraps } }) := by
  have hd1 : decr 1 = 0 := by decide
  have hd0 : decr 0 = SIZE_MOD - 1 := by decide
  have hne : ¬ (SIZE_MOD - 1 = 0) := by decide
  refine ⟨?_, ?_, ?_⟩
  · obtain ⟨w1, hrun, hinv⟩ :=
      IntrusiveWorld.run_inv fuel ops IntrusiveWorld.start IntrusiveWorld.Inv.at_start hvalid
    refine ⟨w1, hrun, ?_⟩
    intro i obj hg
    rcases hinv.2.2 i obj hg with ⟨hd, hh, hc⟩ | ⟨hd, hh, hc⟩
    · refine Or.inl ⟨hd, by rw [hc], by rw [hc], ?_⟩
      rw [hc]
      exact hh
    · exact Or.inr ⟨hd, by rw [hc], by rw [hc], hh⟩
  · intro o h2 hlt
    refine ⟨_, RefCounted.DecRef_ge_two (fuel + 1) h2 hlt, rfl, rfl, rfl⟩
  · intro o h1
    have hdestroy : DefaultDelete.Destroy (fuel + 1)
          { o with counter_ := { count_ := 0, wraps := o.counter_.wraps } } =
        some { counter_ := { count_ := SIZE_MOD - 1, wraps := o.counter_.wraps + 1 },
               destroyed := o.destroyed + 1 } := by
      simp [DefaultDelete.Destroy, RefCounted.DecRef, SimpleCounter.DecRef, hd0, hne]
    refine ⟨?_, hdestroy, ?_⟩
    · simp [SimpleCounter.DecRef, h1, hd1]
    · rw [hdestroy]
      exact RefCounted.DecRef_one fuel h1

/-- C21 as amended, at a concrete input: an object made, copied and released by
both its handles. -/
theorem intrusive_counter_wraps_only_in_destructor_witness :
    IntrusiveWorld.start.validRun (0 + 2)
        [IntrusiveOp.make, IntrusiveOp.copy 0, IntrusiveOp.reset 0, IntrusiveOp.destroy 1]
        = true ∧
    ((∃ w1, IntrusiveWorld.start.run (0 + 2)
        [IntrusiveOp.make, IntrusiveOp.copy 0, IntrusiveOp.reset 0, IntrusiveOp.destroy 1]
        = some w1 ∧
      ∀ (i : Nat) (obj : RefCountedObj), w1.objs[i]? = some obj →
        (obj.destroyed = 0 ∧ obj.counter_.wraps = 0 ∧
          obj.counter_.count_ = w1.holders i ∧ 1 ≤ obj.counter_.count_) ∨
        (obj.destroyed = 1 ∧ obj.counter_.wraps = 1 ∧
          obj.counter_.count_ = SIZE_MOD - 1 ∧ w1.holders i = 0)) ∧
    (∀ o : RefCountedObj, 2 ≤ o.counter_.count_ → o.counter_.count_ < SIZE_MOD →
      ∃ o1, RefCounted.DecRef (0 + 2) o = some o1 ∧
        o1.counter_.wraps = o.counter_.wraps ∧ o1.destroyed = o.destroyed ∧
        o1.counter_.count_ = o.counter_.count_ - 1) ∧
    (∀ o : RefCountedObj, o.counter_.count_ = 1 →
      o.counter_.DecRef = (0, { count_ := 0, wraps := o.counter_.wraps }) ∧
      DefaultDelete.Destroy (0 + 1)
          { o with counter_ := { count_ := 0, wraps := o.counter_.wraps } } =
        some { counter_ := { count_ := SIZE_MOD - 1, wraps := o.counter_.wraps + 1 },
               destroyed := o.destroyed + 1 } ∧
      RefCounted.DecRef (0 + 2) o =
        DefaultDelete.Destroy (0 + 1)
          { o with counter_ := { count_ := 0, wraps := o.counter_.wraps } })) :=
  ⟨by decide,
    intrusive_counter_wraps_only_in_destructor 0
      [IntrusiveOp.make, IntrusiveOp.copy 0, IntrusiveOp.reset 0, IntrusiveOp.destroy 1]
      (by decide)⟩

/-! ## Counting the handles of a block -/

theorem refs_set {l : List (Option Nat)} {i : Nat} {old : Option Nat}
    (a : Option Nat) (c : Nat) (hi : l[i]? = some old) :
    refs (l.set i a) c + (if old = some c then 1 else 0) =
      refs l c + (if a = some c then 1 else 0) := by
  obtain ⟨hlt, hget⟩ := List.getElem?_eq_some.mp hi
  have hmem : old ∈ l := by
    rw [← hget]
    exact List.getElem_mem hlt
  have hpos : old = some c → 1 ≤ l.count (some c) := by
    intro h1
    rw [← h1]
    exact List.count_pos_iff.mpr hmem
  simp only [refs]
  rw [List.count_set a (some c) l i hlt, hget]
  by_cases h1 : old = some c
  · have h2 := hpos h1
    by_cases h3 : a = some c <;> simp [h1, h3] <;> omega
  · by_cases h3 : a = some c <;> simp [h1, h3]

theorem refs_append (l : List (Option Nat)) (a : Option Nat) (c : Nat) :
    refs (l ++ [a]) c = refs l c + (if a = some c then 1 else 0) := by
  simp only [refs, List.count_append, List.count_singleton]
  by_cases h : a = some c <;> simp [h]

theorem refs_le_length (l : List (Option Nat)) (c : Nat) : refs l c ≤ l.length :=
  List.count_le_length _ _

theorem refs_pos_of_get {l : List (Option Nat)} {i c : Nat} (hi : l[i]? = some (some c)) :
    0 < refs l c := by
  obtain ⟨hlt, hget⟩ := List.getElem?_eq_some.mp hi
  have hmem : some c ∈ l := by
    rw [← hget]
    exact List.getElem_mem hlt
  exact List.count_pos_iff.mpr hmem

theorem SharedPtr.block_get_map {l : List SharedPtr} {i : Nat} {a : SharedPtr} (hi : l[i]? = some a) :
    (l.map SharedPtr.control_block_)[i]? = some a.control_block_ := by
  simp [List.getElem?_map, hi]

theorem WeakPtr.weak_block_get_map {l : List WeakPtr} {i : Nat} {a : WeakPtr} (hi : l[i]? = some a) :
    (l.map WeakPtr.control_block_)[i]? = some a.control_block_ := by
  simp [List.getElem?_map, hi]

/-! ## One counter operation on a counted block -/

/-- The function `DecrementSharedCount` on a block counted by `s + 1` strong handles leaves
it counted by `s`; only this block is written. -/
theorem ControlBlock.Counted.block_dec_shared {h : Heap} {b s w : Nat} {blk : ControlBlock}
    (hb : h[b]? = some blk) (hc : blk.Counted b (s + 1) w)
    (hlt : s + 1 < SIZE_MOD) (hwlt : w + 1 < SIZE_MOD) :
    ∃ blk1, ControlBlock.DecrementSharedCount h b = some (h.set b blk1) ∧
      blk1.Counted b s w := by
  obtain ⟨hs, hw, hdel, hok, _⟩ := hc
  have hd : blk.deleted = 0 := by simpa using hdel
  by_cases hs0 : s = 0
  · subst hs0
    have hs1 : blk.shared_count_ = 1 := by simpa using hs
    cases hwired : blk.wired b with
    | true =>
      have hew : blk.payload.esft = true ∧ blk.payload.weak_this_.control_block_ = some b := by
        simpa [ControlBlock.wired] using hwired
      have hw1 : blk.weak_count_ = w + 1 := by simpa [hwired] using hw
      have hdw : decr blk.weak_count_ = w := by
        rw [decr_pos (by omega) (by omega)]; omega
      rw [ControlBlock.DecrementSharedCount_one_wired hb hd hs1 hew.1 hew.2]
      refine ⟨_, rfl, rfl, ?_, ?_, ?_, ?_⟩
      · simp [ControlBlock.wired, hdw]
      · simp [hdw]
      · intro _
        exact Or.inl rfl
      · intro _
        simp [ControlBlock.wired]
    | false =>
      have hp : blk.payload.esft = false ∨ blk.payload.weak_this_.control_block_ = none := by
        cases he : blk.payload.esft with
        | false => exact Or.inl rfl
        | true =>
          right
          cases hok he with
          | inl h1 => exact h1
          | inr h2 => simp [ControlBlock.wired, he, h2] at hwired
      have hw0 : blk.weak_count_ = w := by simpa [hwired] using hw
      rw [ControlBlock.DecrementSharedCount_one_plain hb hd hs1 hp]
      refine ⟨_, rfl, rfl, ?_, ?_, ?_, ?_⟩
      · have hwf : ControlBlock.wired b { blk with
            shared_count_ := 0, deleter_calls := blk.deleter_calls + 1,
            deleted := if blk.weak_count_ = 0 then 1 else 0 } = false := hwired
        rw [hwf]
        simpa using hw0
      · simp [hw0]
      · exact hok
      · intro _
        exact hwired
  · have hne : blk.shared_count_ ≠ 1 := by omega
    have hdec : decr blk.shared_count_ = s := by
      rw [decr_pos (by omega) (by omega)]; omega
    rw [ControlBlock.DecrementSharedCount_ne_one hb hd hne]
    refine ⟨_, rfl, hdec, ?_, ?_, ?_, ?_⟩
    · exact hw
    · simp [hdec, hs0]
    · exact hok
    · intro h0
      exact absurd h0 hs0

/-- The function `DecrementWeakCount` on a block counted by `w + 1` weak handles leaves it
counted by `w`; only this block is written. -/
theorem ControlBlock.Counted.block_dec_weak {h : Heap} {b s w : Nat} {blk : ControlBlock}
    (hb : h[b]? = some blk) (hc : blk.Counted b s (w + 1)) (hwlt : w + 2 < SIZE_MOD) :
    ∃ blk1, ControlBlock.DecrementWeakCount h b = some (h.set b blk1) ∧
      blk1.Counted b s w := by
  obtain ⟨hs, hw, hdel, hok, hgone⟩ := hc
  have hd : blk.deleted = 0 := by simpa using hdel
  have hdw : decr blk.weak_count_ = w + (if blk.wired b = true then 1 else 0) := by
    rw [decr_pos (by omega) (by split at hw <;> omega)]; omega
  rw [ControlBlock.DecrementWeakCount_eq hb hd]
  refine ⟨_, rfl, hs, hdw, ?_, hok, hgone⟩
  simp only []
  rw [hdw, hs]
  by_cases hs0 : s = 0
  · have hwf := hgone hs0
    simp [hs0, hwf]
  · rw [if_neg (fun hc => hs0 hc.2), if_neg (fun hc => hs0 hc.1)]

/-- The function `IncrementSharedCount` on a block counted by `s >= 1` strong handles
leaves it counted by `s + 1`; only this block is written. -/
theorem ControlBlock.Counted.block_inc_shared {h : Heap} {b s w : Nat} {blk : ControlBlock}
    (hb : h[b]? = some blk) (hc : blk.Counted b s w) (hpos : 0 < s)
    (hlt : s + 1 < SIZE_MOD) :
    ∃ blk1, ControlBlock.IncrementSharedCount h b = some (h.set b blk1) ∧
      blk1.Counted b (s + 1) w := by
  obtain ⟨hs, hw, hdel, hok, _⟩ := hc
  have hne : s ≠ 0 := by omega
  have hd : blk.deleted = 0 := by simpa [hne] using hdel
  have hinc : incr blk.shared_count_ = s + 1 := by rw [hs]; exact incr_lt hlt
  rw [ControlBlock.IncrementSharedCount_eq hb hd]
  refine ⟨_, rfl, hinc, hw, ?_, hok, ?_⟩
  · simpa using hd
  · intro h0
    omega

/-- The function `IncrementWeakCount` on an allocated counted block leaves it counted by
one more weak handle; only this block is written. -/
theorem ControlBlock.Counted.block_inc_weak {h : Heap} {b s w : Nat} {blk : ControlBlock}
    (hb : h[b]? = some blk) (hc : blk.Counted b s w) (hlive : 0 < s ∨ 0 < w)
    (hwlt : w + 2 < SIZE_MOD) :
    ∃ blk1, ControlBlock.IncrementWeakCount h b = some (h.set b blk1) ∧
      blk1.Counted b s (w + 1) := by
  obtain ⟨hs, hw, hdel, hok, hgone⟩ := hc
  have hd : blk.deleted = 0 := by
    rw [hdel, if_neg]
    omega
  have hinc : incr blk.weak_count_ = blk.weak_count_ + 1 :=
    incr_lt (by split at hw <;> omega)
  rw [ControlBlock.IncrementWeakCount_eq hb hd]
  refine ⟨_, rfl, hs, ?_, ?_, hok, hgone⟩
  · simp only []
    rw [hinc]
    have hw1 : blk.weak_count_ = w + (if ControlBlock.wired b blk = true then 1 else 0) := hw
    simp only [ControlBlock.wired] at hw1 ⊢
    omega
  · simpa using hd

/-! ## One counter operation on a counted memory -/

theorem Heap.Counts.congr {h : Heap} {S W S1 W1 : Nat → Nat} (hc : h.Counts S W)
    (hS : ∀ c, S1 c = S c) (hW : ∀ c, W1 c = W c) : h.Counts S1 W1 := by
  have e1 : S1 = S := funext hS
  have e2 : W1 = W := funext hW
  rw [e1, e2]
  exact hc

/-- A block that some handle refers to is allocated. -/
theorem Heap.Counts.lookup {h : Heap} {S W : Nat → Nat} {b : Nat} (hc : h.Counts S W)
    (hlive : 0 < S b ∨ 0 < W b) :
    ∃ blk, h[b]? = some blk ∧ blk.Counted b (S b) (W b) ∧ blk.deleted = 0 := by
  have hlt : b < h.length := by
    by_contra hge
    have h0 := hc.1 b (Nat.le_of_not_lt hge)
    omega
  have hg : h[b]? = some h[b] := List.getElem?_eq_getElem hlt
  have hcnt := hc.2 b h[b] hg
  refine ⟨h[b], hg, hcnt, ?_⟩
  rw [hcnt.2.2.1, if_neg]
  omega

theorem Heap.Counts.write {h : Heap} {S W S1 W1 : Nat → Nat} {b : Nat} {blk blk1 : ControlBlock}
    (hc : h.Counts S W) (hb : h[b]? = some blk) (h1 : blk1.Counted b (S1 b) (W1 b))
    (hS : ∀ c, c ≠ b → S1 c = S c) (hW : ∀ c, c ≠ b → W1 c = W c) :
    Heap.Counts (h.set b blk1) S1 W1 := by
  have hblt := Heap.lt_length_of_get hb
  unfold Heap.Counts
  constructor
  · intro c hge
    rw [List.length_set] at hge
    have hne : c ≠ b := by omega
    rw [hS c hne, hW c hne]
    exact hc.1 c hge
  · intro c blk2 hg
    by_cases hcb : c = b
    · subst hcb
      rw [Heap.get_set_same blk1 hb] at hg
      rw [← Option.some.inj hg]
      exact h1
    · rw [Heap.get_set_other h blk1 (fun e => hcb e.symm)] at hg
      rw [hS c hcb, hW c hcb]
      exact hc.2 c blk2 hg

theorem Heap.Counts.dec_shared {h : Heap} {S W : Nat → Nat} (S1 : Nat → Nat) {b : Nat}
    (hc : h.Counts S W)
    (hpos : 0 < S b) (hlt : S b < SIZE_MOD) (hwlt : W b + 1 < SIZE_MOD)
    (hS : ∀ c, S1 c + (if c = b then 1 else 0) = S c) :
    ∃ h1, ControlBlock.DecrementSharedCount h b = some h1 ∧ h1.Counts S1 W := by
  obtain ⟨blk, hb, hcnt, _⟩ := hc.lookup (Or.inl hpos)
  have hSb := hS b
  simp only [if_true] at hSb
  rw [← hSb] at hcnt
  obtain ⟨blk1, hr, hcnt1⟩ := ControlBlock.Counted.block_dec_shared hb hcnt (by omega) hwlt
  refine ⟨_, hr, hc.write hb hcnt1 ?_ (fun _ _ => rfl)⟩
  intro c hne
  have := hS c
  simp only [hne, if_false] at this
  exact this

theorem Heap.Counts.dec_weak {h : Heap} {S W : Nat → Nat} (W1 : Nat → Nat) {b : Nat}
    (hc : h.Counts S W)
    (hpos : 0 < W b) (hwlt : W b + 1 < SIZE_MOD)
    (hW : ∀ c, W1 c + (if c = b then 1 else 0) = W c) :
    ∃ h1, ControlBlock.DecrementWeakCount h b = some h1 ∧ h1.Counts S W1 := by
  obtain ⟨blk, hb, hcnt, _⟩ := hc.lookup (Or.inr hpos)
  have hWb := hW b
  simp only [if_true] at hWb
  rw [← hWb] at hcnt
  obtain ⟨blk1, hr, hcnt1⟩ := ControlBlock.Counted.block_dec_weak hb hcnt (by omega)
  refine ⟨_, hr, hc.write hb hcnt1 (fun _ _ => rfl) ?_⟩
  intro c hne
  have := hW c
  simp only [hne, if_false] at this
  exact this

theorem Heap.Counts.inc_shared {h : Heap} {S W : Nat → Nat} (S1 : Nat → Nat) {b : Nat}
    (hc : h.Counts S W)
    (hpos : 0 < S b) (hlt : S b + 1 < SIZE_MOD)
    (hS : ∀ c, S1 c = S c + (if c = b then 1 else 0)) :
    ∃ h1, ControlBlock.IncrementSharedCount h b = some h1 ∧ h1.Counts S1 W := by
  obtain ⟨blk, hb, hcnt, _⟩ := hc.lookup (Or.inl hpos)
  obtain ⟨blk1, hr, hcnt1⟩ := ControlBlock.Counted.block_inc_shared hb hcnt hpos hlt
  have hSb := hS b
  simp only [if_true] at hSb
  rw [← hSb] at hcnt1
  refine ⟨_, hr, hc.write hb hcnt1 ?_ (fun _ _ => rfl)⟩
  intro c hne
  have := hS c
  simp only [hne, if_false] at this
  exact this

theorem Heap.Counts.inc_weak {h : Heap} {S W : Nat → Nat} (W1 : Nat → Nat) {b : Nat}
    (hc : h.Counts S W)
    (hlive : 0 < S b ∨ 0 < W b) (hwlt : W b + 2 < SIZE_MOD)
    (hW : ∀ c, W1 c = W c + (if c = b then 1 else 0)) :
    ∃ h1, ControlBlock.IncrementWeakCount h b = some h1 ∧ h1.Counts S W1 := by
  obtain ⟨blk, hb, hcnt, _⟩ := hc.lookup hlive
  obtain ⟨blk1, hr, hcnt1⟩ := ControlBlock.Counted.block_inc_weak hb hcnt hlive hwlt
  have hWb := hW b
  simp only [if_true] at hWb
  rw [← hWb] at hcnt1
  refine ⟨_, hr, hc.write hb hcnt1 (fun _ _ => rfl) ?_⟩
  intro c hne
  have := hW c
  simp only [hne, if_false] at this
  exact this

/-- A new block with one strong handle. -/
theorem Heap.Counts.alloc {h : Heap} {S W S1 : Nat → Nat} {blk : ControlBlock}
    (hc : h.Counts S W) (hnew : blk.Counted h.length 1 0)
    (hS : ∀ c, S1 c = S c + (if c = h.length then 1 else 0)) :
    Heap.Counts (h ++ [blk]) S1 W := by
  have h0 := hc.1 h.length (Nat.le_refl _)
  unfold Heap.Counts
  constructor
  · intro c hge
    simp only [List.length_append, List.length_singleton] at hge
    have hne : c ≠ h.length := by omega
    have h1 := hc.1 c (by omega)
    rw [hS c]
    simp only [hne, if_false]
    omega
  · intro c blk2 hg
    by_cases hlt : c < h.length
    · rw [List.getElem?_append_left hlt] at hg
      have hne : c ≠ h.length := by omega
      rw [hS c]
      simp only [hne, if_false, Nat.add_zero]
      exact hc.2 c blk2 hg
    · by_cases heq : c = h.length
      · subst heq
        simp only [List.getElem?_concat_length, Option.some.injEq] at hg
        rw [hS, h0.1, h0.2, ← hg]
        simpa using hnew
      · have hgt : h.length < c := by omega
        have hnone : (h ++ [blk])[c]? = none := by
          apply List.getElem?_eq_none
          simp only [List.length_append, List.length_singleton]
          omega
        rw [hnone] at hg
        exact Option.noConfusion hg

/-! ## The invariant under release, acquisition and transfer of handles -/

/-- The invariant depends on the variables only through their numbers and the
numbers of handles of each block. -/
theorem FamilyWorld.Inv.recount {heap : Heap} {shared shared1 : List SharedPtr}
    {weak weak1 : List WeakPtr}
    (hinv : FamilyWorld.Inv { heap := heap, shared := shared, weak := weak })
    (hlen : shared1.length + 2 < SIZE_MOD) (hwlen : weak1.length + 2 < SIZE_MOD)
    (hcnt : ∀ c, refs (shared1.map SharedPtr.control_block_) c =
      refs (shared.map SharedPtr.control_block_) c)
    (hwcnt : ∀ c, refs (weak1.map WeakPtr.control_block_) c =
      refs (weak.map WeakPtr.control_block_) c) :
    FamilyWorld.Inv { heap := heap, shared := shared1, weak := weak1 } :=
  ⟨hlen, hwlen, Heap.Counts.congr hinv.2.2 hcnt hwcnt⟩

/-- The function `SharedPtr.DecreaseCount` for a variable of the state: it returns, and the
invariant holds for any variables that count one handle less on its block. -/
theorem FamilyWorld.Inv.release_shared {heap : Heap} {shared shared1 : List SharedPtr}
    {weak : List WeakPtr} {i : Nat} {a : SharedPtr}
    (hinv : FamilyWorld.Inv { heap := heap, shared := shared, weak := weak })
    (hi : shared[i]? = some a) (hlen : shared1.length = shared.length)
    (hcnt : ∀ c, refs (shared1.map SharedPtr.control_block_) c +
        (if a.control_block_ = some c then 1 else 0) =
      refs (shared.map SharedPtr.control_block_) c) :
    ∃ h1, SharedPtr.DecreaseCount heap a = some h1 ∧
      FamilyWorld.Inv { heap := h1, shared := shared1, weak := weak } := by
  obtain ⟨hl, hwl, hc⟩ := hinv
  have hl1 : shared.length + 2 < SIZE_MOD := hl
  have hwl1 : weak.length + 2 < SIZE_MOD := hwl
  cases hcb : a.control_block_ with
  | none =>
    refine ⟨heap, by simp [SharedPtr.DecreaseCount, hcb], by rw [hlen]; exact hl, hwl, ?_⟩
    refine Heap.Counts.congr hc ?_ (fun _ => rfl)
    intro c
    have := hcnt c
    simp only [hcb] at this
    simpa using this
  | some b =>
    have hget := SharedPtr.block_get_map hi
    rw [hcb] at hget
    have hpos := refs_pos_of_get hget
    have hle := refs_le_length (shared.map SharedPtr.control_block_) b
    have hwle := refs_le_length (weak.map WeakPtr.control_block_) b
    simp only [List.length_map] at hle hwle
    obtain ⟨h1, hr, hc1⟩ := Heap.Counts.dec_shared
      (fun c => refs (shared1.map SharedPtr.control_block_) c) hc hpos
      (by simp only [FamilyWorld.strongRefs]; omega)
      (by simp only [FamilyWorld.weakRefs]; omega)
      (by
        intro c
        have := hcnt c
        simp only [hcb, Option.some.injEq] at this
        simp only [FamilyWorld.strongRefs]
        by_cases hcc : c = b
        · subst hcc
          simpa using this
        · have hne : ¬ b = c := fun e => hcc e.symm
          simpa [hcc, hne] using this)
    exact ⟨h1, by simp [SharedPtr.DecreaseCount, hcb, hr], by rw [hlen]; exact hl, hwl, hc1⟩

/-- The function `SharedPtr.IncreaseCount` for a handle on a block that a variable of the state
refers to (or on no block): it returns, and the invariant holds for any
variables that count one handle more on that block. -/
theorem FamilyWorld.Inv.acquire_shared {heap : Heap} {shared shared1 : List SharedPtr}
    {weak : List WeakPtr} (t : Option Nat) (p : Nat)
    (hinv : FamilyWorld.Inv { heap := heap, shared := shared, weak := weak })
    (hheld : ∀ b, t = some b → 0 < refs (shared.map SharedPtr.control_block_) b)
    (hlen : shared1.length + 2 < SIZE_MOD)
    (hcnt : ∀ c, refs (shared1.map SharedPtr.control_block_) c =
      refs (shared.map SharedPtr.control_block_) c + (if t = some c then 1 else 0)) :
    ∃ h1, SharedPtr.IncreaseCount heap { control_block_ := t, ptr_ := p } = some h1 ∧
      FamilyWorld.Inv { heap := h1, shared := shared1, weak := weak } := by
  obtain ⟨hl, hwl, hc⟩ := hinv
  have hl1 : shared.length + 2 < SIZE_MOD := hl
  cases t with
  | none =>
    refine ⟨heap, by simp [SharedPtr.IncreaseCount], hlen, hwl, ?_⟩
    refine Heap.Counts.congr hc ?_ (fun _ => rfl)
    intro c
    simpa using hcnt c
  | some b =>
    have hpos := hheld b rfl
    have hle := refs_le_length (shared.map SharedPtr.control_block_) b
    simp only [List.length_map] at hle
    obtain ⟨h1, hr, hc1⟩ := Heap.Counts.inc_shared
      (fun c => refs (shared1.map SharedPtr.control_block_) c) hc hpos
      (by simp only [FamilyWorld.strongRefs]; omega)
      (by
        intro c
        have := hcnt c
        simp only [Option.some.injEq] at this
        simp only [FamilyWorld.strongRefs]
        by_cases hcc : c = b
        · subst hcc
          simpa using this
        · have hne : ¬ b = c := fun e => hcc e.symm
          simpa [hcc, hne] using this)
    exact ⟨h1, by simp [SharedPtr.IncreaseCount, hr], hlen, hwl, hc1⟩

/-- The function `WeakPtr.DecreaseCount` for a variable of the state: it returns, and the
invariant holds for any variables that count one weak handle less on its
block. -/
theorem FamilyWorld.Inv.release_weak_var {heap : Heap} {shared : List SharedPtr}
    {weak weak1 : List WeakPtr} {k : Nat} {x : WeakPtr}
    (hinv : FamilyWorld.Inv { heap := heap, shared := shared, weak := weak })
    (hk : weak[k]? = some x) (hlen : weak1.length = weak.length)
    (hcnt : ∀ c, refs (weak1.map WeakPtr.control_block_) c +
        (if x.control_block_ = some c then 1 else 0) =
      refs (weak.map WeakPtr.control_block_) c) :
    ∃ h1, WeakPtr.DecreaseCount heap x = some h1 ∧
      FamilyWorld.Inv { heap := h1, shared := shared, weak := weak1 } := by
  obtain ⟨hl, hwl, hc⟩ := hinv
  have hwl1 : weak.length + 2 < SIZE_MOD := hwl
  cases hcb : x.control_block_ with
  | none =>
    refine ⟨heap, by simp [WeakPtr.DecreaseCount, hcb], hl, by rw [hlen]; exact hwl, ?_⟩
    refine Heap.Counts.congr hc (fun _ => rfl) ?_
    intro c
    have := hcnt c
    simp only [hcb] at this
    simpa using this
  | some b =>
    have hget := WeakPtr.weak_block_get_map hk
    rw [hcb] at hget
    have hpos := refs_pos_of_get hget
    have hwle := refs_le_length (weak.map WeakPtr.control_block_) b
    simp only [List.length_map] at hwle
    obtain ⟨h1, hr, hc1⟩ := Heap.Counts.dec_weak
      (fun c => refs (weak1.map WeakPtr.control_block_) c) hc hpos
      (by simp only [FamilyWorld.weakRefs]; omega)
      (by
        intro c
        have := hcnt c
        simp only [hcb, Option.some.injEq] at this
        simp only [FamilyWorld.weakRefs]
        by_cases hcc : c = b
        · subst hcc
          simpa using this
        · have hne : ¬ b = c := fun e => hcc e.symm
          simpa [hcc, hne] using this)
    exact ⟨h1, by simp [WeakPtr.DecreaseCount, hcb, hr], hl, by rw [hlen]; exact hwl, hc1⟩

/-- The function `WeakPtr.IncreaseCount` for a handle on a block that a variable of the state
refers to (or on no block): it returns, and the invariant holds for any
variables that count one weak handle more on that block. -/
theorem FamilyWorld.Inv.acquire_weak {heap : Heap} {shared : List SharedPtr}
    {weak weak1 : List WeakPtr} (t : Option Nat) (p : Nat)
    (hinv : FamilyWorld.Inv { heap := heap, shared := shared, weak := weak })
    (hheld : ∀ b, t = some b → 0 < refs (shared.map SharedPtr.control_block_) b ∨
      0 < refs (weak.map WeakPtr.control_block_) b)
    (hlen : weak1.length + 2 < SIZE_MOD)
    (hcnt : ∀ c, refs (weak1.map WeakPtr.control_block_) c =
      refs (weak.map WeakPtr.control_block_) c + (if t = some c then 1 else 0)) :
    ∃ h1, WeakPtr.IncreaseCount heap { control_block_ := t, ptr_ := p } = some h1 ∧
      FamilyWorld.Inv { heap := h1, shared := shared, weak := weak1 } := by
  obtain ⟨hl, hwl, hc⟩ := hinv
  have hwl1 : weak.length + 2 < SIZE_MOD := hwl
  cases t with
  | none =>
    refine ⟨heap, by simp [WeakPtr.IncreaseCount], hl, hlen, ?_⟩
    refine Heap.Counts.congr hc (fun _ => rfl) ?_
    intro c
    simpa using hcnt c
  | some b =>
    have hlive := hheld b rfl
    have hwle := refs_le_length (weak.map WeakPtr.control_block_) b
    simp only [List.length_map] at hwle
    have hb1 := hcnt b
    simp only [if_true] at hb1
    have hwle1 := refs_le_length (weak1.map WeakPtr.control_block_) b
    simp only [List.length_map] at hwle1
    obtain ⟨h1, hr, hc1⟩ := Heap.Counts.inc_weak
      (fun c => refs (weak1.map WeakPtr.control_block_) c) hc hlive
      (by simp only [FamilyWorld.weakRefs]; omega)
      (by
        intro c
        have := hcnt c
        simp only [Option.some.injEq] at this
        simp only [FamilyWorld.weakRefs]
        by_cases hcc : c = b
        · subst hcc
          simpa using this
        · have hne : ¬ b = c := fun e => hcc e.symm
          simpa [hcc, hne] using this)
    exact ⟨h1, by simp [WeakPtr.IncreaseCount, hr], hl, hlen, hc1⟩

/-- A new block with its first strong handle in a new variable. -/
theorem FamilyWorld.Inv.fresh {heap : Heap} {shared : List SharedPtr}
    {weak : List WeakPtr} {blk : ControlBlock} (p : Nat)
    (hinv : FamilyWorld.Inv { heap := heap, shared := shared, weak := weak })
    (hlen : shared.length + 3 < SIZE_MOD) (hnew : blk.Counted heap.length 1 0) :
    FamilyWorld.Inv
      { heap := heap ++ [blk],
        shared := shared ++ [{ control_block_ := some heap.length, ptr_ := p }],
        weak := weak } := by
  obtain ⟨_, hwl, hc⟩ := hinv
  refine ⟨by simp only [List.length_append, List.length_singleton]; omega, hwl, ?_⟩
  refine Heap.Counts.alloc hc hnew ?_
  intro c
  simp only [FamilyWorld.strongRefs, List.map_append, List.map_cons, List.map_nil, refs_append,
    Option.some.injEq]
  by_cases hcc : c = heap.length
  · simp [hcc]
  · have hne : ¬ heap.length = c := fun e => hcc e.symm
    simp [hcc, hne]

theorem FamilyWorld.Inv.at_empty : FamilyWorld.Inv FamilyWorld.start := by
  have h2 : (2 : Nat) < SIZE_MOD := by decide
  refine ⟨h2, h2, ?_, ?_⟩
  · intro b _
    exact ⟨rfl, rfl⟩
  · intro b blk hg
    simp [FamilyWorld.start] at hg

theorem ControlBlock.init_counted (b p : Nat) : (ControlBlock.init p false).Counted b 1 0 := by
  refine ⟨rfl, ?_, ?_, ?_, ?_⟩
  · simp [ControlBlock.init, ControlBlock.wired]
  · simp [ControlBlock.init]
  · intro he
    simp [ControlBlock.init] at he
  · intro h0
    omega

theorem ControlBlock.captured_counted (b p : Nat) : (ControlBlock.captured b p).Counted b 1 0 := by
  refine ⟨rfl, ?_, ?_, ?_, ?_⟩
  · simp [ControlBlock.captured, ControlBlock.wired]
  · simp [ControlBlock.captured]
  · intro _
    exact Or.inr rfl
  · intro h0
    omega

/-! ## The invariant under each operation on `SharedPtr` variables -/

theorem FamilyWorld.Inv.append_shared_none {heap : Heap} {shared : List SharedPtr}
    {weak : List WeakPtr} (x : SharedPtr)
    (hinv : FamilyWorld.Inv { heap := heap, shared := shared, weak := weak })
    (hlen : shared.length + 3 < SIZE_MOD) (hx : x.control_block_ = none) :
    FamilyWorld.Inv { heap := heap, shared := shared ++ [x], weak := weak } := by
  refine hinv.recount ?_ hinv.2.1 ?_ (fun _ => rfl)
  · simp only [List.length_append, List.length_singleton]
    omega
  · intro c
    simp [List.map_append, refs_append, hx]

theorem FamilyWorld.Inv.append_acquired {heap : Heap} {shared : List SharedPtr}
    {weak : List WeakPtr} (t : Option Nat) (p : Nat)
    (hinv : FamilyWorld.Inv { heap := heap, shared := shared, weak := weak })
    (hheld : ∀ b, t = some b → 0 < refs (shared.map SharedPtr.control_block_) b)
    (hlen : shared.length + 3 < SIZE_MOD) :
    ∃ h1, SharedPtr.IncreaseCount heap { control_block_ := t, ptr_ := p } = some h1 ∧
      FamilyWorld.Inv
        { heap := h1, shared := shared ++ [{ control_block_ := t, ptr_ := p }],
          weak := weak } := by
  refine hinv.acquire_shared t p hheld ?_ ?_
  · simp only [List.length_append, List.length_singleton]
    omega
  · intro c
    simp [List.map_append, refs_append]

theorem FamilyWorld.Inv.op_make {heap : Heap} {shared : List SharedPtr}
    {weak : List WeakPtr} (p : Nat) (e : Bool)
    (hinv : FamilyWorld.Inv { heap := heap, shared := shared, weak := weak })
    (hlen : shared.length + 3 < SIZE_MOD) (hp : e = true → p ≠ 0) :
    ∃ h1 s, MakeShared heap p e = some (h1, s) ∧ SharedPtr.ofRaw heap p e = some (h1, s) ∧
      FamilyWorld.Inv { heap := h1, shared := shared ++ [s], weak := weak } := by
  cases e with
  | false =>
    refine ⟨_, _, ?_, ?_, hinv.fresh p hlen (ControlBlock.init_counted heap.length p)⟩
    · simp [MakeShared]
    · simp [SharedPtr.ofRaw]
  | true =>
    exact ⟨_, _, MakeShared_esft heap p (hp rfl), SharedPtr.ofRaw_esft heap p (hp rfl),
      hinv.fresh p hlen (ControlBlock.captured_counted heap.length p)⟩

theorem FamilyWorld.Inv.op_copy {heap : Heap} {shared : List SharedPtr}
    {weak : List WeakPtr} {i : Nat} {a : SharedPtr}
    (hinv : FamilyWorld.Inv { heap := heap, shared := shared, weak := weak })
    (hi : shared[i]? = some a) (hlen : shared.length + 3 < SIZE_MOD) :
    ∃ h1 s, SharedPtr.copy heap a = some (h1, s) ∧
      FamilyWorld.Inv { heap := h1, shared := shared ++ [s], weak := weak } := by
  have hget := SharedPtr.block_get_map hi
  obtain ⟨h1, hr, hinv1⟩ := hinv.append_acquired a.control_block_ a.ptr_
    (fun b hb => refs_pos_of_get (by rw [← hb]; exact hget)) hlen
  exact ⟨h1, _, by simp only [SharedPtr.copy, hr], hinv1⟩

theorem FamilyWorld.Inv.op_move {heap : Heap} {shared : List SharedPtr}
    {weak : List WeakPtr} {i : Nat} {a : SharedPtr}
    (hinv : FamilyWorld.Inv { heap := heap, shared := shared, weak := weak })
    (hi : shared[i]? = some a) (hlen : shared.length + 3 < SIZE_MOD) :
    FamilyWorld.Inv
      { heap := heap,
        shared := shared.set i (SharedPtr.move a).2 ++ [(SharedPtr.move a).1],
        weak := weak } := by
  have hget := SharedPtr.block_get_map hi
  refine hinv.recount ?_ hinv.2.1 ?_ (fun _ => rfl)
  · simp only [List.length_append, List.length_singleton, List.length_set]
    omega
  · intro c
    have h1 := refs_set (none : Option Nat) c hget
    simp only [List.map_append, List.map_set, List.map_cons, List.map_nil, refs_append,
      SharedPtr.move]
    simp only [reduceCtorEq, if_false, Nat.add_zero] at h1
    exact h1

theorem FamilyWorld.Inv.op_reset {heap : Heap} {shared : List SharedPtr}
    {weak : List WeakPtr} {i : Nat} {a : SharedPtr}
    (hinv : FamilyWorld.Inv { heap := heap, shared := shared, weak := weak })
    (hi : shared[i]? = some a) :
    ∃ h1 a1, SharedPtr.Reset heap a = some (h1, a1) ∧
      FamilyWorld.Inv { heap := h1, shared := shared.set i a1, weak := weak } := by
  have hget := SharedPtr.block_get_map hi
  have hlen : (shared.set i ({ control_block_ := none, ptr_ := 0 } : SharedPtr)).length =
      shared.length := List.length_set _ _ _
  obtain ⟨h1, hr, hinv1⟩ := hinv.release_shared hi hlen (by
    intro c
    have h1 := refs_set (none : Option Nat) c hget
    simp only [reduceCtorEq, if_false, Nat.add_zero] at h1
    simp only [List.map_set]
    exact h1)
  exact ⟨h1, _, by simp only [SharedPtr.Reset, hr], hinv1⟩

theorem FamilyWorld.Inv.op_copy_assign {heap : Heap} {shared : List SharedPtr}
    {weak : List WeakPtr} {i j : Nat} {a b : SharedPtr}
    (hinv : FamilyWorld.Inv { heap := heap, shared := shared, weak := weak })
    (hi : shared[i]? = some a) (hj : shared[j]? = some b) (hij : i ≠ j) :
    ∃ h1 a1, SharedPtr.copyAssign heap a b = some (h1, a1) ∧
      FamilyWorld.Inv { heap := h1, shared := shared.set i a1, weak := weak } := by
  have hget := SharedPtr.block_get_map hi
  have hilt : i < shared.length := (List.getElem?_eq_some.mp hi).1
  have hlen : (shared.set i ({ control_block_ := none, ptr_ := 0 } : SharedPtr)).length =
      shared.length := List.length_set _ _ _
  obtain ⟨h1, hr, hinv1⟩ := hinv.release_shared hi hlen (by
    intro c
    have h1 := refs_set (none : Option Nat) c hget
    simp only [reduceCtorEq, if_false, Nat.add_zero] at h1
    simp only [List.map_set]
    exact h1)
  have hj1 : (shared.set i ({ control_block_ := none, ptr_ := 0 } : SharedPtr))[j]? = some b := by
    rw [List.getElem?_set_ne hij]
    exact hj
  have hi1 : ((shared.map SharedPtr.control_block_).set i none)[i]? = some none := by
    exact List.getElem?_set_self (by simp only [List.length_map]; exact hilt)
  have hlen2 : (shared.set i ({ control_block_ := b.control_block_, ptr_ := b.ptr_ } :
      SharedPtr)).length + 2 < SIZE_MOD := by
    rw [List.length_set]
    exact hinv.1
  obtain ⟨h2, hr2, hinv2⟩ := hinv1.acquire_shared b.control_block_ b.ptr_
    (fun c hc => refs_pos_of_get (by rw [← hc]; exact SharedPtr.block_get_map hj1)) hlen2 (by
    intro c
    have h1 := refs_set b.control_block_ c hi1
    simp only [reduceCtorEq, if_false, Nat.add_zero, List.set_set] at h1
    simp only [List.map_set]
    exact h1)
  exact ⟨h2, _, by simp only [SharedPtr.copyAssign, hr, hr2], hinv2⟩

theorem FamilyWorld.Inv.op_move_assign {heap : Heap} {shared : List SharedPtr}
    {weak : List WeakPtr} {i j : Nat} {a b : SharedPtr}
    (hinv : FamilyWorld.Inv { heap := heap, shared := shared, weak := weak })
    (hi : shared[i]? = some a) (hj : shared[j]? = some b) :
    ∃ h1 a1 b1, SharedPtr.moveAssign heap a b = some (h1, a1, b1) ∧
      FamilyWorld.Inv { heap := h1, shared := (shared.set i a1).set j b1, weak := weak } := by
  have hget := SharedPtr.block_get_map hi
  have hgetj := SharedPtr.block_get_map hj
  have hlen : ((shared.set i ({ control_block_ := b.control_block_, ptr_ := b.ptr_ } :
      SharedPtr)).set j ({ control_block_ := none, ptr_ := 0 } : SharedPtr)).length =
      shared.length := by
    simp only [List.length_set]
  obtain ⟨h1, hr, hinv1⟩ := hinv.release_shared hi hlen (by
    intro c
    simp only [List.map_set]
    by_cases hij : i = j
    · subst hij
      have h1 := refs_set (none : Option Nat) c hget
      simp only [reduceCtorEq, if_false, Nat.add_zero] at h1
      simp only [List.set_set]
      exact h1
    · have hj1 : ((shared.map SharedPtr.control_block_).set i b.control_block_)[j]? =
          some b.control_block_ := by
        rw [List.getElem?_set_ne hij]
        exact hgetj
      have h1 := refs_set (none : Option Nat) c hj1
      have h2 := refs_set b.control_block_ c hget
      simp only [reduceCtorEq, if_false, Nat.add_zero] at h1
      omega)
  exact ⟨h1, _, _, by simp only [SharedPtr.moveAssign, hr], hinv1⟩

theorem FamilyWorld.Inv.op_swap {heap : Heap} {shared : List SharedPtr}
    {weak : List WeakPtr} {i j : Nat} {a b : SharedPtr}
    (hinv : FamilyWorld.Inv { heap := heap, shared := shared, weak := weak })
    (hi : shared[i]? = some a) (hj : shared[j]? = some b) :
    FamilyWorld.Inv
      { heap := heap,
        shared := (shared.set i (SharedPtr.Swap a b).1).set j (SharedPtr.Swap a b).2,
        weak := weak } := by
  have hget := SharedPtr.block_get_map hi
  have hgetj := SharedPtr.block_get_map hj
  refine hinv.recount ?_ hinv.2.1 ?_ (fun _ => rfl)
  · simp only [List.length_set]
    exact hinv.1
  · intro c
    simp only [List.map_set, SharedPtr.Swap]
    by_cases hij : i = j
    · subst hij
      have hab : a = b := by
        rw [hi] at hj
        exact Option.some.inj hj
      have h1 := refs_set a.control_block_ c hget
      simp only [List.set_set]
      omega
    · have hj1 : ((shared.map SharedPtr.control_block_).set i b.control_block_)[j]? =
          some b.control_block_ := by
        rw [List.getElem?_set_ne hij]
        exact hgetj
      have h1 := refs_set a.control_block_ c hj1
      have h2 := refs_set b.control_block_ c hget
      omega

/-! ## Promotion and `Lock` -/

/-- Through a weak variable `UseCount()` is the number of strong variables on
its block. -/
theorem FamilyWorld.Inv.weak_use_count {heap : Heap} {shared : List SharedPtr}
    {weak : List WeakPtr} {k b : Nat} {x : WeakPtr}
    (hinv : FamilyWorld.Inv { heap := heap, shared := shared, weak := weak })
    (hk : weak[k]? = some x) (hb : x.control_block_ = some b) :
    WeakPtr.UseCount heap x = some (refs (shared.map SharedPtr.control_block_) b) := by
  have hget := WeakPtr.weak_block_get_map hk
  rw [hb] at hget
  obtain ⟨blk, hg, hcnt, hd⟩ := Heap.Counts.lookup hinv.2.2 (Or.inr (refs_pos_of_get hget))
  simp only [WeakPtr.UseCount, hb]
  rw [ControlBlock.GetSharedCount_eq hg hd, hcnt.1]
  rfl

theorem FamilyWorld.Inv.promote_live {heap : Heap} {shared : List SharedPtr}
    {weak : List WeakPtr} {k b : Nat} {x : WeakPtr}
    (hinv : FamilyWorld.Inv { heap := heap, shared := shared, weak := weak })
    (hk : weak[k]? = some x) (hb : x.control_block_ = some b)
    (hpos : 0 < refs (shared.map SharedPtr.control_block_) b)
    (hlen : shared.length + 3 < SIZE_MOD) :
    ∃ h1 s, SharedPtr.ofWeak heap x = some (h1, Except.ok s) ∧
      FamilyWorld.Inv { heap := h1, shared := shared ++ [s], weak := weak } := by
  have huse := hinv.weak_use_count hk hb
  have hne : refs (shared.map SharedPtr.control_block_) b ≠ 0 := by omega
  obtain ⟨h1, hr, hinv1⟩ := hinv.append_acquired x.control_block_ x.ptr_
    (fun c hc => by
      rw [hb] at hc
      rw [← Option.some.inj hc]
      exact hpos) hlen
  refine ⟨h1, _, ?_, hinv1⟩
  simp only [SharedPtr.ofWeak, WeakPtr.Expired, huse, hne, decide_False, hr]

theorem FamilyWorld.Inv.op_promote {heap : Heap} {shared : List SharedPtr}
    {weak : List WeakPtr} {k : Nat} {x : WeakPtr}
    (hinv : FamilyWorld.Inv { heap := heap, shared := shared, weak := weak })
    (hk : weak[k]? = some x) (hlen : shared.length + 3 < SIZE_MOD) :
    ∃ w1, FamilyWorld.declare { heap := heap, shared := shared, weak := weak }
        (SharedPtr.ofWeak heap x) = some w1 ∧ w1.Inv := by
  cases hb : x.control_block_ with
  | none =>
    refine ⟨{ heap := heap, shared := shared, weak := weak }, ?_, hinv⟩
    simp [SharedPtr.ofWeak, WeakPtr.Expired, WeakPtr.UseCount, hb, FamilyWorld.declare]
  | some b =>
    by_cases hz : refs (shared.map SharedPtr.control_block_) b = 0
    · refine ⟨{ heap := heap, shared := shared, weak := weak }, ?_, hinv⟩
      simp [SharedPtr.ofWeak, WeakPtr.Expired, hinv.weak_use_count hk hb, hz,
        FamilyWorld.declare]
    · obtain ⟨h1, s, hr, hinv1⟩ := hinv.promote_live hk hb (Nat.pos_of_ne_zero hz) hlen
      exact ⟨_, by simp only [hr, FamilyWorld.declare], hinv1⟩

theorem FamilyWorld.Inv.op_lock {heap : Heap} {shared : List SharedPtr}
    {weak : List WeakPtr} {k : Nat} {x : WeakPtr}
    (hinv : FamilyWorld.Inv { heap := heap, shared := shared, weak := weak })
    (hk : weak[k]? = some x) (hlen : shared.length + 3 < SIZE_MOD) :
    ∃ w1, FamilyWorld.declare { heap := heap, shared := shared, weak := weak }
        (WeakPtr.Lock heap x) = some w1 ∧ w1.Inv := by
  cases hb : x.control_block_ with
  | none =>
    refine ⟨_, ?_, hinv.append_shared_none SharedPtr.empty hlen rfl⟩
    simp [WeakPtr.Lock, hb, FamilyWorld.declare]
  | some b =>
    by_cases hz : refs (shared.map SharedPtr.control_block_) b = 0
    · refine ⟨_, ?_, hinv.append_shared_none SharedPtr.empty hlen rfl⟩
      simp [WeakPtr.Lock, hb, hinv.weak_use_count hk hb, hz, FamilyWorld.declare]
    · obtain ⟨h1, s, hr, hinv1⟩ := hinv.promote_live hk hb (Nat.pos_of_ne_zero hz) hlen
      refine ⟨_, ?_, hinv1⟩
      simp only [WeakPtr.Lock, hb, hinv.weak_use_count hk hb, ne_eq, hz, not_false_eq_true,
        if_true, hr, FamilyWorld.declare]

/-! ## The invariant under each operation on `WeakPtr` variables -/

theorem FamilyWorld.Inv.append_weak_none {heap : Heap} {shared : List SharedPtr}
    {weak : List WeakPtr} (x : WeakPtr)
    (hinv : FamilyWorld.Inv { heap := heap, shared := shared, weak := weak })
    (hlen : weak.length + 3 < SIZE_MOD) (hx : x.control_block_ = none) :
    FamilyWorld.Inv { heap := heap, shared := shared, weak := weak ++ [x] } := by
  refine hinv.recount hinv.1 ?_ (fun _ => rfl) ?_
  · simp only [List.length_append, List.length_singleton]
    omega
  · intro c
    simp [List.map_append, refs_append, hx]

theorem FamilyWorld.Inv.append_weak_acquired {heap : Heap} {shared : List SharedPtr}
    {weak : List WeakPtr} (t : Option Nat) (p : Nat)
    (hinv : FamilyWorld.Inv { heap := heap, shared := shared, weak := weak })
    (hheld : ∀ b, t = some b → 0 < refs (shared.map SharedPtr.control_block_) b ∨
      0 < refs (weak.map WeakPtr.control_block_) b)
    (hlen : weak.length + 3 < SIZE_MOD) :
    ∃ h1, WeakPtr.IncreaseCount heap { control_block_ := t, ptr_ := p } = some h1 ∧
      FamilyWorld.Inv
        { heap := h1, shared := shared,
          weak := weak ++ [{ control_block_ := t, ptr_ := p }] } := by
  refine hinv.acquire_weak t p hheld ?_ ?_
  · simp only [List.length_append, List.length_singleton]
    omega
  · intro c
    simp [List.map_append, refs_append]

theorem FamilyWorld.Inv.op_weak_of_shared {heap : Heap} {shared : List SharedPtr}
    {weak : List WeakPtr} {i : Nat} {a : SharedPtr}
    (hinv : FamilyWorld.Inv { heap := heap, shared := shared, weak := weak })
    (hi : shared[i]? = some a) (hlen : weak.length + 3 < SIZE_MOD) :
    ∃ h1 x, WeakPtr.ofShared heap a = some (h1, x) ∧
      FamilyWorld.Inv { heap := h1, shared := shared, weak := weak ++ [x] } := by
  have hget := SharedPtr.block_get_map hi
  obtain ⟨h1, hr, hinv1⟩ := hinv.append_weak_acquired a.control_block_ a.ptr_
    (fun b hb => Or.inl (refs_pos_of_get (by rw [← hb]; exact hget))) hlen
  exact ⟨h1, _, by simp only [WeakPtr.ofShared, hr], hinv1⟩

theorem FamilyWorld.Inv.op_weak_copy {heap : Heap} {shared : List SharedPtr}
    {weak : List WeakPtr} {k : Nat} {x : WeakPtr}
    (hinv : FamilyWorld.Inv { heap := heap, shared := shared, weak := weak })
    (hk : weak[k]? = some x) (hlen : weak.length + 3 < SIZE_MOD) :
    ∃ h1 x1, WeakPtr.copy heap x = some (h1, x1) ∧
      FamilyWorld.Inv { heap := h1, shared := shared, weak := weak ++ [x1] } := by
  have hget := WeakPtr.weak_block_get_map hk
  obtain ⟨h1, hr, hinv1⟩ := hinv.append_weak_acquired x.control_block_ x.ptr_
    (fun b hb => Or.inr (refs_pos_of_get (by rw [← hb]; exact hget))) hlen
  exact ⟨h1, _, by simp only [WeakPtr.copy, hr], hinv1⟩

theorem FamilyWorld.Inv.op_weak_move {heap : Heap} {shared : List SharedPtr}
    {weak : List WeakPtr} {k : Nat} {x : WeakPtr}
    (hinv : FamilyWorld.Inv { heap := heap, shared := shared, weak := weak })
    (hk : weak[k]? = some x) (hlen : weak.length + 3 < SIZE_MOD) :
    FamilyWorld.Inv
      { heap := heap, shared := shared,
        weak := weak.set k (WeakPtr.move x).2 ++ [(WeakPtr.move x).1] } := by
  have hget := WeakPtr.weak_block_get_map hk
  refine hinv.recount hinv.1 ?_ (fun _ => rfl) ?_
  · simp only [List.length_append, List.length_singleton, List.length_set]
    omega
  · intro c
    have h1 := refs_set (none : Option Nat) c hget
    simp only [List.map_append, List.map_set, List.map_cons, List.map_nil, refs_append,
      WeakPtr.move]
    simp only [reduceCtorEq, if_false, Nat.add_zero] at h1
    exact h1

theorem FamilyWorld.Inv.op_weak_reset {heap : Heap} {shared : List SharedPtr}
    {weak : List WeakPtr} {k : Nat} {x : WeakPtr}
    (hinv : FamilyWorld.Inv { heap := heap, shared := shared, weak := weak })
    (hk : weak[k]? = some x) :
    ∃ h1 x1, WeakPtr.Reset heap x = some (h1, x1) ∧
      FamilyWorld.Inv { heap := h1, shared := shared, weak := weak.set k x1 } := by
  have hget := WeakPtr.weak_block_get_map hk
  have hlen : (weak.set k ({ x with control_block_ := none } : WeakPtr)).length =
      weak.length := List.length_set _ _ _
  obtain ⟨h1, hr, hinv1⟩ := hinv.release_weak_var hk hlen (by
    intro c
    have h1 := refs_set (none : Option Nat) c hget
    simp only [reduceCtorEq, if_false, Nat.add_zero] at h1
    simp only [List.map_set]
    exact h1)
  exact ⟨h1, _, by simp only [WeakPtr.Reset, hr], hinv1⟩

theorem FamilyWorld.Inv.op_weak_copy_assign {heap : Heap} {shared : List SharedPtr}
    {weak : List WeakPtr} {k l : Nat} {x y : WeakPtr}
    (hinv : FamilyWorld.Inv { heap := heap, shared := shared, weak := weak })
    (hk : weak[k]? = some x) (hl : weak[l]? = some y) (hkl : k ≠ l) :
    ∃ h1 x1, WeakPtr.copyAssign heap x y = some (h1, x1) ∧
      FamilyWorld.Inv { heap := h1, shared := shared, weak := weak.set k x1 } := by
  have hget := WeakPtr.weak_block_get_map hk
  have hklt : k < weak.length := (List.getElem?_eq_some.mp hk).1
  have hlen : (weak.set k ({ control_block_ := none, ptr_ := 0 } : WeakPtr)).length =
      weak.length := List.length_set _ _ _
  obtain ⟨h1, hr, hinv1⟩ := hinv.release_weak_var hk hlen (by
    intro c
    have h1 := refs_set (none : Option Nat) c hget
    simp only [reduceCtorEq, if_false, Nat.add_zero] at h1
    simp only [List.map_set]
    exact h1)
  have hl1 : (weak.set k ({ control_block_ := none, ptr_ := 0 } : WeakPtr))[l]? = some y := by
    rw [List.getElem?_set_ne hkl]
    exact hl
  have hk1 : ((weak.map WeakPtr.control_block_).set k none)[k]? = some none :=
    List.getElem?_set_self (by simp only [List.length_map]; exact hklt)
  have hlen2 : (weak.set k ({ control_block_ := y.control_block_, ptr_ := y.ptr_ } :
      WeakPtr)).length + 2 < SIZE_MOD := by
    rw [List.length_set]
    exact hinv.2.1
  obtain ⟨h2, hr2, hinv2⟩ := hinv1.acquire_weak y.control_block_ y.ptr_
    (fun c hc => Or.inr (refs_pos_of_get (by rw [← hc]; exact WeakPtr.weak_block_get_map hl1)))
    hlen2 (by
    intro c
    have h1 := refs_set y.control_block_ c hk1
    simp only [reduceCtorEq, if_false, Nat.add_zero, List.set_set] at h1
    simp only [List.map_set]
    exact h1)
  exact ⟨h2, _, by simp only [WeakPtr.copyAssign, hr, hr2], hinv2⟩

theorem FamilyWorld.Inv.op_weak_move_assign {heap : Heap} {shared : List SharedPtr}
    {weak : List WeakPtr} {k l : Nat} {x y : WeakPtr}
    (hinv : FamilyWorld.Inv { heap := heap, shared := shared, weak := weak })
    (hk : weak[k]? = some x) (hl : weak[l]? = some y) :
    ∃ h1 x1 y1, WeakPtr.moveAssign heap x y = some (h1, x1, y1) ∧
      FamilyWorld.Inv { heap := h1, shared := shared, weak := (weak.set k x1).set l y1 } := by
  have hget := WeakPtr.weak_block_get_map hk
  have hgetl := WeakPtr.weak_block_get_map hl
  have hlen : ((weak.set k ({ control_block_ := y.control_block_, ptr_ := y.ptr_ } :
      WeakPtr)).set l ({ control_block_ := none, ptr_ := 0 } : WeakPtr)).length =
      weak.length := by
    simp only [List.length_set]
  obtain ⟨h1, hr, hinv1⟩ := hinv.release_weak_var hk hlen (by
    intro c
    simp only [List.map_set]
    by_cases hkl : k = l
    · subst hkl
      have h1 := refs_set (none : Option Nat) c hget
      simp only [reduceCtorEq, if_false, Nat.add_zero] at h1
      simp only [List.set_set]
      exact h1
    · have hl1 : ((weak.map WeakPtr.control_block_).set k y.control_block_)[l]? =
          some y.control_block_ := by
        rw [List.getElem?_set_ne hkl]
        exact hgetl
      have h1 := refs_set (none : Option Nat) c hl1
      have h2 := refs_set y.control_block_ c hget
      simp only [reduceCtorEq, if_false, Nat.add_zero] at h1
      omega)
  exact ⟨h1, _, _, by simp only [WeakPtr.moveAssign, hr], hinv1⟩

theorem FamilyWorld.Inv.op_weak_swap {heap : Heap} {shared : List SharedPtr}
    {weak : List WeakPtr} {k l : Nat} {x y : WeakPtr}
    (hinv : FamilyWorld.Inv { heap := heap, shared := shared, weak := weak })
    (hk : weak[k]? = some x) (hl : weak[l]? = some y) :
    FamilyWorld.Inv
      { heap := heap, shared := shared,
        weak := (weak.set k (WeakPtr.Swap x y).1).set l (WeakPtr.Swap x y).2 } := by
  have hget := WeakPtr.weak_block_get_map hk
  have hgetl := WeakPtr.weak_block_get_map hl
  refine hinv.recount hinv.1 ?_ (fun _ => rfl) ?_
  · simp only [List.length_set]
    exact hinv.2.1
  · intro c
    simp only [List.map_set, WeakPtr.Swap]
    by_cases hkl : k = l
    · subst hkl
      have hxy : x = y := by
        rw [hk] at hl
        exact Option.some.inj hl
      have h1 := refs_set x.control_block_ c hget
      simp only [List.set_set]
      omega
    · have hl1 : ((weak.map WeakPtr.control_block_).set k y.control_block_)[l]? =
          some y.control_block_ := by
        rw [List.getElem?_set_ne hkl]
        exact hgetl
      have h1 := refs_set x.control_block_ c hl1
      have h2 := refs_set y.control_block_ c hget
      omega

/-! ## Every well-formed operation returns and keeps the invariant -/

theorem FamilyWorld.step_keeps_inv {w : FamilyWorld} (hinv : w.Inv) (op : FamilyOp)
    (hv : op.valid w = true) : ∃ w1, w.step op = some w1 ∧ w1.Inv := by
  obtain ⟨heap, shared, weak⟩ := w
  cases op with
  | empty =>
    simp only [FamilyOp.valid, decide_eq_true_eq] at hv
    exact ⟨_, rfl, hinv.append_shared_none SharedPtr.empty hv rfl⟩
  | makeShared obj esft =>
    simp only [FamilyOp.valid, Bool.and_eq_true, decide_eq_true_eq] at hv
    have hp : esft = true → obj ≠ 0 := by
      intro he
      subst he
      simpa using hv.2
    obtain ⟨h1, s, hm, _, hinv1⟩ := hinv.op_make obj esft hv.1 hp
    exact ⟨_, by simp only [FamilyWorld.step, hm], hinv1⟩
  | ofRaw ptr esft =>
    simp only [FamilyOp.valid, Bool.and_eq_true, decide_eq_true_eq] at hv
    have hp : esft = true → ptr ≠ 0 := by
      intro he
      subst he
      simpa using hv.2
    obtain ⟨h1, s, _, hm, hinv1⟩ := hinv.op_make ptr esft hv.1 hp
    exact ⟨_, by simp only [FamilyWorld.step, hm], hinv1⟩
  | copy i =>
    simp only [FamilyOp.valid, Bool.and_eq_true, decide_eq_true_eq] at hv
    have hi : shared[i]? = some shared[i] := List.getElem?_eq_getElem hv.1
    obtain ⟨h1, s, hr, hinv1⟩ := hinv.op_copy hi hv.2
    exact ⟨_, by simp only [FamilyWorld.step, hi, hr], hinv1⟩
  | move i =>
    simp only [FamilyOp.valid, Bool.and_eq_true, decide_eq_true_eq] at hv
    have hi : shared[i]? = some shared[i] := List.getElem?_eq_getElem hv.1
    exact ⟨_, by simp only [FamilyWorld.step, hi], hinv.op_move hi hv.2⟩
  | copyAssign i j =>
    simp only [FamilyOp.valid, Bool.and_eq_true, decide_eq_true_eq] at hv
    have hi : shared[i]? = some shared[i] := List.getElem?_eq_getElem hv.1.1
    have hj : shared[j]? = some shared[j] := List.getElem?_eq_getElem hv.1.2
    obtain ⟨h1, a1, hr, hinv1⟩ := hinv.op_copy_assign hi hj hv.2
    exact ⟨_, by simp only [FamilyWorld.step, hi, hj, hr], hinv1⟩
  | moveAssign i j =>
    simp only [FamilyOp.valid, Bool.and_eq_true, decide_eq_true_eq] at hv
    have hi : shared[i]? = some shared[i] := List.getElem?_eq_getElem hv.1
    have hj : shared[j]? = some shared[j] := List.getElem?_eq_getElem hv.2
    obtain ⟨h1, a1, b1, hr, hinv1⟩ := hinv.op_move_assign hi hj
    exact ⟨_, by simp only [FamilyWorld.step, hi, hj, hr], hinv1⟩
  | reset i =>
    simp only [FamilyOp.valid, decide_eq_true_eq] at hv
    have hi : shared[i]? = some shared[i] := List.getElem?_eq_getElem hv
    obtain ⟨h1, a1, hr, hinv1⟩ := hinv.op_reset hi
    exact ⟨_, by simp only [FamilyWorld.step, hi, hr], hinv1⟩
  | swap i j =>
    simp only [FamilyOp.valid, Bool.and_eq_true, decide_eq_true_eq] at hv
    have hi : shared[i]? = some shared[i] := List.getElem?_eq_getElem hv.1
    have hj : shared[j]? = some shared[j] := List.getElem?_eq_getElem hv.2
    exact ⟨_, by simp only [FamilyWorld.step, hi, hj], hinv.op_swap hi hj⟩
  | destroy i =>
    simp only [FamilyOp.valid, decide_eq_true_eq] at hv
    have hi : shared[i]? = some shared[i] := List.getElem?_eq_getElem hv
    obtain ⟨h1, a1, hr, hinv1⟩ := hinv.op_reset hi
    exact ⟨_, by simp only [FamilyWorld.step, hi, hr], hinv1⟩
  | promote k =>
    simp only [FamilyOp.valid, Bool.and_eq_true, decide_eq_true_eq] at hv
    have hk : weak[k]? = some weak[k] := List.getElem?_eq_getElem hv.1
    obtain ⟨w1, hr, hinv1⟩ := hinv.op_promote hk hv.2
    exact ⟨w1, by simp only [FamilyWorld.step, hk, hr], hinv1⟩
  | lock k =>
    simp only [FamilyOp.valid, Bool.and_eq_true, decide_eq_true_eq] at hv
    have hk : weak[k]? = some weak[k] := List.getElem?_eq_getElem hv.1
    obtain ⟨w1, hr, hinv1⟩ := hinv.op_lock hk hv.2
    exact ⟨w1, by simp only [FamilyWorld.step, hk, hr], hinv1⟩
  | weakEmpty =>
    simp only [FamilyOp.valid, decide_eq_true_eq] at hv
    exact ⟨_, rfl, hinv.append_weak_none WeakPtr.empty hv rfl⟩
  | weakOfShared i =>
    simp only [FamilyOp.valid, Bool.and_eq_true, decide_eq_true_eq] at hv
    have hi : shared[i]? = some shared[i] := List.getElem?_eq_getElem hv.1
    obtain ⟨h1, x, hr, hinv1⟩ := hinv.op_weak_of_shared hi hv.2
    exact ⟨_, by simp only [FamilyWorld.step, hi, hr], hinv1⟩
  | weakCopy k =>
    simp only [FamilyOp.valid, Bool.and_eq_true, decide_eq_true_eq] at hv
    have hk : weak[k]? = some weak[k] := List.getElem?_eq_getElem hv.1
    obtain ⟨h1, x, hr, hinv1⟩ := hinv.op_weak_copy hk hv.2
    exact ⟨_, by simp only [FamilyWorld.step, hk, hr], hinv1⟩
  | weakMove k =>
    simp only [FamilyOp.valid, Bool.and_eq_true, decide_eq_true_eq] at hv
    have hk : weak[k]? = some weak[k] := List.getElem?_eq_getElem hv.1
    exact ⟨_, by simp only [FamilyWorld.step, hk], hinv.op_weak_move hk hv.2⟩
  | weakCopyAssign k l =>
    simp only [FamilyOp.valid, Bool.and_eq_true, decide_eq_true_eq] at hv
    have hk : weak[k]? = some weak[k] := List.getElem?_eq_getElem hv.1.1
    have hl : weak[l]? = some weak[l] := List.getElem?_eq_getElem hv.1.2
    obtain ⟨h1, x1, hr, hinv1⟩ := hinv.op_weak_copy_assign hk hl hv.2
    exact ⟨_, by simp only [FamilyWorld.step, hk, hl, hr], hinv1⟩
  | weakMoveAssign k l =>
    simp only [FamilyOp.valid, Bool.and_eq_true, decide_eq_true_eq] at hv
    have hk : weak[k]? = some weak[k] := List.getElem?_eq_getElem hv.1
    have hl : weak[l]? = some weak[l] := List.getElem?_eq_getElem hv.2
    obtain ⟨h1, x1, y1, hr, hinv1⟩ := hinv.op_weak_move_assign hk hl
    exact ⟨_, by simp only [FamilyWorld.step, hk, hl, hr], hinv1⟩
  | weakReset k =>
    simp only [FamilyOp.valid, decide_eq_true_eq] at hv
    have hk : weak[k]? = some weak[k] := List.getElem?_eq_getElem hv
    obtain ⟨h1, x1, hr, hinv1⟩ := hinv.op_weak_reset hk
    exact ⟨_, by simp only [FamilyWorld.step, hk, hr], hinv1⟩
  | weakSwap k l =>
    simp only [FamilyOp.valid, Bool.and_eq_true, decide_eq_true_eq] at hv
    have hk : weak[k]? = some weak[k] := List.getElem?_eq_getElem hv.1
    have hl : weak[l]? = some weak[l] := List.getElem?_eq_getElem hv.2
    exact ⟨_, by simp only [FamilyWorld.step, hk, hl], hinv.op_weak_swap hk hl⟩
  | weakDestroy k =>
    simp only [FamilyOp.valid, decide_eq_true_eq] at hv
    have hk : weak[k]? = some weak[k] := List.getElem?_eq_getElem hv
    obtain ⟨h1, x1, hr, hinv1⟩ := hinv.op_weak_reset hk
    exact ⟨_, by simp only [FamilyWorld.step, hk, hr], hinv1⟩

theorem FamilyWorld.run_keeps_inv (ops : List FamilyOp) :
    ∀ w : FamilyWorld, w.Inv → w.validRun ops = true →
      ∃ w1, w.run ops = some w1 ∧ w1.Inv := by
  induction ops with
  | nil =>
    intro w hinv _
    exact ⟨w, rfl, hinv⟩
  | cons op rest ih =>
    intro w hinv hv
    simp only [FamilyWorld.validRun, Bool.and_eq_true] at hv
    obtain ⟨hv1, hv2⟩ := hv
    obtain ⟨w1, hs, hinv1⟩ := FamilyWorld.step_keeps_inv hinv op hv1
    rw [hs] at hv2
    obtain ⟨w2, hr, hinv2⟩ := ih w1 hinv1 hv2
    exact ⟨w2, by simp only [FamilyWorld.run, hs, hr], hinv2⟩

/-- C23: from the state with no block and no variable, run any well-formed
sequence of `MakeShared`, `SharedPtr(Y*)`, default construction, and, on
`SharedPtr` and on `WeakPtr` variables, copy construction, move construction,
move assignment (self-assignment included), copy assignment between two
distinct variables, `Reset()`, `Swap`, destruction, `WeakPtr(const SharedPtr&)`,
`Lock()` and promotion `SharedPtr(const WeakPtr&)`.  The run returns; in the
state reached, every allocated control block has its strong count equal to the
number of `SharedPtr` variables referring to it, and its weak count equal to
the number of `WeakPtr` handles referring to it: the `WeakPtr` variables, and
the member `weak_this_` of the managed object when it is installed.  Every
block a variable refers to is allocated.  In any state, move construction and
`Swap`, of either kind of handle, leave the memory of control blocks as it is,
so they change no counter. -/
theorem shared_weak_counts_equal_handles (ops : List FamilyOp)
    (hvalid : FamilyWorld.start.validRun ops = true) :
    (∃ w1, FamilyWorld.start.run ops = some w1 ∧
      (∀ (b : Nat) (blk : ControlBlock), w1.heap.block b = some blk →
        blk.shared_count_ = w1.strongRefs b ∧
        blk.weak_count_ = w1.weakRefs b + (if blk.wired b = true then 1 else 0)) ∧
      (∀ b, 0 < w1.strongRefs b ∨ 0 < w1.weakRefs b → (w1.heap.block b).isSome = true)) ∧
    (∀ (w2 w3 : FamilyWorld) (i : Nat),
      w2.step (FamilyOp.move i) = some w3 → w3.heap = w2.heap) ∧
    (∀ (w2 w3 : FamilyWorld) (i j : Nat),
      w2.step (FamilyOp.swap i j) = some w3 → w3.heap = w2.heap) ∧
    (∀ (w2 w3 : FamilyWorld) (k : Nat),
      w2.step (FamilyOp.weakMove k) = some w3 → w3.heap = w2.heap) ∧
    (∀ (w2 w3 : FamilyWorld) (k l : Nat),
      w2.step (FamilyOp.weakSwap k l) = some w3 → w3.heap = w2.heap) := by
  obtain ⟨w1, hrun, hinv⟩ :=
    FamilyWorld.run_keeps_inv ops FamilyWorld.start FamilyWorld.Inv.at_empty hvalid
  refine ⟨⟨w1, hrun, ?_, ?_⟩, ?_, ?_, ?_, ?_⟩
  · intro b blk hblk
    obtain ⟨hg, _⟩ := Heap.get_of_block hblk
    have hcnt := hinv.2.2.2 b blk hg
    exact ⟨hcnt.1, hcnt.2.1⟩
  · intro b hlive
    obtain ⟨blk, hg, _, hd⟩ := Heap.Counts.lookup hinv.2.2 hlive
    rw [Heap.block_of_get hg hd]
    rfl
  · intro w2 w3 i hstep
    simp only [FamilyWorld.step] at hstep
    cases hi : w2.shared[i]? with
    | none => simp [hi] at hstep
    | some a =>
      simp only [hi, Option.some.injEq] at hstep
      rw [← hstep]
  · intro w2 w3 i j hstep
    simp only [FamilyWorld.step] at hstep
    cases hi : w2.shared[i]? with
    | none => simp [hi] at hstep
    | some a =>
      cases hj : w2.shared[j]? with
      | none => simp [hi, hj] at hstep
      | some b =>
        simp only [hi, hj, Option.some.injEq] at hstep
        rw [← hstep]
  · intro w2 w3 k hstep
    simp only [FamilyWorld.step] at hstep
    cases hk : w2.weak[k]? with
    | none => simp [hk] at hstep
    | some x =>
      simp only [hk, Option.some.injEq] at hstep
      rw [← hstep]
  · intro w2 w3 k l hstep
    simp only [FamilyWorld.step] at hstep
    cases hk : w2.weak[k]? with
    | none => simp [hk] at hstep
    | some x =>
      cases hl : w2.weak[l]? with
      | none => simp [hk, hl] at hstep
      | some y =>
        simp only [hk, hl, Option.some.injEq] at hstep
        rw [← hstep]

/-- C23 at a concrete input: one object with a self reference, seven strong and
four weak variables, through twenty-six operations. -/
theorem shared_weak_counts_equal_handles_witness :
    FamilyWorld.start.validRun sampleFamilyOps = true ∧
    ((∃ w1, FamilyWorld.start.run sampleFamilyOps = some w1 ∧
      (∀ (b : Nat) (blk : ControlBlock), w1.heap.block b = some blk →
        blk.shared_count_ = w1.strongRefs b ∧
        blk.weak_count_ = w1.weakRefs b + (if blk.wired b = true then 1 else 0)) ∧
      (∀ b, 0 < w1.strongRefs b ∨ 0 < w1.weakRefs b → (w1.heap.block b).isSome = true)) ∧
    (∀ (w2 w3 : FamilyWorld) (i : Nat),
      w2.step (FamilyOp.move i) = some w3 → w3.heap = w2.heap) ∧
    (∀ (w2 w3 : FamilyWorld) (i j : Nat),
      w2.step (FamilyOp.swap i j) = some w3 → w3.heap = w2.heap) ∧
    (∀ (w2 w3 : FamilyWorld) (k : Nat),
      w2.step (FamilyOp.weakMove k) = some w3 → w3.heap = w2.heap) ∧
    (∀ (w2 w3 : FamilyWorld) (k l : Nat),
      w2.step (FamilyOp.weakSwap k l) = some w3 → w3.heap = w2.heap)) :=
  ⟨by decide, shared_weak_counts_equal_handles sampleFamilyOps (by decide)⟩

end SmartPtrs
